import Mathlib

/-! BlinkParser: a shallow embedding of the watch and build orchestrator.

The definitions below follow `src/BlinkParserLive/blink.cpp`, `blink.h` and
`pdb_reader.h`.  Conventions:

* a `std::string` is a `List Char` (`Str`); `std::string::npos` is `none` for a
  search result and `2 ^ 64 - 1` where the code does arithmetic with it
  (`size_t` of the x64 build);
* a `DWORD` or `uint32_t` is a `Nat` reduced modulo `2 ^ 32` where the code adds;
* a `std::unordered_map` is an association list with at most one entry per key;
  a lookup in the container with the hash functor `path_hash` runs that functor
  on the key first;
* operating system calls (tick count, file existence, the linker, the compiler
  pipe) are parameters of the functions that use them.
-/

namespace BlinkParser

/-- A `std::string`, as the list of its characters. -/
abbrev Str := List Char

/-! ## std::string searching -/

/-- Whether `pat` occurs at the very start of `s`. -/
def starts_with : Str → Str → Bool
  | _, [] => true
  | [], _ :: _ => false
  | c :: s, p :: pat => c == p && starts_with s pat

/-- The least index `i + k` such that `pat` occurs in `s` at offset `k`, where
`i` is the index that the head of `s` has in the whole string. -/
def find_at (pat : Str) : Str → Nat → Option Nat
  | [], i => if pat.isEmpty then some i else none
  | c :: s, i => if starts_with (c :: s) pat then some i else find_at pat s (i + 1)

/-- The call `s.find(pat, pos)`: the least index not below `pos` at which
`pat` occurs in `s`, `none` standing for `std::string::npos`. -/
def str_find (s pat : Str) (pos : Nat) : Option Nat :=
  if s.length < pos then none else find_at pat (s.drop pos) pos

/-- The value of `std::string::npos` in `size_t` arithmetic. -/
def npos : Nat := 2 ^ 64 - 1

/-- A search result as the `size_t` the code computes with. -/
def to_size_t : Option Nat → Nat
  | some i => i
  | none => npos

/-- The call `s.erase(index, count)`: removes `min(count, size - index)`
characters starting at `index`. -/
def str_erase (s : Str) (index count : Nat) : Str :=
  s.take index ++ s.drop (index + min count (s.length - index))

/-! ## strtol -/

/-- The C `isspace` of the "C" locale. -/
def isspace (c : Char) : Bool :=
  c == ' ' || c == '\t' || c == '\n' || c.toNat == 11 || c.toNat == 12 || c == '\r'

/-- The C `isdigit`. -/
def isdigit (c : Char) : Bool := 48 ≤ c.toNat && c.toNat ≤ 57

/-- The value of a run of decimal digits. -/
def digits_value (ds : Str) : Nat :=
  ds.foldl (fun acc d => 10 * acc + (d.toNat - 48)) 0

/-- The call `strtol(s, nullptr, 10)` with a 32-bit `long`: leading white space
is skipped, an optional sign is read, then the longest run of decimal digits;
the value is clamped to the range of `long`; `0` when there is no digit. -/
def strtol (s : Str) : Int :=
  let body := s.dropWhile isspace
  let negative := body.head? == some '-'
  let unsigned_part := if body.head? == some '-' || body.head? == some '+' then body.drop 1 else body
  let magnitude : Int := digits_value (unsigned_part.takeWhile isdigit)
  if negative then max (-(2 : Int) ^ 31) (-magnitude) else min ((2 : Int) ^ 31 - 1) magnitude

/-! ## The compiler output loop of `Application::Run` (blink.cpp 228-265) -/

/-- What `Run` does that is visible outside: text handed to `print`, the two
host callbacks reached through `call_symbol`, the call of `link`, the command
written to the compiler and the deletion of the temporary object file. -/
inductive Effect
  | print (text : Str)
  | call_symbol_sync (source_file : Str)
  | link (object_file : Str)
  | call_symbol_release (source_file : Str) (link_success : Bool)
  | write_compiler (cmdline : Str)
  | delete_file (object_file : Str)
  deriving DecidableEq, Repr

/-- The `do ... while` of lines 239-245: the pieces of `message` passed to
`print`, starting at `offset`.  `fuel` bounds the number of iterations; every
iteration moves `offset` past a newline, so `message.length + 1` suffices. -/
def print_pieces (message : Str) : Nat → Nat → List Str
  | 0, _ => []
  | fuel + 1, offset =>
    match str_find message ['\n'] offset with
    | some next => ((message.drop offset).take (next - offset + 1)) :: print_pieces message fuel (next + 1)
    | none => [(message.drop offset).take (message.length - offset)]

/-- The completion sentinel searched for in line 249. -/
def completion_sentinel : Str := " with code ".toList

/-- The exit code as line 252 computes it: `strtol(message.data() + 11, nullptr, 10)`,
the text that starts eleven characters into the message. -/
def parsed_exit_code (message : Str) : Int := strtol (message.drop 11)

/-- One iteration of the compiler output loop for a non-empty `message` (lines
234-259): the effects in order, and whether the loop is left (`break`).
`link_result` is what `link(object_file)` returns. -/
def handle_compiler_message (source_file object_file : Str) (link_result : Bool) (message : Str) :
    List Effect × Bool :=
  let prints := (print_pieces message (message.length + 1) 0).map Effect.print
  match str_find message completion_sentinel 0 with
  | some _ =>
    if parsed_exit_code message = 0 then
      (prints ++ [Effect.call_symbol_sync source_file, Effect.link object_file,
        Effect.call_symbol_release source_file link_result], true)
    else (prints, true)
  | none => (prints, false)

/-- Whether one of the pre-link callback, `link` and the post-link callback is
among the effects. -/
def relink_invoked (effects : List Effect) : Bool :=
  effects.any fun
    | Effect.call_symbol_sync _ => true
    | Effect.link _ => true
    | Effect.call_symbol_release _ _ => true
    | _ => false

/-- The decimal text of a natural number, as `cmd.exe` expands `%errorlevel%`. -/
def decimal (n : Nat) : Str := Nat.toDigits 10 n

/-- The line `cmd.exe` prints for the `echo` command appended in line 222 when
the compile ended with exit code `code`. -/
def completion_message (object_file : Str) (code : Nat) : Str :=
  " Finished  compiling \"".toList ++ object_file ++ "\" with code ".toList ++ decimal code
    ++ ".\r\n".toList

/-! ## The symbol table (`_symbols`, blink.h 72) -/

/-- The `std::unordered_map<std::string, void*>`; an address is a `Nat`. -/
abbrev symbol_table := List (Str × Nat)

/-- The call `_symbols.find(name)`. -/
def symbols_find : symbol_table → Str → Option Nat
  | [], _ => none
  | (k, v) :: rest, name => if k = name then some v else symbols_find rest name

/-- The call `_symbols.insert({name, address})`: `std::unordered_map::insert`
adds the pair only when no element with that key is present. -/
def symbols_insert (symbols : symbol_table) (entry : Str × Nat) : symbol_table :=
  match symbols_find symbols entry.1 with
  | some _ => symbols
  | none => symbols ++ [entry]

/-- The constructor `Application::Application` (blink.cpp 48-53). -/
def Application_symbols (image_base : Nat) : symbol_table :=
  symbols_insert [] ("__ImageBase".toList, image_base)

/-- The insertions of line 369, for the thunks of the import tables in the
order `read_import_address_table` visits them, each already resolved to its
name and the address in its import address table slot. -/
def insert_imports (symbols : symbol_table) (imports : List (Str × Nat)) : symbol_table :=
  imports.foldl symbols_insert symbols

/-! ## Paths as text: extension and replace_extension -/

/-- A directory separator of the Windows path grammar. -/
def is_slash (c : Char) : Bool := c == '/' || c == '\\'

/-- Length of a drive root name (`C:`) at the start of a path; other root
names (UNC and device paths) are not modelled. -/
def root_name_length (p : Str) : Nat :=
  match p with
  | d :: ':' :: _ => if d.isAlpha then 2 else 0
  | _ => 0

/-- The `filename()` of a path: what follows the last separator of the part
after the root name. -/
def path_filename (p : Str) : Str :=
  ((p.drop (root_name_length p)).reverse.takeWhile (fun c => !is_slash c)).reverse

/-- The extension inside a filename that carries no alternate data stream:
from the last dot to the end, empty for `.` and `..`, when there is no dot, and
when the only dot is the first character. -/
def filename_extension (name : Str) : Str :=
  if name = ['.'] || name = ['.', '.'] then []
  else
    let tail_rev := name.reverse.takeWhile (fun c => c != '.')
    if tail_rev.length + 1 < name.length then '.' :: tail_rev.reverse else []

/-- The call `path.extension()`: the extension of the filename, an alternate
data stream suffix (from the first colon of the filename) left out. -/
def path_extension (p : Str) : Str :=
  filename_extension ((path_filename p).takeWhile (fun c => c != ':'))

/-- The call `path.replace_extension(replacement)`: the extension and any
alternate data stream suffix are erased, a dot is added unless the replacement
is empty or starts with one, and the replacement is appended. -/
def replace_extension (p replacement : Str) : Str :=
  let name := path_filename p
  let stem_and_extension := name.takeWhile (fun c => c != ':')
  let kept := p.length - name.length + (stem_and_extension.length - (filename_extension stem_and_extension).length)
  let dot : Str := if replacement.isEmpty || replacement.head? == some '.' then [] else ['.']
  p.take kept ++ dot ++ replacement

/-! ## The modification ledger and the change notifications (blink.cpp 203-225) -/

/-- The `std::unordered_map<std::string, uint32_t>` `_last_modifications`. -/
abbrev ledger := List (Str × Nat)

/-- The lookup part of `_last_modifications[key]`: the stored tick, `0` (the
value-initialised element `operator[]` creates) when the key is absent. -/
def ledger_value : ledger → Str → Nat
  | [], _ => 0
  | (k, v) :: rest, key => if k = key then v else ledger_value rest key

/-- The assignment `_last_modifications[key] = value`. -/
def ledger_assign : ledger → Str → Nat → ledger
  | [], key, value => [(key, value)]
  | (k, v) :: rest, key, value =>
    if k = key then (k, value) :: rest else (k, v) :: ledger_assign rest key value

/-- Whether the extension check of line 207 lets the path through. -/
def accepted_extension (source_file : Str) : Bool :=
  !(path_extension source_file != ".c".toList && path_extension source_file != ".cxx".toList)

/-- The debounce test of line 211: `_last_modifications[path] + 3000 > current_time`,
the sum taken in 32-bit unsigned arithmetic. -/
def debounced (last_modifications : ledger) (source_file : Str) (current_time : Nat) : Bool :=
  decide ((ledger_value last_modifications source_file + 3000) % 2 ^ 32 > current_time)

/-- Lines 206-214 for one notification: the ledger afterwards and whether the
notification goes on to dispatch a compile.  A rejected notification that
reached the ledger leaves the element `operator[]` created in it. -/
def notification_filter (last_modifications : ledger) (source_file : Str) (current_time : Nat) :
    ledger × Bool :=
  if !accepted_extension source_file then (last_modifications, false)
  else if debounced last_modifications source_file current_time then
    (ledger_assign last_modifications source_file (ledger_value last_modifications source_file), false)
  else (ledger_assign last_modifications source_file current_time, true)

/-- A sequence of notifications `(path, tick)` handled in order: the final ledger
and the notifications that dispatched a compile, in order. -/
def run_notifications : ledger → List (Str × Nat) → ledger × List (Str × Nat)
  | l, [] => (l, [])
  | l, (p, t) :: rest =>
    let r := notification_filter l p t
    let out := run_notifications r.1 rest
    (out.1, if r.2 then (p, t) :: out.2 else out.2)

/-! ## Stream_Reader and parse_code_view_records (pdb_reader.h 96-189) -/

/-- The class `Stream_Reader`: the bytes of the stream and the input position.
A byte is a `Nat` taken modulo 256; a read outside the vector, undefined in
C++, yields zero bytes here. -/
structure Stream_Reader where
  _stream_offset : Nat
  _stream : List Nat
  deriving DecidableEq, Repr

namespace Stream_Reader

/-- The total stream size in bytes. -/
def size (s : Stream_Reader) : Nat := s._stream.length

/-- The current input position. -/
def tell (s : Stream_Reader) : Nat := s._stream_offset

/-- The byte `*data(offset)`. -/
def data (s : Stream_Reader) (offset : Nat) : Nat :=
  s._stream.getD (s._stream_offset + offset) 0 % 256

/-- Moves the input position forward without reading. -/
def skip (s : Stream_Reader) (size : Nat) : Stream_Reader :=
  { s with _stream_offset := s._stream_offset + size }

/-- Sets the input position. -/
def seek (s : Stream_Reader) (offset : Nat) : Stream_Reader :=
  { s with _stream_offset := offset }

/-- Aligns the input position up to a multiple of `align`. -/
def align (s : Stream_Reader) (align : Nat) : Stream_Reader :=
  if s._stream_offset % align ≠ 0 then s.skip (align - s._stream_offset % align) else s

/-- The call `read<uint16_t>()`: the little-endian value at the position,
which moves on by two bytes. -/
def read_uint16 (s : Stream_Reader) : Nat × Stream_Reader :=
  (s.data 0 + 256 * s.data 1, s.skip 2)

/-- The call `read<uint32_t>()`. -/
def read_uint32 (s : Stream_Reader) : Nat × Stream_Reader :=
  (s.data 0 + 256 * s.data 1 + 65536 * s.data 2 + 16777216 * s.data 3, s.skip 4)

/-- The call `read_string()`: the characters up to the next zero byte; the
position moves past that byte. -/
def read_string (s : Stream_Reader) : Str × Stream_Reader :=
  let bytes := (s._stream.drop s._stream_offset).takeWhile (fun b => b % 256 != 0)
  (bytes.map (fun b => Char.ofNat (b % 256)), s.skip (bytes.length + 1))

end Stream_Reader

/-- The loop of `parse_code_view_records` (lines 175-188).  The callback receives
the tag, the reader and its own state, and hands back the reader (positioned
wherever it stopped) and its new state.  The result is the reader, the callback
state and the tags passed to the callback, in order.  Each iteration moves the
position at least two bytes beyond the record start, so `fuel` not below the
distance to `stream_end` is never used up. -/
def parse_records_loop {σ : Type} (callback : Nat → Stream_Reader → σ → Stream_Reader × σ)
    (stream_end alignment : Nat) : Nat → Stream_Reader → σ → Stream_Reader × σ × List Nat
  | 0, stream, state => (stream, state, [])
  | fuel + 1, stream, state =>
    if stream.tell < stream_end then
      let size := stream.read_uint16
      let code_view_tag := size.2.read_uint16
      let next_record_offset := (code_view_tag.2.tell - 2) + size.1
      let called := callback code_view_tag.1 code_view_tag.2 state
      let rest := parse_records_loop callback stream_end alignment fuel
        ((called.1.seek next_record_offset).align alignment) called.2
      (rest.1, rest.2.1, code_view_tag.1 :: rest.2.2)
    else (stream, state, [])

/-- The function `parse_code_view_records(stream, length, callback, alignment)`. -/
def parse_code_view_records {σ : Type} (stream : Stream_Reader) (length : Nat)
    (callback : Nat → Stream_Reader → σ → Stream_Reader × σ) (alignment : Nat) (state : σ) :
    Stream_Reader × σ × List Nat :=
  parse_records_loop callback (stream.tell + length) alignment length stream state

/-- The two bytes of a `uint16_t`, low byte first. -/
def encode_uint16 (n : Nat) : List Nat := [n % 256, n / 256 % 256]

/-- A CodeView record: its tag and the payload bytes after the tag. -/
structure code_view_record where
  tag : Nat
  payload : List Nat
  deriving DecidableEq, Repr

/-- The length field of a record: the bytes after the field itself, that is
the tag and the payload. -/
def code_view_record.length_field (r : code_view_record) : Nat := 2 + r.payload.length

/-- The bytes of a record: length field, tag, payload. -/
def encode_record (r : code_view_record) : List Nat :=
  encode_uint16 r.length_field ++ encode_uint16 r.tag ++ r.payload

/-- The bytes of a run of contiguous records. -/
def encode_records : List code_view_record → List Nat
  | [] => []
  | r :: rest => encode_record r ++ encode_records rest

/-- The four bytes of a `uint32_t`, low byte first. -/
def encode_uint32 (n : Nat) : List Nat :=
  [n % 256, n / 256 % 256, n / 65536 % 256, n / 16777216 % 256]

/-- A zero terminated string as bytes. -/
def c_string (s : Str) : List Nat := s.map Char.toNat ++ [0]

/-- The bytes of `key`, `value` pairs as an environment block stores them. -/
def envblock_strings : List (Str × Str) → List Nat
  | [] => []
  | (key, value) :: rest => c_string key ++ c_string value ++ envblock_strings rest

/-- An environment block record (`S_ENVBLOCK`, tag 0x113d): a flags byte, the
pairs, and the empty string that ends them. -/
def envblock_record (pairs : List (Str × Str)) : code_view_record :=
  { tag := 0x113d, payload := [0] ++ envblock_strings pairs ++ [0] }

/-- The raw data of a debug section of an object file: the signature
`CV_SIGNATURE_C13`, then one symbols subsection (`DEBUG_S_SYMBOLS`, 0xf1) that
holds the records. -/
def debug_section_data (records : List code_view_record) : List Nat :=
  encode_uint32 4 ++ encode_uint32 0xf1 ++ encode_uint32 (encode_records records).length
    ++ encode_records records

/-- The environment block of the example: working directory, compiler and
original arguments. -/
def example_envblock : code_view_record :=
  envblock_record [("cwd".toList, "/proj".toList), ("cl".toList, "/tools/cl".toList),
    ("cmd".toList, "/c /Od x.cpp".toList)]

/-- An environment block whose original arguments carry the output path flag
in both spellings. -/
def two_outputs_envblock : code_view_record :=
  envblock_record [("cwd".toList, "/proj".toList), ("cl".toList, "/tools/cl".toList),
    ("cmd".toList, "/c -Fo\"a.obj\" /Fo\"b.obj\" /Od ".toList)]

/-- A record is well formed when its length field and its tag fit 16 bits. -/
def well_formed_record (r : code_view_record) : Prop :=
  r.length_field < 65536 ∧ r.tag < 65536

/-! ## path_hash and path_comp (pdb_reader.h 31-47) -/

/-- The C `tolower` of the "C" locale. -/
def ascii_tolower (c : Char) : Char :=
  if 65 ≤ c.toNat ∧ c.toNat ≤ 90 then Char.ofNat (c.toNat + 32) else c

/-- The C string a `std::string` hands out with `c_str()`, as far as a C
function reads it: up to the first zero character. -/
def c_str (s : Str) : Str := s.takeWhile (fun c => c.toNat != 0)

/-- The functor `path_comp`: `_stricmp` of the two path texts gives zero. -/
def path_comp (lhs rhs : Str) : Bool :=
  (c_str lhs).map ascii_tolower == (c_str rhs).map ascii_tolower

/-- The loop of `path_hash` (lines 35-37).  The condition `index = str.size()`
assigns the size to `index` and goes on while it is not zero; the body then
changes `str[index]`, the character after the last one (`terminator`), and
leaves the size the same.  The result is `none` when `fuel` iterations did not
end the loop, otherwise the string the hash is taken of. -/
def path_hash_loop : Nat → Str → Nat → Option Str
  | 0, _, _ => none
  | fuel + 1, str, terminator =>
    if str.length ≠ 0 then path_hash_loop fuel str (terminator ||| 0x20)
    else some str

/-- The functor `path_hash`; `hash` is `std::hash<std::string>`.  The value is
`none` when the loop has not ended after `fuel` iterations. -/
def path_hash (hash : Str → Nat) (fuel : Nat) (path_text : Str) : Option Nat :=
  (path_hash_loop fuel path_text 0).map hash

/-! ## The lookup in the source file index (blink.cpp 404, pdb_reader.h 49) -/

/-- The container `source_file_map`: the path texts that are its keys, each with
the `module` of its `source_file_indices`. -/
abbrev source_file_map := List (Str × Nat)

/-- The call `_source_file_map.find(source_file)` of line 404.  The container
hashes the key with `path_hash` before it looks at any entry, so the call has
no outcome (`none`) when the hash is not returned after `fuel` iterations of
its loop.  Otherwise the outcome is the `module` of the first entry whose key
hashed to the same value and is equal to the key by `path_comp`, or `none` for
`end()`. -/
def source_file_map_find (hash : Str → Nat) (fuel : Nat) (_source_file_map : source_file_map)
    (source_file : Str) : Option (Option Nat) :=
  match path_hash hash fuel source_file with
  | none => none
  | some value =>
    some ((_source_file_map.find? (fun entry =>
      path_hash hash fuel entry.1 == some value && path_comp entry.1 source_file)).map Prod.snd)

/-! ## build_compile_command_line (blink.cpp 397-520) -/

/-- The inner loop of the environment block handler (lines 448-459): reads
`key`, `value` pairs until a zero byte or the stream end and appends to the
command line.  Every pair moves the position by at least two bytes. -/
def envblock_pairs : Nat → Stream_Reader → Str → Stream_Reader × Str
  | 0, stream, cmdline => (stream, cmdline)
  | fuel + 1, stream, cmdline =>
    if stream.tell < stream.size && stream.data 0 != 0 then
      let key := stream.read_string
      let value := key.2.read_string
      let cmdline :=
        if key.1 = "cwd".toList then
          cmdline ++ "cd /D \"".toList ++ value.1 ++ "\"\n".toList
        else if key.1 = "cl".toList then
          cmdline ++ "set PATH=%PATH%;".toList ++ value.1 ++ "\\..\\..\\x86;".toList ++ value.1
            ++ "\\..\\..\\x64\n\"".toList ++ value.1 ++ "\" ".toList
        else if key.1 = "cmd".toList then cmdline ++ value.1
        else cmdline
      envblock_pairs fuel value.2 cmdline
    else (stream, cmdline)

/-- The callback of lines 444-460: only the environment block record
(`S_ENVBLOCK`, tag 0x113d) is read. -/
def envblock_callback (tag : Nat) (stream : Stream_Reader) (cmdline : Str) : Stream_Reader × Str :=
  if tag ≠ 0x113d then (stream, cmdline)
  else envblock_pairs stream.size (stream.skip 1) cmdline

/-- The loop over the subsections of the debug section (lines 432-463).  Every
iteration reads the eight byte subsection header, so `fuel` equal to the stream
size is never used up. -/
def read_subsections : Nat → Stream_Reader → Str → Stream_Reader × Str
  | 0, stream, cmdline => (stream, cmdline)
  | fuel + 1, stream, cmdline =>
    if stream.tell < stream.size && cmdline.isEmpty then
      let subsection_type := stream.read_uint32
      let subsection_length := subsection_type.2.read_uint32
      if subsection_type.1 ≠ 0xf1 then
        read_subsections fuel ((subsection_length.2.skip subsection_length.1).align 4) cmdline
      else
        let parsed := parse_code_view_records subsection_length.2 subsection_length.1
          envblock_callback 1 cmdline
        read_subsections fuel (parsed.1.align 4) parsed.2.1
    else (stream, cmdline)

/-- A section of an object file as lines 414-426 use it: the C string at
`Name` and the raw data the header points to. -/
structure coff_section where
  Name : Str
  raw_data : List Nat
  deriving DecidableEq, Repr

/-- The section name line 420 compares with. -/
def debug_section_name : Str := ".debug&S".toList

/-- Lines 409-466: the command line recovered from the sections of the original
object file, empty when there is no section of the name searched for or no
environment block in it. -/
def command_line_of_sections (sections : List coff_section) : Str :=
  match sections.find? (fun s => s.Name == debug_section_name) with
  | some section_header =>
    let stream : Stream_Reader := { _stream_offset := 0, _stream := section_header.raw_data }
    (read_subsections stream.size (stream.skip 4) []).2
  | none => []

/-- The default command line assigned last in lines 470-483. -/
def default_command_line : Str :=
  "cl.exe /c /ZI /JMC /nologo /W3 /WX- /diagnostics:column /sdl /Od /D _DEBUG /D _CONSOLE /D _CRT_OBSOLETE_NO_WARNINGS /D _UNICODE /D UNICODE /Gm- /EHsc /RTC1 /MDd /GS /fp:precise /Zc:wchar_t /Zc:forScope /Zc:inline /permissive- /Fo\"x64\\Debug\\\\\" /Fd\"x64\\Debug\\vc143.pdb\" /external:W3 /Gd /TP /FC /errorReport:prompt ".toList

/-- The lambda `remove_arg` once the flag was found at `offset` (lines 493-496).
The erase count is computed in `size_t` arithmetic. -/
def erase_arg (cmdline arg : Str) (offset : Nat) : Str :=
  if cmdline.getD (offset + 1 + arg.length) (Char.ofNat 0) != '"' then
    str_erase cmdline offset
      ((to_size_t (str_find cmdline [' '] offset) + 2 ^ 64 - offset) % 2 ^ 64)
  else
    str_erase cmdline offset
      ((to_size_t (str_find cmdline ['"'] (offset + 2 + arg.length)) + 2 + 2 ^ 64 - offset) % 2 ^ 64)

/-- The lambda `remove_arg` (lines 489-499): the `-` spelling is searched
first, then the `/` spelling; the first spelling found is erased once. -/
def remove_arg (cmdline arg : Str) : Str :=
  match str_find cmdline ('-' :: arg) 0 with
  | some offset => erase_arg cmdline arg offset
  | none =>
    match str_find cmdline ('/' :: arg) 0 with
    | some offset => erase_arg cmdline arg offset
    | none => cmdline

/-- Whether `pat` occurs in `s`: `s.find(pat) != npos`. -/
def contains_str (s pat : Str) : Bool := (str_find s pat 0).isSome

/-- The flags lines 501-506 remove. -/
def removed_flags : List Str :=
  ["Fo".toList, "Fd".toList, "ZI".toList, "Yu".toList, "Yc".toList, "JMC".toList]

/-- The text of arguments that are each followed by one blank. -/
def join_arguments : List Str → Str
  | [] => []
  | argument :: rest => argument ++ ' ' :: join_arguments rest

/-- A command line as the text of its arguments, with one blank between
neighbours.  An empty argument stands for a blank that follows a blank, or for
a blank at the start or the end of the line, so every text is the command line
of some arguments; an argument may hold blanks itself, as a quoted value does. -/
def command_line_text : List Str → Str
  | [] => []
  | [argument] => argument
  | argument :: next :: rest => argument ++ ' ' :: command_line_text (next :: rest)

/-- What follows an argument on the line: nothing when it is the last one,
otherwise a blank and the arguments behind it. -/
def following_text (back : List Str) : Str :=
  if back.isEmpty then [] else ' ' :: command_line_text back

/-- Whether an argument contains the flag `arg` in one of its spellings. -/
def mentions (arg argument : Str) : Bool :=
  contains_str argument ('-' :: arg) || contains_str argument ('/' :: arg)

/-- Whether a text without its first character is free of `"` up to its last
character, which is `"`. -/
def closes_quote : Str → Bool
  | [] => false
  | [c] => c == '"'
  | c :: rest => c != '"' && closes_quote rest

/-- The value that follows a flag in an argument of its own: when it opens with
`"` the only other `"` is its last character; otherwise it holds no blank. -/
def closed_value (value : Str) : Bool :=
  if value.head? = some '"' then closes_quote (value.drop 1) else !value.contains ' '

/-- Whether an argument is the flag `arg` itself: it starts with the flag in
the `-` spelling, or in the `/` spelling and then does not contain the `-`
spelling, and its value is closed. -/
def flag_argument (arg argument : Str) : Bool :=
  (starts_with argument ('-' :: arg)
      || (starts_with argument ('/' :: arg) && !contains_str argument ('-' :: arg)))
    && closed_value (argument.drop (1 + arg.length))

/-- The flag `arg` is carried by at most one argument of the line, and that
argument is the flag itself. -/
def carried_once (arg : Str) (arguments : List Str) : Bool :=
  arguments.all (fun argument => !mentions arg argument || flag_argument arg argument)
    && decide ((arguments.filter (mentions arg)).length ≤ 1)

/-- Each of the removed flags is carried by at most one argument, which is the
flag itself. -/
def flags_carried_once (arguments : List Str) : Bool :=
  removed_flags.all (fun arg => carried_once arg arguments)

/-- Whether an argument carries none of the removed flags. -/
def carries_no_flag (argument : Str) : Bool :=
  removed_flags.all (fun arg => !mentions arg argument)

/-- Whether the search of `remove_arg` for the flag `arg` stops at the start of
the argument `x`, which stands between the arguments `front` and `back`: `x`
starts with the `-` spelling and no argument before it contains that spelling;
or `x` starts with the `/` spelling, no argument of the line contains the `-`
spelling and no argument before `x` contains the `/` spelling. -/
def found_at_argument (arg : Str) (front : List Str) (x : Str) (back : List Str) : Bool :=
  (starts_with x ('-' :: arg) && front.all (fun y => !contains_str y ('-' :: arg)))
    || (starts_with x ('/' :: arg)
      && (front ++ x :: back).all (fun y => !contains_str y ('-' :: arg))
      && front.all (fun y => !contains_str y ('/' :: arg)))

/-- Whether a quote that follows the flag `arg` directly in the argument `x` is
closed within `x`; true as well when no quote follows the flag. -/
def quote_closed_within (arg x : Str) : Bool :=
  if (x.drop (1 + arg.length)).head? = some '"' then (x.drop (2 + arg.length)).contains '"'
  else true

/-- Whether the erasure at the flag `arg` that starts the argument `x`, between
`front` and `back`, stays within `x` and the blank behind it.  It does when no
quote follows the flag, and when the quote that follows it is closed within
`x`.  A quote that is not closed within `x` is closed by the next quote on the
line; when there is none, the number of characters erased is
`npos + 2 - offset` in `size_t`, which is 1 at the offset 0, 0 at the offset 1
and reaches the end of the line from the offset 2 on: the erasure then stays
within `x` when `x` is the last argument or starts at one of the first two
characters of the line. -/
def erasure_within (arg : Str) (front : List Str) (x : Str) (back : List Str) : Bool :=
  quote_closed_within arg x
    || (back.all (fun y => !y.contains '"')
      && (back.isEmpty || decide ((join_arguments front).length ≤ 1)))

/-- What `remove_arg` keeps of the text of the line from the occurrence of the
flag `arg` it has found on, `text`, which starts at the offset `offset` of the
line.  Without a quote behind the flag it is the text from its first blank on.
With a quote behind the flag that is followed by another quote it is what
follows that second quote, less one character.  With a quote that no other
quote follows it is the text without its first character at the offset 0, all
of the text at the offset 1, and nothing from the offset 2 on. -/
def kept_from_flag (offset : Nat) (arg text : Str) : Str :=
  if (text.drop (1 + arg.length)).head? = some '"' then
    if (text.drop (2 + arg.length)).contains '"' then
      ((text.drop (2 + arg.length)).dropWhile (fun ch => ch != '"')).drop 2
    else if offset = 0 then text.drop 1
    else if offset = 1 then text
    else []
  else text.dropWhile (fun ch => ch != ' ')

/-- The line `remove_arg` leaves, told without `find` and `erase`: the line is
cut at the first occurrence of the `-` spelling of the flag, or, when there is
none, of the `/` spelling; what is before the occurrence stays, and behind it
`kept_from_flag`.  The line stays as it is when it holds neither spelling. -/
def line_after_removal (cmdline arg : Str) : Str :=
  match str_find cmdline ('-' :: arg) 0 with
  | some offset => cmdline.take offset ++ kept_from_flag offset arg (cmdline.drop offset)
  | none =>
    match str_find cmdline ('/' :: arg) 0 with
    | some offset => cmdline.take offset ++ kept_from_flag offset arg (cmdline.drop offset)
    | none => cmdline

/-- What `remove_arg` keeps of the argument `x`, which starts with the flag `arg`
and stands behind the arguments `front`, when the search stops at its start.
Without a quote behind the flag it is `x` from its first blank on, nothing when
`x` holds no blank.  With a quote that is closed within `x` it is what follows
the closing quote, less one character.  With a quote that is not closed it is,
by the offset of `x` on the line, `x` without its first character (offset 0),
all of `x` (offset 1), or nothing. -/
def kept_of_argument (arg : Str) (front : List Str) (x : Str) : Str :=
  if (x.drop (1 + arg.length)).head? = some '"' then
    if (x.drop (2 + arg.length)).contains '"' then
      ((x.drop (2 + arg.length)).dropWhile (fun ch => ch != '"')).drop 2
    else if (join_arguments front).length = 0 then x.drop 1
    else if (join_arguments front).length = 1 then x
    else []
  else x.dropWhile (fun ch => ch != ' ')

/-- Whether the flag `arg` and its quoted value are all of the argument `x`: a
quote follows the flag, and the next quote is the last character of `x`. -/
def ends_with_quoted_value (arg x : Str) : Bool :=
  (x.drop (1 + arg.length)).head? = some '"'
    && (x.drop (2 + arg.length)).dropWhile (fun ch => ch != '"') == ['"']

/-- The arguments of the line after `remove_arg` has made its erasure at the
start of the argument `x`, between `front` and `back`: `x` gives way to what is
kept of it; when the flag and its quoted value are all of `x` and arguments
follow, `x` is taken out together with the blank behind it. -/
def arguments_after_removal (arg : Str) (front : List Str) (x : Str) (back : List Str) :
    List Str :=
  if ends_with_quoted_value arg x && !back.isEmpty then front ++ back
  else front ++ kept_of_argument arg front x :: back

/-- The default command line as its arguments. -/
def default_arguments : List Str :=
  ["cl.exe", "/c", "/ZI", "/JMC", "/nologo", "/W3", "/WX-", "/diagnostics:column", "/sdl", "/Od",
    "/D", "_DEBUG", "/D", "_CONSOLE", "/D", "_CRT_OBSOLETE_NO_WARNINGS", "/D", "_UNICODE", "/D",
    "UNICODE", "/Gm-", "/EHsc", "/RTC1", "/MDd", "/GS", "/fp:precise", "/Zc:wchar_t",
    "/Zc:forScope", "/Zc:inline", "/permissive-", "/Fo\"x64\\Debug\\\\\"",
    "/Fd\"x64\\Debug\\vc143.pdb\"", "/external:W3", "/Gd", "/TP", "/FC",
    "/errorReport:prompt"].map String.toList

/-- Lines 501-506: the six calls of `remove_arg`. -/
def remove_args (cmdline : Str) : Str :=
  remove_arg (remove_arg (remove_arg (remove_arg (remove_arg (remove_arg cmdline
    "Fo".toList) "Fd".toList) "ZI".toList) "Yu".toList) "Yc".toList) "JMC".toList

/-- The temporary object file of line 510. -/
def temp_object_file (source_file : Str) : Str :=
  replace_extension source_file "temp.obj".toList

/-- Lines 488-518: from the command line the branches arrived at to the
returned command line and `object_file`. -/
def finish_command_line (cmdline source_file : Str) : Str × Str :=
  let object_file := temp_object_file source_file
  (remove_args cmdline ++ ['"'] ++ source_file ++ ['"'] ++ " /Fo\"".toList ++ object_file ++ ['"'],
    object_file)

/-- Lines 406-483, what follows the lookup of line 404 once it has returned:
`found` is the `module` of the entry it returned, `none` when it returned
`end()`.  `open_coff_file` gives the sections of the object file at a path when
the file can be opened.  The result is the command line read from the original
object file, or the default command line when nothing was read. -/
def command_line_after_find (found : Option Nat) (_object_files : List Str)
    (open_coff_file : Str → Option (List coff_section)) : Str :=
  let cmdline : Str :=
    match found with
    | some module =>
      match open_coff_file (_object_files.getD module []) with
      | some sections => command_line_of_sections sections
      | none => []
    | none => []
  if cmdline.isEmpty then default_command_line else cmdline

/-- Lines 406-518, the function from the point where the lookup of line 404 has
returned `found`: the returned command line and the value left in
`object_file`. -/
def build_compile_command_line_after_find (found : Option Nat) (_object_files : List Str)
    (open_coff_file : Str → Option (List coff_section)) (source_file : Str) : Str × Str :=
  finish_command_line (command_line_after_find found _object_files open_coff_file) source_file

/-- The function `build_compile_command_line`: the returned command line and the
value left in `object_file`, or `none` when the function does not return
because the lookup of line 404 does not. -/
def build_compile_command_line (hash : Str → Nat) (fuel : Nat)
    (_source_file_map : source_file_map) (_object_files : List Str)
    (open_coff_file : Str → Option (List coff_section)) (source_file : Str) :
    Option (Str × Str) :=
  (source_file_map_find hash fuel _source_file_map source_file).map
    (fun found =>
      build_compile_command_line_after_find found _object_files open_coff_file source_file)

/-! ## The source directory set (blink.cpp 9-46) -/

/-- An element of the iteration over a `std::filesystem::path`. -/
inductive path_element
  | root_name (text : Str)
  | root_directory
  | filename (text : Str)
  deriving DecidableEq, Repr

/-- A `std::filesystem::path` as the sequence of elements its iterators run
through; two paths are equal when these sequences are, and `/=` applied to the
elements of a path in order rebuilds it. -/
abbrev path := List path_element

/-- The filenames of the relative part of a path text: the pieces between runs
of separators, with an empty last piece when the text ends in a separator.
`current` holds the characters of the piece being read, last first. -/
def split_filenames : Str → Str → Bool → List Str
  | [], current, _ => [current.reverse]
  | c :: rest, current, after_slash =>
    if is_slash c then
      if after_slash then split_filenames rest [] true
      else current.reverse :: split_filenames rest [] true
    else split_filenames rest (c :: current) false

/-- The elements of a path given as text: the drive root name, the root
directory, and the filenames of the relative part. -/
def path_elements (p : Str) : path :=
  let after_root_name := p.drop (root_name_length p)
  let relative := after_root_name.dropWhile is_slash
  (if root_name_length p = 0 then [] else [path_element.root_name (p.take (root_name_length p))])
    ++ (if after_root_name.head?.any is_slash then [path_element.root_directory] else [])
    ++ (if relative.isEmpty then [] else (split_filenames relative [] false).map path_element.filename)

/-- The call `p.parent_path()`: the path without its last filename; a path
without a relative part is its own parent. -/
def parent_path (p : path) : path :=
  match p.getLast? with
  | some (path_element.filename _) => p.dropLast
  | _ => p

/-- The function `add_unique_path`. -/
def add_unique_path (paths : List path) (p : path) : List path :=
  if p.isEmpty then paths
  else if paths.contains p then paths
  else paths ++ [p]

/-- Lines 35-38: `common_path` after the loop over the two element sequences. -/
def common_elements : path → path → path
  | a :: p, b :: q => if a = b then a :: common_elements p q else []
  | _, _ => []

/-- The loop of lines 33-41 over `source_dirs`: the rewritten entries and the
value `common_path` has after the last entry (`common_path` is what it was on
entry when there is none). -/
def collapse_dirs (file_directory : path) : List path → path → List path × path
  | [], common_path => ([], common_path)
  | dir :: rest, _ =>
    let common_path := common_elements file_directory dir
    let tail := collapse_dirs file_directory rest common_path
    ((if common_path.isEmpty then dir else common_path) :: tail.1, tail.2)

/-- The body of the loop of lines 25-45 for one path. -/
def examine_path (file_exists : path → Bool) (source_dirs : List path) (p : path) : List path :=
  if !file_exists p then source_dirs
  else
    let file_directory := parent_path p
    let collapsed := collapse_dirs file_directory source_dirs []
    if !collapsed.2.isEmpty && !file_directory.isEmpty then add_unique_path collapsed.1 file_directory
    else collapsed.1

/-- The function `find_common_paths`; `file_exists` is `std::filesystem::exists`. -/
def find_common_paths (file_exists : path → Bool) (paths : List path) (source_dirs : List path) :
    List path :=
  match paths with
  | [] => source_dirs
  | first :: rest => rest.foldl (examine_path file_exists) (add_unique_path source_dirs (parent_path first))

/-- Whether the elements of `p` are the first elements of `q`: `p` is `q` or a
directory above it. -/
def leading_part : path → path → Bool
  | [], _ => true
  | _ :: _, [] => false
  | a :: p, b :: q => a == b && leading_part p q

/-- Whether `p` is a sub-path of `q`: a path strictly below `q`. -/
def is_sub_path (p q : path) : Bool := leading_part q p && p != q

/-- The path `/proj/src/a/x.cpp`. -/
def proj_src_a_x : path := path_elements "/proj/src/a/x.cpp".toList

/-- The path `/proj/src/b/y.cpp`. -/
def proj_src_b_y : path := path_elements "/proj/src/b/y.cpp".toList

/-- The path `/proj/src/c/z.cpp`. -/
def proj_src_c_z : path := path_elements "/proj/src/c/z.cpp".toList

/-- The directory `/proj/src`. -/
def proj_src : path := path_elements "/proj/src".toList

/-- The directory `/proj`. -/
def proj : path := path_elements "/proj".toList

/-! ## One change notification, from the filter to the deletion (blink.cpp 203-265) -/

/-- The call `print(std::string)` of blink.h: a newline is appended to the text. -/
def print_line (text : Str) : Effect := Effect.print (text ++ ['\n'])

/-- The text line 222 appends to the command line. -/
def completion_echo (object_file : Str) : Str :=
  "\necho  Finished  compiling \"".toList ++ object_file
    ++ "\" with code %errorlevel%.\n".toList

/-- The loop of lines 229-261 over the chunks the compiler pipe delivers, in
order.  An empty chunk is skipped (`continue`); the loop is left at the first
chunk with the completion sentinel, or when the pipe delivers nothing more. -/
def compiler_output_loop (source_file object_file : Str) (link : Str → Bool) :
    List Str → List Effect
  | [] => []
  | message :: rest =>
    if message.isEmpty then compiler_output_loop source_file object_file link rest
    else if (handle_compiler_message source_file object_file (link object_file) message).2 then
      (handle_compiler_message source_file object_file (link object_file) message).1
    else
      (handle_compiler_message source_file object_file (link object_file) message).1
        ++ compiler_output_loop source_file object_file link rest

/-- Lines 221-265, what follows the call of `build_compile_command_line` once it
has returned `cmdline` and left `object_file`: the command written to the
compiler with the completion echo appended, the loop over the compiler output,
and the deletion of the object file. -/
def compile_and_relink (cmdline object_file source_file : Str) (link : Str → Bool)
    (compiler_output : List Str) : List Effect :=
  [Effect.write_compiler (cmdline ++ completion_echo object_file)]
    ++ compiler_output_loop source_file object_file link compiler_output
    ++ [Effect.delete_file object_file]

/-- The body of the loop of lines 200-266 for one notification of `source_file`
at the tick `current_time`: the ledger afterwards, the effects in order, and
whether the body comes to its end (`false` when `build_compile_command_line`
does not return).  `hash`, `fuel`, `_source_file_map`, `_object_files` and
`open_coff_file` are what `build_compile_command_line` works on, `link` is
`Application::link`, and `compiler_output` are the chunks read from the compiler
after the command was written. -/
def handle_notification (hash : Str → Nat) (fuel : Nat) (_source_file_map : source_file_map)
    (_object_files : List Str) (open_coff_file : Str → Option (List coff_section))
    (link : Str → Bool) (last_modifications : ledger) (source_file : Str) (current_time : Nat)
    (compiler_output : List Str) : ledger × List Effect × Bool :=
  if (notification_filter last_modifications source_file current_time).2 then
    match build_compile_command_line hash fuel _source_file_map _object_files open_coff_file
        source_file with
    | some built =>
      ((notification_filter last_modifications source_file current_time).1,
        print_line ("Detected  modification to: ".toList ++ source_file)
          :: compile_and_relink built.1 built.2 source_file link compiler_output, true)
    | none =>
      ((notification_filter last_modifications source_file current_time).1,
        [print_line ("Detected  modification to: ".toList ++ source_file)], false)
  else ((notification_filter last_modifications source_file current_time).1, [], true)

/-! ## read_debug_info (blink.cpp 273-323) -/

/-- The 32-bit little-endian value at an offset of a memory block; bytes
outside the block read as zero. -/
def dword_at (memory : List Nat) (offset : Nat) : Nat :=
  memory.getD offset 0 % 256 + 256 * (memory.getD (offset + 1) 0 % 256)
    + 65536 * (memory.getD (offset + 2) 0 % 256) + 16777216 * (memory.getD (offset + 3) 0 % 256)

/-- The zero terminated string at an offset of a memory block. -/
def c_string_at (memory : List Nat) (offset : Nat) : Str :=
  ((memory.drop offset).takeWhile (fun b => b % 256 != 0)).map (fun b => Char.ofNat (b % 256))

/-- The value `IMAGE_DEBUG_TYPE_CODEVIEW` of the Windows headers. -/
def IMAGE_DEBUG_TYPE_CODEVIEW : Nat := 2

/-- An `IMAGE_DEBUG_DIRECTORY` entry as lines 295-299 use it: its type and the
bytes at `AddressOfRawData`. -/
structure debug_directory_entry where
  type : Nat
  raw_data : List Nat
  deriving DecidableEq, Repr

/-- The field `signature` of `RSDS_DEBUG_FORMAT`: the first four bytes. -/
def debug_signature (raw_data : List Nat) : Nat := dword_at raw_data 0

/-- The field `path` of `RSDS_DEBUG_FORMAT`: after the signature, the sixteen
bytes of the `guid` and the age, at offset 24. -/
def debug_path (raw_data : List Nat) : Str := c_string_at raw_data 24

/-- The loop of lines 293-302: `debug_data` after the entries, starting from the
value it has before them.  It is set at every CodeView entry, and the loop is
left at the first one whose signature is `RSDS`. -/
def find_debug_data : List debug_directory_entry → Option (List Nat) → Option (List Nat)
  | [], debug_data => debug_data
  | entry :: rest, debug_data =>
    if entry.type = IMAGE_DEBUG_TYPE_CODEVIEW then
      if debug_signature entry.raw_data = 0x53445352 then some entry.raw_data
      else find_debug_data rest (some entry.raw_data)
    else find_debug_data rest debug_data

/-- Lines 285-307 of `read_debug_info`: `none` when the function returns false
in line 305, otherwise the path the `pdb_reader` is opened with in line 307.
What the reader does from there on is in `pdb_reader`. -/
def read_debug_info_database (entries : List debug_directory_entry) : Option Str :=
  (find_debug_data entries none).map debug_path

/-- Whether a debug directory entry is a CodeView entry whose payload begins
with the `RSDS` signature. -/
def is_rsds_entry (entry : debug_directory_entry) : Bool :=
  entry.type == IMAGE_DEBUG_TYPE_CODEVIEW && debug_signature entry.raw_data == 0x53445352

/-- The payload of an `RSDS` record: signature, guid, age, path. -/
def rsds_payload (guid : List Nat) (age : Nat) (database : Str) : List Nat :=
  encode_uint32 0x53445352 ++ guid.take 16 ++ List.replicate (16 - guid.length) 0
    ++ encode_uint32 age ++ c_string database

/-- The payload of an older `NB10` CodeView record: signature, offset,
timestamp, age, path. -/
def nb10_payload (timestamp age : Nat) (database : Str) : List Nat :=
  encode_uint32 0x3031424E ++ encode_uint32 0 ++ encode_uint32 timestamp ++ encode_uint32 age
    ++ c_string database

/-! ## read_import_address_table (blink.cpp 325-375) -/

/-- The fields of `IMAGE_EXPORT_DIRECTORY` that lines 354-358 read. -/
structure export_directory where
  NumberOfNames : Nat
  AddressOfNames : Nat
  AddressOfNameOrdinals : Nat
  deriving DecidableEq, Repr

/-- A loaded module as the lookup of an ordinal reads it: the bytes from its
base address on, and its export directory. -/
structure target_module where
  memory : List Nat
  exports : export_directory
  deriving DecidableEq, Repr

/-- The macro `IMAGE_SNAP_BY_ORDINAL` of the 64-bit headers: the top bit of the
thunk value is set. -/
def IMAGE_SNAP_BY_ORDINAL (ordinal : Nat) : Bool := ordinal / 2 ^ 63 % 2 == 1

/-- The macro `IMAGE_ORDINAL`: the low sixteen bits of the thunk value. -/
def IMAGE_ORDINAL (ordinal : Nat) : Nat := ordinal % 65536

/-- The element `export_name_ordinals[index]`; line 355 declares the table a
`const DWORD*`, so an element is four bytes. -/
def export_name_ordinal (target : target_module) (index : Nat) : Nat :=
  dword_at target.memory (target.exports.AddressOfNameOrdinals + 4 * index)

/-- The `std::find` of line 357: the first index below `NumberOfNames` whose
element equals the ordinal. -/
def find_ordinal (target : target_module) (ordinal : Nat) : Option Nat :=
  (List.range target.exports.NumberOfNames).find? (fun index =>
    export_name_ordinal target index == ordinal)

/-- The name line 359 reads: the string at the RVA `export_name_strings[index]`. -/
def export_name (target : target_module) (index : Nat) : Str :=
  c_string_at target.memory (dword_at target.memory (target.exports.AddressOfNames + 4 * index))

/-- The body of the loop of lines 345-371 for one thunk: `name_entry` is the
value in the import name table, `address_entry` the value in the import address
table slot, `image` the bytes of the importing image (an import by name has its
name two bytes after the RVA, behind the hint). -/
def import_thunk (image : List Nat) (target : target_module) (symbols : symbol_table)
    (name_entry address_entry : Nat) : symbol_table :=
  if IMAGE_SNAP_BY_ORDINAL name_entry then
    match find_ordinal target (IMAGE_ORDINAL name_entry) with
    | some index => symbols_insert symbols (export_name target index, address_entry)
    | none => symbols
  else symbols_insert symbols (c_string_at image (name_entry + 2), address_entry)

/-- The loop of lines 345-371 over the thunks of one imported module, up to the
first entry of the import name table that is zero. -/
def import_thunks (image : List Nat) (target : target_module) :
    symbol_table → List (Nat × Nat) → symbol_table
  | symbols, [] => symbols
  | symbols, (name_entry, address_entry) :: rest =>
    if name_entry = 0 then symbols
    else import_thunks image target (import_thunk image target symbols name_entry address_entry) rest

/-- The RVAs of names stored one after the other from `start` on. -/
def name_offsets : Nat → List Str → List Nat
  | _, [] => []
  | start, name :: rest => start :: name_offsets (start + name.length + 1) rest

/-- The concatenation of the encodings of the elements of a list. -/
def encode_all {α : Type} (encode : α → List Nat) : List α → List Nat
  | [] => []
  | a :: rest => encode a ++ encode_all encode rest

/-- The name tables of an export directory in the layout of the PE format: the
export name pointer table with one 32-bit RVA per name, the export ordinal
table with one 16-bit entry per name, then the names.  An entry of the list is
the ordinal table entry and the name of one export. -/
def pe_export_tables (entries : List (Nat × Str)) : target_module :=
  { memory :=
      encode_all encode_uint32 (name_offsets (6 * entries.length) (entries.map Prod.snd))
        ++ encode_all encode_uint16 (entries.map Prod.fst)
        ++ encode_all c_string (entries.map Prod.snd),
    exports :=
      { NumberOfNames := entries.length, AddressOfNames := 0,
        AddressOfNameOrdinals := 4 * entries.length } }

/-- The 16-bit little-endian value at an offset of a memory block. -/
def word_at (memory : List Nat) (offset : Nat) : Nat :=
  memory.getD offset 0 % 256 + 256 * (memory.getD (offset + 1) 0 % 256)

/-- The entry `index` of the export ordinal table as the PE format defines the
table: entries of 16 bits. -/
def pe_ordinal_entry (target : target_module) (index : Nat) : Nat :=
  word_at target.memory (target.exports.AddressOfNameOrdinals + 2 * index)

/-- The import name table value of an import by ordinal. -/
def ordinal_thunk (ordinal : Nat) : Nat := 2 ^ 63 + ordinal

/-! ## The start of `Application::Run` after the metadata discovery (blink.cpp 98-185) -/

/-- What the start of `Run` does that is visible outside. -/
inductive Startup_Effect
  | print (text : Str)
  | create_process (command_line : Str)
  | open_directory (dir : Str)
  | set_watch (dir : Str)
  deriving DecidableEq, Repr

/-- The outcomes of the operating system calls of lines 103-179 and of
`set_watch`: the two `CreatePipe` calls, `CreateProcessW` (the process id when
it succeeds), `CreateFileW` on a directory, and `CreateEvent` and
`ReadDirectoryChangesW` for a directory. -/
structure startup_calls where
  create_input_pipe : Bool
  create_output_pipe : Bool
  create_process : Option Nat
  open_directory : Str → Bool
  create_event : Str → Bool
  read_directory_changes : Str → Bool

/-- The call `print(std::string)` at the start of `Run`. -/
def startup_print (text : String) (more : Str) : Startup_Effect :=
  Startup_Effect.print (text.toList ++ more ++ ['\n'])

/-- The function `set_watch` (lines 372-392) for the handle of the directory
`dir`: the effects, and the value returned.  Each of the two failures prints
its diagnostic. -/
def set_watch (calls : startup_calls) (dir : Str) : List Startup_Effect × Bool :=
  if !calls.create_event dir then
    ([Startup_Effect.set_watch dir, startup_print " Error: CreateEvent failed." []], false)
  else if !calls.read_directory_changes dir then
    ([Startup_Effect.set_watch dir, startup_print " Error: ReadDirectoryChangesW failed." []],
      false)
  else ([Startup_Effect.set_watch dir], true)

/-- The loop of lines 161-179 over the source directories: the effects, and
whether the loop ran to its end (`false` when `Run` returned inside it). -/
def start_watchers (calls : startup_calls) : List Str → List Startup_Effect × Bool
  | [] => ([], true)
  | dir :: rest =>
    if !calls.open_directory dir then
      ([startup_print "Starting  file system  watcher  for '" (dir ++ "' ...".toList),
        Startup_Effect.open_directory dir,
        startup_print "Error: Could not  open  directory handle." []], false)
    else if !(set_watch calls dir).2 then
      (startup_print "Starting  file system  watcher  for '" (dir ++ "' ...".toList)
        :: Startup_Effect.open_directory dir :: (set_watch calls dir).1, false)
    else
      (startup_print "Starting  file system  watcher  for '" (dir ++ "' ...".toList)
        :: Startup_Effect.open_directory dir :: (set_watch calls dir).1
        ++ (start_watchers calls rest).1, (start_watchers calls rest).2)

/-- Lines 98-101: the diagnostic printed when the source directory set is empty. -/
def no_source_directories_diagnostic (_source_dirs : List Str) : List Startup_Effect :=
  if _source_dirs.isEmpty then
    [startup_print " Error: Could not  determine  source  directories.  Check  your program " []]
  else []

/-- Lines 98-185 of `Run`, from the check of `_source_dirs` (the texts of the
source directories after the metadata discovery) to the watch loop: the effects
in order, and whether the watch loop of line 185 is reached (`false` when `Run`
returned before). -/
def Run_after_discovery (calls : startup_calls) (_source_dirs : List Str) :
    List Startup_Effect × Bool :=
  if !calls.create_input_pipe then
    (no_source_directories_diagnostic _source_dirs
      ++ [startup_print "Starting  compiler  process ..." [],
        startup_print " Error: Could not  create input communication pipe." []], false)
  else if !calls.create_output_pipe then
    (no_source_directories_diagnostic _source_dirs
      ++ [startup_print "Starting  compiler  process ..." [],
        startup_print " Error: Could not create  output  communication pipe." []], false)
  else
    match calls.create_process with
    | none =>
      (no_source_directories_diagnostic _source_dirs
        ++ [startup_print "Starting  compiler  process ..." [],
          startup_print " Error: Could not  create process." []], false)
    | some process_id =>
      (no_source_directories_diagnostic _source_dirs
        ++ [startup_print "Starting  compiler  process ..." [],
          Startup_Effect.create_process "cmd.exe /q /d /k @echo off".toList,
          startup_print " Started  process with PID " (decimal process_id)]
        ++ (start_watchers calls _source_dirs).1, (start_watchers calls _source_dirs).2)

/-- A chunk of compiler output for `C:\src\a.c` that holds a warning and, after
it, the completion line of a compile that ended with exit code 0. -/
def warning_then_completion : Str :=
  "C:\\src\\a.c(37): warning C4101: 'x': unreferenced local variable\r\n".toList
    ++ completion_message "C:\\src\\a.temp.obj".toList 0

/-- The pieces of a text cut after every newline, the last piece being what
follows the last newline; `current` holds the characters of the piece being
read, last character first. -/
def split_after_newlines : Str → Str → List Str
  | [], current => [current.reverse]
  | c :: rest, current =>
    if c = '\n' then (c :: current).reverse :: split_after_newlines rest []
    else split_after_newlines rest (c :: current)

/-! ## Where the records are read (pdb_reader.h 175-188) -/

/-- A handler together with a note of where the record it is called for
starts: the position the handler receives is four bytes behind the start of
the record.  The handler is run as it is, and the reader is left where the
handler leaves it. -/
def noting_record_offsets {σ : Type} (callback : Nat → Stream_Reader → σ → Stream_Reader × σ)
    (tag : Nat) (stream : Stream_Reader) (state : σ × List Nat) :
    Stream_Reader × σ × List Nat :=
  ((callback tag stream state.1).1, (callback tag stream state.1).2,
    state.2 ++ [stream.tell - 4])

/-- The length field of the record that starts at `offset` of the bytes. -/
def length_field_at (bytes : List Nat) (offset : Nat) : Nat :=
  (Stream_Reader.read_uint16 { _stream_offset := offset, _stream := bytes }).1

/-- The position the loop goes to after the record that starts at `offset`:
`next_record_offset`, aligned. -/
def next_record_position (bytes : List Nat) (alignment offset : Nat) : Nat :=
  (Stream_Reader.align
    { _stream_offset := offset + 2 + length_field_at bytes offset, _stream := bytes }
    alignment).tell

/-- A debug section whose symbols subsection holds a record of seven bytes
(`S_OBJNAME`, tag 0x1101, with three bytes of payload) and after it the
environment block of the example. -/
def unaligned_debug_section : List Nat :=
  debug_section_data [{ tag := 0x1101, payload := [0, 0, 0] }, example_envblock]

/-- The path `/ghost/x.cpp`, which is taken not to exist. -/
def ghost_x : path := path_elements "/ghost/x.cpp".toList

/-- A file system on which every path but `/ghost/x.cpp` exists. -/
def all_but_ghost (p : path) : Bool := p != ghost_x

/-- A command line with an include directory whose text contains `/Fo`, before
the output path flag. -/
def include_path_command_line : Str :=
  "cl.exe /I\"C:/Foo/inc\" /c /Fo\"out.obj\" ".toList

/-- The first arguments of the command line `quoted_arguments`: the compiler and
an include directory whose quoted value holds a blank. -/
def quoted_front : List Str :=
  ["\"/tools/cl\"", "/c", "/I\"C:/Program Files/inc\""].map String.toList

/-- The last arguments of the command line `quoted_arguments`: a program
database in the `-` spelling whose quoted value holds a blank, a precompiled
header, and the source file, after which the line ends without a blank. -/
def quoted_back : List Str :=
  ["-Fd\"vc 143.pdb\"", "/Yustdafx.h", "/Od", "x.cpp"].map String.toList

/-- The arguments of a command line with an output path whose quoted value
holds a blank, between `quoted_front` and `quoted_back`. -/
def quoted_arguments : List Str :=
  quoted_front ++ "/Fo\"out dir/x.obj\"".toList :: quoted_back

/-- The command line read from the environment block of the example, cut at
its blanks. -/
def example_arguments : List Str :=
  ["cd", "/D", "\"/proj\"\nset",
    "PATH=%PATH%;/tools/cl\\..\\..\\x86;/tools/cl\\..\\..\\x64\n\"/tools/cl\"", "/c", "/Od",
    "x.cpp"].map String.toList

/-! # Theorems -/

/-! ## The lookup that does not return -/

/-- The loop of `path_hash` does not end for a string that is not empty,
whatever the number of iterations allowed. -/
theorem path_hash_loop_never_ends (fuel : Nat) (str : Str) (terminator : Nat)
    (hstr : str ≠ []) : path_hash_loop fuel str terminator = none := by
  induction fuel generalizing terminator with
  | zero => rfl
  | succ fuel ih =>
    have hlen : str.length ≠ 0 := fun h => hstr (List.length_eq_zero.mp h)
    simp only [path_hash_loop, hlen, ne_eq, not_false_eq_true, if_true]
    exact ih _

/-- For the empty path the loop of `path_hash` is not entered and the hash of
the empty string is returned. -/
theorem path_hash_empty (hash : Str → Nat) (fuel : Nat) :
    path_hash hash (fuel + 1) [] = some (hash []) := by
  simp [path_hash, path_hash_loop]

theorem path_hash_none (hash : Str → Nat) (fuel : Nat) (c : Char) (rest : Str) :
    path_hash hash fuel (c :: rest) = none := by
  unfold path_hash
  rw [path_hash_loop_never_ends fuel (c :: rest) 0 (by simp)]
  rfl

theorem source_file_map_find_none (hash : Str → Nat) (fuel : Nat)
    (_source_file_map : source_file_map) (c : Char) (rest : Str) :
    source_file_map_find hash fuel _source_file_map (c :: rest) = none := by
  simp only [source_file_map_find, path_hash_none]

theorem build_compile_command_line_none (hash : Str → Nat) (fuel : Nat)
    (_source_file_map : source_file_map) (_object_files : List Str)
    (open_coff_file : Str → Option (List coff_section)) (c : Char) (rest : Str) :
    build_compile_command_line hash fuel _source_file_map _object_files open_coff_file
      (c :: rest) = none := by
  simp only [build_compile_command_line, source_file_map_find_none, Option.map_none']

/-- When `build_compile_command_line` returns, the lookup has returned, and the
result is what lines 406-518 make of its outcome. -/
theorem build_compile_command_line_returns (hash : Str → Nat) (fuel : Nat)
    (_source_file_map : source_file_map) (_object_files : List Str)
    (open_coff_file : Str → Option (List coff_section)) (source_file : Str) (result : Str × Str)
    (h : build_compile_command_line hash fuel _source_file_map _object_files open_coff_file
      source_file = some result) :
    ∃ found : Option Nat,
      source_file_map_find hash fuel _source_file_map source_file = some found ∧
      result = finish_command_line
        (command_line_after_find found _object_files open_coff_file) source_file := by
  unfold build_compile_command_line at h
  cases hfind : source_file_map_find hash fuel _source_file_map source_file with
  | none => rw [hfind] at h; cases h
  | some found =>
    rw [hfind] at h
    simp only [Option.map_some', Option.some.injEq] at h
    exact ⟨found, rfl, h.symm⟩

/-- For the empty path the hash is returned, and so is the command line. -/
theorem build_compile_command_line_empty_path (hash : Str → Nat) (fuel : Nat)
    (_object_files : List Str) (open_coff_file : Str → Option (List coff_section)) :
    build_compile_command_line hash (fuel + 1) [] _object_files open_coff_file []
      = some (finish_command_line default_command_line []) := by
  unfold build_compile_command_line source_file_map_find
  rw [path_hash_empty]
  rfl

theorem handle_notification_dispatched (hash : Str → Nat) (fuel : Nat)
    (_source_file_map : source_file_map) (_object_files : List Str)
    (open_coff_file : Str → Option (List coff_section)) (link : Str → Bool)
    (last_modifications : ledger) (c : Char) (rest : Str) (current_time : Nat)
    (compiler_output : List Str)
    (hfilter : (notification_filter last_modifications (c :: rest) current_time).2 = true) :
    handle_notification hash fuel _source_file_map _object_files open_coff_file link
        last_modifications (c :: rest) current_time compiler_output
      = ((notification_filter last_modifications (c :: rest) current_time).1,
          [print_line ("Detected  modification to: ".toList ++ c :: rest)], false) := by
  simp only [handle_notification, hfilter, if_true, build_compile_command_line_none]

/-! ## The completion message (C1) -/

theorem starts_with_append (pat rest : Str) : starts_with (pat ++ rest) pat = true := by
  induction pat with
  | nil => cases rest <;> rfl
  | cons p pat ih => simp [starts_with, ih]

theorem find_at_append_isSome (pat front rest : Str) (i : Nat) :
    (find_at pat (front ++ (pat ++ rest)) i).isSome = true := by
  induction front generalizing i with
  | nil =>
    cases h : pat ++ rest with
    | nil =>
      have hp : pat = [] := (List.append_eq_nil.mp h).1
      simp [find_at, hp]
    | cons c s =>
      have hs : starts_with (c :: s) pat = true := h ▸ starts_with_append pat rest
      simp [find_at, hs]
  | cons c front ih =>
    by_cases hs : starts_with (c :: (front ++ (pat ++ rest))) pat = true
    · simp [find_at, hs]
    · simp [find_at, hs, ih]

/-- The exit code read from the completion line is zero whatever code the line
carries: the text eleven characters in starts with the word `compiling`. -/
theorem parsed_exit_code_completion_message (object_file : Str) (code : Nat) :
    parsed_exit_code (completion_message object_file code) = 0 := by
  simp [parsed_exit_code, completion_message, strtol, isspace, digits_value, isdigit]

/-- Every completion line makes the loop call the pre-link callback, `link` and
the post-link callback, whatever exit code it reports. -/
theorem completion_message_always_relinks (source_file object_file : Str) (link_result : Bool)
    (code : Nat) :
    relink_invoked
      (handle_compiler_message source_file object_file link_result
        (completion_message object_file code)).1 = true := by
  have hfound : (str_find (completion_message object_file code) completion_sentinel 0).isSome
      = true := by
    have := find_at_append_isSome completion_sentinel
      (" Finished  compiling \"".toList ++ object_file ++ ['"'])
      (decimal code ++ ".\r\n".toList) 0
    simpa [str_find, completion_message, completion_sentinel] using this
  obtain ⟨offset, hoffset⟩ := Option.isSome_iff_exists.mp hfound
  simp [handle_compiler_message, hoffset, parsed_exit_code_completion_message, relink_invoked]

set_option maxRecDepth 100000 in
/-- C1, evaluated on the line the shell prints after a compile that failed with
exit code 2: the message contains the sentinel followed by `2`, the exit code
the loop reads is `0`, and after the two pieces passed to `print` the pre-link
callback, `link` and the post-link callback are all invoked. -/
theorem failed_compile_is_relinked :
    str_find (completion_message "foo.temp.obj".toList 2) (completion_sentinel ++ decimal 2) 0
        = some 35 ∧
      parsed_exit_code (completion_message "foo.temp.obj".toList 2) = 0 ∧
      handle_compiler_message "foo.c".toList "foo.temp.obj".toList true
          (completion_message "foo.temp.obj".toList 2) =
        ([Effect.print (completion_message "foo.temp.obj".toList 2), Effect.print [],
          Effect.call_symbol_sync "foo.c".toList, Effect.link "foo.temp.obj".toList,
          Effect.call_symbol_release "foo.c".toList true], true) := by
  decide

/-! ## The symbol table (C2) -/

theorem symbols_find_append (symbols more : symbol_table) (name : Str) :
    symbols_find (symbols ++ more) name =
      match symbols_find symbols name with
      | some address => some address
      | none => symbols_find more name := by
  induction symbols with
  | nil => simp [symbols_find]
  | cons entry rest ih =>
    obtain ⟨k, v⟩ := entry
    by_cases hk : k = name
    · simp [symbols_find, hk]
    · simp [symbols_find, hk, ih]

theorem symbols_find_insert (symbols : symbol_table) (entry : Str × Nat) (name : Str) :
    symbols_find (symbols_insert symbols entry) name =
      match symbols_find symbols name with
      | some address => some address
      | none => if entry.1 = name then some entry.2 else none := by
  unfold symbols_insert
  cases hfound : symbols_find symbols entry.1 with
  | some address =>
    cases hname : symbols_find symbols name with
    | some address2 => simp
    | none =>
      have hne : ¬ entry.1 = name := by
        intro h
        rw [h] at hfound
        rw [hfound] at hname
        cases hname
      simp [hne]
  | none =>
    simp only [symbols_find_append]
    cases hname : symbols_find symbols name with
    | some address2 => simp
    | none =>
      obtain ⟨k, v⟩ := entry
      by_cases hk : k = name <;> simp [symbols_find, hk]

/-- C2 as the code has it: after the insertions of the import tables the table
maps a name to the address it already had, and a name that was absent to the
address of the first insertion of that name; a later insertion of a name never
replaces the address of an earlier one. -/
theorem first_insertion_wins (symbols : symbol_table) (imports : List (Str × Nat)) (name : Str) :
    symbols_find (insert_imports symbols imports) name =
      match symbols_find symbols name with
      | some address => some address
      | none => symbols_find imports name := by
  induction imports generalizing symbols with
  | nil => cases h : symbols_find symbols name <;> simp [insert_imports, symbols_find, h]
  | cons entry rest ih =>
    have hstep : insert_imports symbols (entry :: rest)
        = insert_imports (symbols_insert symbols entry) rest := rfl
    rw [hstep, ih, symbols_find_insert]
    obtain ⟨k, v⟩ := entry
    cases symbols_find symbols name with
    | some address => simp
    | none => by_cases hk : k = name <;> simp [symbols_find, hk]

/-- C2 fails as stated: the constructor inserts `__ImageBase` with the image
base 4194304; an import of the same name with the address 4096 inserted
afterwards leaves the table with the address of the first insertion. -/
theorem later_insertion_does_not_win :
    symbols_find (insert_imports (Application_symbols 4194304) [("__ImageBase".toList, 4096)])
        "__ImageBase".toList = some 4194304 ∧
      symbols_find (insert_imports (Application_symbols 4194304) [("__ImageBase".toList, 4096)])
        "__ImageBase".toList ≠ some 4096 := by
  decide

/-! ## The debounce check (C3) -/

theorem ledger_value_assign (l : ledger) (key : Str) (value : Nat) :
    ledger_value (ledger_assign l key value) key = value := by
  induction l with
  | nil => simp [ledger_assign, ledger_value]
  | cons entry rest ih =>
    obtain ⟨k, v⟩ := entry
    by_cases hk : k = key <;> simp [ledger_assign, ledger_value, hk, ih]

/-- Away from the rollover of the tick counter the debounce check does reject:
when the ledger holds `t1` for the path and `t1 + 3000` still fits 32 bits, a
notification of the path at a tick `t2` less than 3000 ms after `t1` dispatches
nothing. -/
theorem debounce_rejects_before_rollover (l : ledger) (source_file : Str) (t1 t2 : Nat)
    (hledger : ledger_value l source_file = t1) (hfit : t1 + 3000 < 2 ^ 32)
    (hwindow : t2 - t1 < 3000) :
    (notification_filter l source_file t2).2 = false := by
  unfold notification_filter
  by_cases hext : accepted_extension source_file = true
  · have hdeb : debounced l source_file t2 = true := by
      unfold debounced
      rw [hledger, Nat.mod_eq_of_lt hfit]
      simp only [decide_eq_true_eq]
      omega
    simp [hext, hdeb]
  · simp [hext]

/-- In the last 3000 ticks before the rollover the check rejects nothing that
comes later before the rollover: when the ledger holds `t1` with
`2 ^ 32 - 3000 ≤ t1`, no tick `t2` from `t1` on is debounced. -/
theorem debounce_rejects_nothing_at_rollover (l : ledger) (source_file : Str) (t1 t2 : Nat)
    (hledger : ledger_value l source_file = t1) (hlate : 2 ^ 32 - 3000 ≤ t1)
    (htick : t1 < 2 ^ 32) (horder : t1 ≤ t2) :
    debounced l source_file t2 = false := by
  unfold debounced
  rw [hledger]
  simp only [decide_eq_false_iff_not, gt_iff_lt, not_lt]
  omega

/-- C3, evaluated at the rollover of the 32-bit tick counter: `a.c` is notified at
the ticks 4294964296 and 4294964297, one millisecond apart and in the same
3000 ms bucket.  The first notification dispatches and leaves its tick in the
ledger; `4294964296 + 3000` wraps to `0`, so the second is not rejected and
dispatches as well: two dispatches for one (path, bucket) pair. -/
theorem debounce_fails_at_rollover :
    accepted_extension "a.c".toList = true ∧
      4294964296 < 2 ^ 32 ∧ 4294964297 < 2 ^ 32 ∧ 4294964297 - 4294964296 < 3000 ∧
      4294964296 / 3000 = 4294964297 / 3000 ∧
      notification_filter [] "a.c".toList 4294964296 = ([("a.c".toList, 4294964296)], true) ∧
      notification_filter [("a.c".toList, 4294964296)] "a.c".toList 4294964297
        = ([("a.c".toList, 4294964297)], true) ∧
      (run_notifications [] [("a.c".toList, 4294964296), ("a.c".toList, 4294964297)]).2
        = [("a.c".toList, 4294964296), ("a.c".toList, 4294964297)] := by
  decide

/-! ## The record parser (C4) -/

theorem getD_middle (front middle back : List Nat) (k : Nat) (hk : k < middle.length) :
    (front ++ middle ++ back).getD (front.length + k) 0 = middle.getD k 0 := by
  rw [List.append_assoc, List.getD_append_right _ _ _ _ (by omega), Nat.add_sub_cancel_left,
    List.getD_append _ _ _ _ hk]

theorem encode_record_length (r : code_view_record) :
    (encode_record r).length = 2 + r.length_field := by
  simp [encode_record, encode_uint16, code_view_record.length_field]
  omega

theorem uint16_bytes (n : Nat) (hn : n < 65536) :
    n % 256 % 256 + 256 * (n / 256 % 256 % 256) = n := by
  omega

/-- One step of the loop on a stream whose bytes at the position are a well
formed record followed by anything: the length and the tag are read back, and
the position of the record end is computed from the length field alone. -/
theorem read_record_header (front rest : List Nat) (r : code_view_record)
    (hr : well_formed_record r) (stream : Stream_Reader)
    (hbytes : stream._stream = front ++ encode_record r ++ rest)
    (hpos : stream._stream_offset = front.length) :
    stream.read_uint16.1 = r.length_field ∧
      stream.read_uint16.2.read_uint16.1 = r.tag ∧
      stream.read_uint16.2.read_uint16.2._stream_offset = front.length + 4 ∧
      stream.read_uint16.2.read_uint16.2._stream = stream._stream := by
  have hlen : 4 ≤ (encode_record r).length := by
    rw [encode_record_length, code_view_record.length_field]; omega
  have h0 := getD_middle front (encode_record r) rest 0 (by omega)
  have h1 := getD_middle front (encode_record r) rest 1 (by omega)
  have h2 := getD_middle front (encode_record r) rest 2 (by omega)
  have h3 := getD_middle front (encode_record r) rest 3 (by omega)
  obtain ⟨hl, ht⟩ := hr
  refine ⟨?_, ?_, ?_, ?_⟩
  · simp only [Stream_Reader.read_uint16, Stream_Reader.data, hbytes, hpos]
    rw [h0, h1]
    simp only [encode_record, encode_uint16, List.cons_append, List.nil_append,
      List.getD_cons_zero, List.getD_cons_succ]
    exact uint16_bytes _ hl
  · simp only [Stream_Reader.read_uint16, Stream_Reader.data, Stream_Reader.skip, hbytes, hpos]
    rw [show front.length + 2 + 0 = front.length + 2 by omega,
      show front.length + 2 + 1 = front.length + 3 by omega, h2, h3]
    simp only [encode_record, encode_uint16, List.cons_append, List.nil_append,
      List.getD_cons_zero, List.getD_cons_succ]
    exact uint16_bytes _ ht
  · simp only [Stream_Reader.read_uint16, Stream_Reader.skip, hpos]
  · simp only [Stream_Reader.read_uint16, Stream_Reader.skip]

theorem parse_records_loop_spec {σ : Type}
    (callback : Nat → Stream_Reader → σ → Stream_Reader × σ)
    (hcallback : ∀ tag stream state, (callback tag stream state).1._stream = stream._stream)
    (records : List code_view_record) :
    ∀ (front back : List Nat) (fuel : Nat) (stream : Stream_Reader) (state : σ),
      (∀ r ∈ records, well_formed_record r) → records.length ≤ fuel →
      stream._stream = front ++ encode_records records ++ back →
      stream._stream_offset = front.length →
      (parse_records_loop callback (front.length + (encode_records records).length) 1 fuel
          stream state).2.2 = records.map code_view_record.tag ∧
        (parse_records_loop callback (front.length + (encode_records records).length) 1 fuel
          stream state).1._stream_offset = front.length + (encode_records records).length ∧
        (parse_records_loop callback (front.length + (encode_records records).length) 1 fuel
          stream state).1._stream = stream._stream := by
  induction records with
  | nil =>
    intro front back fuel stream state _ _ _ hpos
    cases fuel with
    | zero => simp [parse_records_loop, encode_records, hpos]
    | succ fuel => simp [parse_records_loop, encode_records, hpos, Stream_Reader.tell]
  | cons r rest ih =>
    intro front back fuel stream state hwf hfuel hbytes hpos
    cases fuel with
    | zero => simp at hfuel
    | succ fuel =>
      have hr : well_formed_record r := hwf r (List.mem_cons_self _ _)
      have hbytes2 : stream._stream = front ++ encode_record r ++ (encode_records rest ++ back) := by
        rw [hbytes]; simp [encode_records]
      obtain ⟨hsize, htag, hoff, hsame⟩ := read_record_header front _ r hr stream hbytes2 hpos
      have hlen := encode_record_length r
      have hlt : stream.tell < front.length + (encode_records (r :: rest)).length := by
        simp only [Stream_Reader.tell, hpos, encode_records, List.length_append]
        omega
      -- the reader the next iteration starts from
      let next : Stream_Reader :=
        (((callback stream.read_uint16.2.read_uint16.1 stream.read_uint16.2.read_uint16.2 state).1.seek
          ((stream.read_uint16.2.read_uint16.2.tell - 2) + stream.read_uint16.1)).align 1)
      have hnext_bytes : next._stream = (front ++ encode_record r) ++ encode_records rest ++ back := by
        simp only [next, Stream_Reader.align, Stream_Reader.seek, Nat.mod_one, ne_eq,
          not_true_eq_false, if_false]
        rw [hcallback, hsame, hbytes2]
        simp
      have hnext_pos : next._stream_offset = (front ++ encode_record r).length := by
        simp only [next, Stream_Reader.align, Stream_Reader.seek, Nat.mod_one, ne_eq,
          not_true_eq_false, if_false, Stream_Reader.tell, hoff, hsize, List.length_append, hlen]
        omega
      have hend : front.length + (encode_records (r :: rest)).length
          = (front ++ encode_record r).length + (encode_records rest).length := by
        simp only [encode_records, List.length_append]; omega
      have hrec := ih (front ++ encode_record r) back fuel next
        (callback stream.read_uint16.2.read_uint16.1 stream.read_uint16.2.read_uint16.2 state).2
        (fun x hx => hwf x (List.mem_cons_of_mem _ hx)) (by simpa using hfuel) hnext_bytes hnext_pos
      rw [← hend] at hrec
      obtain ⟨h1, h2, h3⟩ := hrec
      have hunfold : parse_records_loop callback (front.length + (encode_records (r :: rest)).length) 1
          (fuel + 1) stream state =
          ((parse_records_loop callback (front.length + (encode_records (r :: rest)).length) 1 fuel next
              (callback stream.read_uint16.2.read_uint16.1 stream.read_uint16.2.read_uint16.2 state).2).1,
            (parse_records_loop callback (front.length + (encode_records (r :: rest)).length) 1 fuel next
              (callback stream.read_uint16.2.read_uint16.1 stream.read_uint16.2.read_uint16.2 state).2).2.1,
            stream.read_uint16.2.read_uint16.1 ::
            (parse_records_loop callback (front.length + (encode_records (r :: rest)).length) 1 fuel next
              (callback stream.read_uint16.2.read_uint16.1 stream.read_uint16.2.read_uint16.2 state).2).2.2) := by
        rw [parse_records_loop]
        simp only [hlt, if_true, next]
      rw [hunfold]
      refine ⟨?_, ?_, ?_⟩
      · simp only [List.map_cons]
        rw [h1, htag]
      · simpa using h2
      · rw [h3, hnext_bytes, hbytes2]; simp

theorem encode_records_length_ge (records : List code_view_record) :
    records.length ≤ (encode_records records).length := by
  induction records with
  | nil => simp [encode_records]
  | cons r rest ih =>
    have := encode_record_length r
    simp only [encode_records, List.length_append, List.length_cons]
    omega

/-- C4: on a stream holding, from the position on, `N` contiguous well formed
records whose total size is the length argument, `parse_code_view_records` with
the default alignment passes exactly the `N` tags to the callback, in stream
order, and ends with the position at the end of the region; this for every
callback that leaves the bytes of the stream alone, wherever it leaves the
position. -/
theorem parse_code_view_records_visits_all {σ : Type}
    (callback : Nat → Stream_Reader → σ → Stream_Reader × σ)
    (hcallback : ∀ tag stream state, (callback tag stream state).1._stream = stream._stream)
    (front back : List Nat) (records : List code_view_record)
    (hrecords : ∀ r ∈ records, well_formed_record r) (state : σ) :
    (parse_code_view_records
        { _stream_offset := front.length, _stream := front ++ encode_records records ++ back }
        (encode_records records).length callback 1 state).2.2
        = records.map code_view_record.tag ∧
      (parse_code_view_records
        { _stream_offset := front.length, _stream := front ++ encode_records records ++ back }
        (encode_records records).length callback 1 state).1.tell
        = front.length + (encode_records records).length := by
  have h := parse_records_loop_spec callback hcallback records front back
    (encode_records records).length
    { _stream_offset := front.length, _stream := front ++ encode_records records ++ back } state
    hrecords (encode_records_length_ge records) rfl rfl
  exact ⟨h.1, h.2.1⟩

theorem align_tell_ge (stream : Stream_Reader) (alignment : Nat) :
    stream.tell ≤ (stream.align alignment).tell := by
  unfold Stream_Reader.align
  split
  · simp [Stream_Reader.skip, Stream_Reader.tell]
  · exact Nat.le_refl _

/-- The fuel of the record loop is never what ends it: with any two amounts of
fuel not below the distance to the end of the region the loop gives the same
result, since every iteration moves the position on by two bytes or more. -/
theorem parse_records_loop_fuel {σ : Type}
    (callback : Nat → Stream_Reader → σ → Stream_Reader × σ) (stream_end alignment : Nat) :
    ∀ (fuel1 fuel2 : Nat) (stream : Stream_Reader) (state : σ),
      stream_end - stream.tell ≤ fuel1 → stream_end - stream.tell ≤ fuel2 →
      parse_records_loop callback stream_end alignment fuel1 stream state
        = parse_records_loop callback stream_end alignment fuel2 stream state := by
  intro fuel1
  induction fuel1 with
  | zero =>
    intro fuel2 stream state h1 _
    have hend : ¬ stream.tell < stream_end := by omega
    cases fuel2 with
    | zero => rfl
    | succ fuel2 => simp [parse_records_loop, hend]
  | succ fuel1 ih =>
    intro fuel2 stream state h1 h2
    cases fuel2 with
    | zero =>
      have hend : ¬ stream.tell < stream_end := by omega
      simp [parse_records_loop, hend]
    | succ fuel2 =>
      by_cases hlt : stream.tell < stream_end
      · have hnext : stream.tell + 2 ≤
            (((callback stream.read_uint16.2.read_uint16.1 stream.read_uint16.2.read_uint16.2
              state).1.seek ((stream.read_uint16.2.read_uint16.2.tell - 2)
                + stream.read_uint16.1)).align alignment).tell := by
          refine Nat.le_trans ?_ (align_tell_ge _ alignment)
          simp only [Stream_Reader.seek, Stream_Reader.tell, Stream_Reader.read_uint16,
            Stream_Reader.skip]
          omega
        rw [parse_records_loop, parse_records_loop]
        simp only [hlt, if_true]
        rw [ih fuel2 _ _ (by omega) (by omega)]
      · simp [parse_records_loop, hlt]

/-- C4 at a callback that reads one byte of every payload: two records after
four bytes of header, one trailing byte. -/
theorem parse_code_view_records_visits_all_witness :
    (parse_code_view_records
        { _stream_offset := 4,
          _stream := [4, 0, 0, 0] ++ encode_records
            [{ tag := 0x113d, payload := [1, 2, 3] }, { tag := 7, payload := [] }] ++ [5] }
        11 (fun tag stream (seen : List Nat) => (stream.skip 1, tag :: seen)) 1 []).2.2
        = [0x113d, 7] ∧
      (parse_code_view_records
        { _stream_offset := 4,
          _stream := [4, 0, 0, 0] ++ encode_records
            [{ tag := 0x113d, payload := [1, 2, 3] }, { tag := 7, payload := [] }] ++ [5] }
        11 (fun tag stream (seen : List Nat) => (stream.skip 1, tag :: seen)) 1 []).1.tell
        = 4 + 11 :=
  parse_code_view_records_visits_all
    (fun tag stream (seen : List Nat) => (stream.skip 1, tag :: seen))
    (fun _ _ _ => rfl) [4, 0, 0, 0] [5]
    [{ tag := 0x113d, payload := [1, 2, 3] }, { tag := 7, payload := [] }]
    (by
      intro r hr
      simp only [List.mem_cons, List.mem_singleton, List.not_mem_nil, or_false] at hr
      rcases hr with rfl | rfl <;> simp [well_formed_record, code_view_record.length_field])
    []

/-! ## The reconstructed command line (C5) -/

set_option maxRecDepth 1000000 in
/-- C5, evaluated behind the lookup of line 404, which is taken to have returned
the entry of `x.cpp`: the object file of `x.cpp` has a debug section `.debug$S`
whose symbols subsection holds the environment block `cwd=/proj`, `cl=/tools/cl`,
`cmd=/c /Od x.cpp`.  The section lookup compares the names with `.debug&S`,
finds no section, and the command returned is built from the default `cl.exe`
line.  Were the section named `.debug&S`, the block would be read and the
command would change to `/proj`, extend `PATH` and invoke `/tools/cl`. -/
theorem envblock_of_debug_section_is_ignored :
    build_compile_command_line_after_find (some 0) ["x.obj".toList]
        (fun _ => some [{ Name := ".text".toList, raw_data := [] },
          { Name := ".debug$S".toList, raw_data := debug_section_data [example_envblock] }])
        "x.cpp".toList
      = finish_command_line default_command_line "x.cpp".toList ∧
    (build_compile_command_line_after_find (some 0) ["x.obj".toList]
        (fun _ => some [{ Name := ".text".toList, raw_data := [] },
          { Name := ".debug&S".toList, raw_data := debug_section_data [example_envblock] }])
        "x.cpp".toList).1
      = ("cd /D \"/proj\"\nset PATH=%PATH%;/tools/cl\\..\\..\\x86;/tools/cl\\..\\..\\x64\n"
          ++ "\"/tools/cl\" /c /Od x.cpp\"x.cpp\" /Fo\"x.temp.obj\"").toList := by
  decide

/-! ## The temporary object file (C7) -/

/-- C7, evaluated: for a source file whose path is not empty, `c :: rest`, the
lookup of line 404 hashes the path with `path_hash`, whose loop does not end.
`build_compile_command_line` has no outcome after any number of iterations of
that loop, whatever the index and the object files hold: no command line is
returned and `object_file` is not set.  Lines 488-518, which are not reached,
would leave in `object_file` the source path with its extension replaced by
`temp.obj` and end the command line with the quoted source path followed by
` /Fo"<object_file>"`. -/
theorem build_compile_command_line_does_not_return (hash : Str → Nat) (fuel : Nat)
    (_source_file_map : source_file_map) (_object_files : List Str)
    (open_coff_file : Str → Option (List coff_section)) (c : Char) (rest : Str) :
    build_compile_command_line hash fuel _source_file_map _object_files open_coff_file
        (c :: rest) = none ∧
      build_compile_command_line hash fuel _source_file_map _object_files open_coff_file
        "C:\\proj\\src\\foo.c".toList = none ∧
      ∀ cmdline source_file : Str,
        (finish_command_line cmdline source_file).2
            = replace_extension source_file "temp.obj".toList ∧
          ∃ front : Str,
            (finish_command_line cmdline source_file).1
              = front ++ ("\"".toList ++ source_file ++ "\"".toList ++ " /Fo\"".toList
                  ++ (finish_command_line cmdline source_file).2 ++ "\"".toList) := by
  refine ⟨build_compile_command_line_none _ _ _ _ _ c rest,
    build_compile_command_line_none _ _ _ _ _ 'C' _, ?_⟩
  intro cmdline source_file
  refine ⟨rfl, remove_args cmdline, ?_⟩
  simp [finish_command_line]

/-! ## The source directory set (C8, C9, C10) -/

/-- C8: for the existing files `/proj/src/a/x.cpp` and `/proj/src/b/y.cpp` and an
empty set, `find_common_paths` leaves `/proj/src` in the set and not `/proj`. -/
theorem find_common_paths_example :
    proj_src ∈ find_common_paths (fun _ => true) [proj_src_a_x, proj_src_b_y] [] ∧
      proj ∉ find_common_paths (fun _ => true) [proj_src_a_x, proj_src_b_y] [] := by
  decide

/-- C9, evaluated: from the empty set and the existing files
`/proj/src/a/x.cpp` and `/proj/src/b/y.cpp` the set becomes `/proj/src`,
`/proj/src/b`, and the second entry is a sub-path of the first: line 43 adds
the directory of a file when the entry examined last has a leading part in
common with it, which is when that entry has just been rewritten to a
directory above the file.  Likewise the set that holds `/proj/src/a/b` alone
becomes `/proj/src/a/b`, `/proj/src/a` for the single file `/proj/src/a/x.cpp`.
A directory that has nothing in common with the entries is not added: for
`C:/a/x.cpp` and `D:/b/y.cpp` the set ends as `C:/a` alone. -/
theorem find_common_paths_keeps_sub_path :
    find_common_paths (fun _ => true) [proj_src_a_x, proj_src_b_y] []
        = [proj_src, path_elements "/proj/src/b".toList] ∧
      is_sub_path (path_elements "/proj/src/b".toList) proj_src = true ∧
      find_common_paths (fun _ => true) [proj_src_a_x] [path_elements "/proj/src/a/b".toList]
        = [path_elements "/proj/src/a/b".toList, path_elements "/proj/src/a".toList] ∧
      is_sub_path (path_elements "/proj/src/a/b".toList) (path_elements "/proj/src/a".toList)
        = true ∧
      find_common_paths (fun _ => true)
          [path_elements "C:/a/x.cpp".toList, path_elements "D:/b/y.cpp".toList] []
        = [path_elements "C:/a".toList] := by
  decide

/-- C10, evaluated: from the empty set and three existing files in the
directories `a`, `b` and `c` of `/proj/src` the set ends as `/proj/src`,
`/proj/src`, `/proj/src/c`: the entry `/proj/src/b` added for the second file is
rewritten to the common directory the first entry already holds.  The same set
results from the initial set `/proj/src/a`, `/proj/src/b` and the files in `a`
and `c`. -/
theorem find_common_paths_duplicates :
    find_common_paths (fun _ => true) [proj_src_a_x, proj_src_b_y, proj_src_c_z] []
        = [proj_src, proj_src, path_elements "/proj/src/c".toList] ∧
      ¬ (find_common_paths (fun _ => true) [proj_src_a_x, proj_src_b_y, proj_src_c_z] []).Nodup ∧
      find_common_paths (fun _ => true) [proj_src_a_x, proj_src_c_z]
          [path_elements "/proj/src/a".toList, path_elements "/proj/src/b".toList]
        = [proj_src, proj_src, path_elements "/proj/src/c".toList] := by
  decide

theorem path_elements_examples :
    path_elements "/proj/src/a/x.cpp".toList
        = [path_element.root_directory, path_element.filename "proj".toList,
          path_element.filename "src".toList, path_element.filename "a".toList,
          path_element.filename "x.cpp".toList] ∧
      path_elements "C:\\proj\\\\src\\".toList
        = [path_element.root_name "C:".toList, path_element.root_directory,
          path_element.filename "proj".toList, path_element.filename "src".toList,
          path_element.filename []] ∧
      parent_path (path_elements "/proj/src/a/x.cpp".toList) = path_elements "/proj/src/a".toList ∧
      parent_path (path_elements "/".toList) = path_elements "/".toList := by
  decide

theorem leading_part_refl (p : path) : leading_part p p = true := by
  induction p with
  | nil => rfl
  | cons a p ih => simp [leading_part, ih]

theorem common_elements_leading (d e : path) : leading_part (common_elements d e) d = true := by
  induction d generalizing e with
  | nil => cases e <;> simp [common_elements, leading_part]
  | cons a d ih =>
    cases e with
    | nil => simp [common_elements, leading_part]
    | cons b e =>
      by_cases hab : a = b
      · simp [common_elements, hab, leading_part, ih]
      · simp [common_elements, hab, leading_part]

theorem collapse_dirs_entries (d : path) (dirs : List path) (common_path : path) :
    ∀ e ∈ (collapse_dirs d dirs common_path).1,
      leading_part e d = true ∨ common_elements d e = [] := by
  induction dirs generalizing common_path with
  | nil => simp [collapse_dirs]
  | cons dir rest ih =>
    intro e he
    simp only [collapse_dirs, List.mem_cons] at he
    rcases he with he | he
    · by_cases hc : (common_elements d dir).isEmpty = true
      · right
        simp only [hc, if_true] at he
        rw [he]
        simpa using hc
      · left
        simp only [hc] at he
        rw [he]
        exact common_elements_leading d dir
    · exact ih _ e he

theorem examine_path_entries (file_exists : path → Bool) (dirs : List path) (p : path)
    (hexists : file_exists p = true) :
    ∀ e ∈ examine_path file_exists dirs p,
      leading_part e (parent_path p) = true ∨ common_elements (parent_path p) e = [] := by
  intro e he
  unfold examine_path at he
  simp only [hexists, Bool.not_true, Bool.false_eq_true, if_false] at he
  split at he
  · unfold add_unique_path at he
    split at he
    · exact collapse_dirs_entries _ _ _ e he
    · split at he
      · exact collapse_dirs_entries _ _ _ e he
      · rcases List.mem_append.mp he with h | h
        · exact collapse_dirs_entries _ _ _ e h
        · left
          rw [List.mem_singleton.mp h]
          exact leading_part_refl _
  · exact collapse_dirs_entries _ _ _ e he

/-! ## Removing flags from the command line (C6) -/

set_option maxRecDepth 1000000 in
theorem default_arguments_join :
    command_line_text (default_arguments ++ [[]]) = default_command_line := by
  decide

set_option maxRecDepth 1000000 in
theorem default_arguments_carried_once :
    flags_carried_once (default_arguments ++ [[]]) = true := by
  decide

theorem str_find_zero (s pat : Str) : str_find s pat 0 = find_at pat s 0 := by
  simp [str_find]

theorem find_at_shift (pat s : Str) (i : Nat) :
    find_at pat s i = (find_at pat s 0).map (fun k => k + i) := by
  induction s generalizing i with
  | nil => by_cases hp : pat.isEmpty = true <;> simp [find_at, hp]
  | cons c s ih =>
    by_cases hs : starts_with (c :: s) pat = true
    · simp [find_at, hs]
    · simp only [find_at, hs, Bool.false_eq_true, if_false]
      rw [ih (i + 1), ih (0 + 1)]
      cases find_at pat s 0 with
      | none => rfl
      | some k => simp only [Option.map_some']; congr 1; omega

theorem find_at_none_shift (pat s : Str) (i j : Nat) (h : find_at pat s i = none) :
    find_at pat s j = none := by
  rw [find_at_shift] at h ⊢
  cases hk : find_at pat s 0 with
  | none => rfl
  | some k => rw [hk] at h; simp at h

theorem starts_with_nil (s : Str) : starts_with s [] = true := by
  cases s <;> rfl

theorem starts_with_before_space (pat x rest : Str) (hpat : ' ' ∉ pat)
    (h : starts_with (x ++ ' ' :: rest) pat = true) : starts_with x pat = true := by
  induction pat generalizing x with
  | nil => exact starts_with_nil x
  | cons p pat ih =>
    have hp : ' ' ≠ p := fun hp => hpat (hp ▸ List.mem_cons_self _ _)
    have hpat2 : ' ' ∉ pat := fun hm => hpat (List.mem_cons_of_mem _ hm)
    cases x with
    | nil => simp [starts_with, hp] at h
    | cons c x =>
      simp only [List.cons_append, starts_with, Bool.and_eq_true] at h ⊢
      exact ⟨h.1, ih x hpat2 h.2⟩

theorem find_at_of_starts_with (pat s : Str) (i : Nat) (h : starts_with s pat = true) :
    find_at pat s i = some i := by
  cases s with
  | nil =>
    cases pat with
    | nil => rfl
    | cons p pat => simp [starts_with] at h
  | cons c s => simp [find_at, h]

theorem find_at_cons_of_not_starts_with (pat s : Str) (c : Char) (i : Nat)
    (h : starts_with (c :: s) pat = false) : find_at pat (c :: s) i = find_at pat s (i + 1) := by
  simp [find_at, h]

theorem starts_with_append_right (pat s rest : Str) (h : starts_with s pat = true) :
    starts_with (s ++ rest) pat = true := by
  induction pat generalizing s with
  | nil => exact starts_with_nil _
  | cons p pat ih =>
    cases s with
    | nil => simp [starts_with] at h
    | cons c s =>
      simp only [List.cons_append, starts_with, Bool.and_eq_true] at h ⊢
      exact ⟨h.1, ih s h.2⟩

theorem starts_with_eq_append (pat s : Str) (h : starts_with s pat = true) :
    s = pat ++ s.drop pat.length := by
  induction pat generalizing s with
  | nil => rfl
  | cons p pat ih =>
    cases s with
    | nil => simp [starts_with] at h
    | cons c s =>
      simp only [starts_with, Bool.and_eq_true, beq_iff_eq] at h
      simp only [List.length_cons, List.drop_succ_cons, List.cons_append]
      rw [← ih s h.2, h.1]

/-- An argument that does not contain the pattern is skipped by the search,
together with the space after it. -/
theorem find_at_skip_argument (pat x rest : Str) (i : Nat) (hpat : ' ' ∉ pat) (hne : pat ≠ [])
    (hx : find_at pat x 0 = none) :
    find_at pat (x ++ ' ' :: rest) i = find_at pat rest (i + x.length + 1) := by
  induction x generalizing i with
  | nil =>
    cases pat with
    | nil => exact absurd rfl hne
    | cons p pat =>
      have hp : ' ' ≠ p := fun hp => hpat (hp ▸ List.mem_cons_self _ _)
      simp [find_at, starts_with, hp]
  | cons c x ih =>
    have hfalse : starts_with (c :: x) pat = false := by
      cases hs : starts_with (c :: x) pat with
      | false => rfl
      | true => rw [find_at_of_starts_with pat _ 0 hs] at hx; cases hx
    have hx2 : find_at pat x 0 = none := by
      simp only [find_at, hfalse, Bool.false_eq_true, if_false] at hx
      exact find_at_none_shift pat x _ 0 hx
    have hfalse2 : starts_with (c :: (x ++ ' ' :: rest)) pat = false := by
      cases hs : starts_with (c :: (x ++ ' ' :: rest)) pat with
      | false => rfl
      | true =>
        have := starts_with_before_space pat (c :: x) rest hpat (by simpa using hs)
        rw [this] at hfalse; cases hfalse
    rw [List.cons_append, find_at_cons_of_not_starts_with pat _ c i hfalse2, ih (i + 1) hx2]
    congr 1
    simp only [List.length_cons]
    omega

theorem find_at_join_none (pat : Str) (arguments : List Str) (i : Nat) (hpat : ' ' ∉ pat)
    (hne : pat ≠ []) (h : ∀ x ∈ arguments, find_at pat x 0 = none) :
    find_at pat (join_arguments arguments) i = none := by
  induction arguments generalizing i with
  | nil =>
    cases pat with
    | nil => exact absurd rfl hne
    | cons p pat => rfl
  | cons x rest ih =>
    simp only [join_arguments]
    rw [find_at_skip_argument pat x _ i hpat hne (h x (List.mem_cons_self _ _))]
    exact ih _ (fun y hy => h y (List.mem_cons_of_mem _ hy))

theorem join_arguments_append (front back : List Str) :
    join_arguments (front ++ back) = join_arguments front ++ join_arguments back := by
  induction front with
  | nil => rfl
  | cons x rest ih => simp [join_arguments, ih]

theorem find_at_join_first (pat : Str) (front : List Str) (x rest : Str) (i : Nat)
    (hpat : ' ' ∉ pat) (hne : pat ≠ []) (h : ∀ y ∈ front, find_at pat y 0 = none)
    (hx : starts_with x pat = true) :
    find_at pat (join_arguments front ++ (x ++ rest)) i
      = some (i + (join_arguments front).length) := by
  induction front generalizing i with
  | nil =>
    simp only [join_arguments, List.nil_append, List.length_nil, Nat.add_zero]
    exact find_at_of_starts_with pat _ i (starts_with_append_right pat x rest hx)
  | cons y front ih =>
    simp only [join_arguments, List.append_assoc, List.cons_append]
    rw [find_at_skip_argument pat y _ i hpat hne (h y (List.mem_cons_self _ _))]
    rw [ih _ (fun z hz => h z (List.mem_cons_of_mem _ hz))]
    congr 1
    simp only [List.length_append, List.length_cons]
    omega

theorem find_at_char (c : Char) (x rest : Str) (i : Nat) (hx : c ∉ x) :
    find_at [c] (x ++ c :: rest) i = some (i + x.length) := by
  induction x generalizing i with
  | nil => simp [find_at, starts_with]
  | cons d x ih =>
    have hd : d ≠ c := fun h => hx (h ▸ List.mem_cons_self _ _)
    have hx2 : c ∉ x := fun h => hx (List.mem_cons_of_mem _ h)
    have hfalse : starts_with (d :: (x ++ c :: rest)) [c] = false := by
      simp [starts_with, hd]
    rw [List.cons_append, find_at_cons_of_not_starts_with [c] _ d i hfalse, ih (i + 1) hx2]
    congr 1
    simp only [List.length_cons]
    omega

theorem str_find_drop (front back pat : Str) :
    str_find (front ++ back) pat front.length = find_at pat back front.length := by
  simp [str_find]

theorem str_erase_middle (front middle back : Str) :
    str_erase (front ++ middle ++ back) front.length middle.length = front ++ back := by
  simp [str_erase]

/-- Erasing a flag whose value does not open with a quote: the argument is
erased up to the space that follows it, which stays. -/
theorem erase_arg_plain (front arg value back : Str) (c : Char)
    (hspace : ' ' ∉ c :: (arg ++ value)) (hvalue : value.head? ≠ some '"')
    (hsize : (front ++ (c :: (arg ++ value)) ++ ' ' :: back).length < 2 ^ 64) :
    erase_arg (front ++ (c :: (arg ++ value)) ++ ' ' :: back) arg front.length
      = front ++ ' ' :: back := by
  have hchar : (front ++ (c :: (arg ++ value)) ++ ' ' :: back).getD
      (front.length + 1 + arg.length) (Char.ofNat 0) ≠ '"' := by
    have hsplit : front ++ (c :: (arg ++ value)) ++ ' ' :: back
        = (front ++ c :: arg) ++ (value ++ ' ' :: back) := by simp
    rw [hsplit, List.getD_append_right _ _ _ _ (by simp; omega)]
    have hidx : front.length + 1 + arg.length - (front ++ c :: arg).length = 0 := by
      simp; omega
    rw [hidx]
    cases value with
    | nil => simp
    | cons v value =>
      simp only [List.head?_cons, ne_eq, Option.some.injEq] at hvalue
      simpa using hvalue
  have hfind : str_find (front ++ (c :: (arg ++ value)) ++ ' ' :: back) [' '] front.length
      = some (front.length + (c :: (arg ++ value)).length) := by
    rw [List.append_assoc, str_find_drop]
    exact find_at_char ' ' _ back front.length hspace
  have hcount : (to_size_t (some (front.length + (c :: (arg ++ value)).length)) + 2 ^ 64
      - front.length) % 2 ^ 64 = (c :: (arg ++ value)).length := by
    simp only [to_size_t]
    have hlt : (c :: (arg ++ value)).length < 2 ^ 64 := by
      simp only [List.length_append] at hsize
      omega
    omega
  unfold erase_arg
  rw [if_pos (by simpa using hchar), hfind, hcount]
  have := str_erase_middle front (c :: (arg ++ value)) (' ' :: back)
  simpa using this

/-- Erasing a flag whose value is quoted: the argument and the character after
its closing quote are erased. -/
theorem erase_arg_quoted (front arg value back : Str) (c : Char) (hvalue : '"' ∉ value)
    (hsize : (front ++ (c :: (arg ++ '"' :: (value ++ ['"']))) ++ ' ' :: back).length < 2 ^ 64) :
    erase_arg (front ++ (c :: (arg ++ '"' :: (value ++ ['"']))) ++ ' ' :: back) arg front.length
      = front ++ back := by
  have hchar : (front ++ (c :: (arg ++ '"' :: (value ++ ['"']))) ++ ' ' :: back).getD
      (front.length + 1 + arg.length) (Char.ofNat 0) = '"' := by
    have hsplit : front ++ (c :: (arg ++ '"' :: (value ++ ['"']))) ++ ' ' :: back
        = (front ++ c :: arg) ++ ('"' :: (value ++ '"' :: ' ' :: back)) := by simp
    rw [hsplit, List.getD_append_right _ _ _ _ (by simp; omega)]
    have hidx : front.length + 1 + arg.length - (front ++ c :: arg).length = 0 := by
      simp; omega
    rw [hidx]
    rfl
  have hfind : str_find (front ++ (c :: (arg ++ '"' :: (value ++ ['"']))) ++ ' ' :: back) ['"']
      (front.length + 2 + arg.length) = some (front.length + 2 + arg.length + value.length) := by
    have hsplit : front ++ (c :: (arg ++ '"' :: (value ++ ['"']))) ++ ' ' :: back
        = (front ++ c :: (arg ++ ['"'])) ++ (value ++ '"' :: ' ' :: back) := by simp
    have hlen : front.length + 2 + arg.length = (front ++ c :: (arg ++ ['"'])).length := by
      simp; omega
    rw [hsplit, hlen, str_find_drop]
    exact find_at_char '"' value _ _ hvalue
  have hcount : (to_size_t (some (front.length + 2 + arg.length + value.length)) + 2 + 2 ^ 64
      - front.length) % 2 ^ 64 = (c :: (arg ++ '"' :: (value ++ ['"'])) ++ [' ']).length := by
    simp only [to_size_t]
    have hlt : (c :: (arg ++ '"' :: (value ++ ['"'])) ++ [' ']).length < 2 ^ 64 := by
      simp only [List.length_append, List.length_cons, List.length_nil] at hsize ⊢
      omega
    simp only [List.length_append, List.length_cons, List.length_nil] at hlt ⊢
    omega
  unfold erase_arg
  rw [if_neg (by rw [hchar]; simp), hfind, hcount]
  have := str_erase_middle front (c :: (arg ++ '"' :: (value ++ ['"'])) ++ [' ']) back
  simpa using this

theorem closes_quote_spec (w : Str) (h : closes_quote w = true) :
    ∃ value : Str, w = value ++ ['"'] ∧ '"' ∉ value := by
  induction w with
  | nil => simp [closes_quote] at h
  | cons c w ih =>
    cases w with
    | nil =>
      simp only [closes_quote, beq_iff_eq] at h
      exact ⟨[], by simp [h], by simp⟩
    | cons d w =>
      simp only [closes_quote, Bool.and_eq_true, bne_iff_ne, ne_eq] at h
      obtain ⟨value, hvalue, hfree⟩ := ih h.2
      refine ⟨c :: value, by rw [hvalue]; rfl, ?_⟩
      intro hmem
      rcases List.mem_cons.mp hmem with hc | hc
      · exact h.1 hc.symm
      · exact hfree hc

theorem filter_at_most_one {α : Type} (q : α → Bool) (l : List α)
    (h : (l.filter q).length ≤ 1) :
    (∀ x ∈ l, q x = false) ∨
      ∃ front x back, l = front ++ x :: back ∧ q x = true ∧ (∀ y ∈ front, q y = false)
        ∧ (∀ y ∈ back, q y = false) := by
  induction l with
  | nil => left; simp
  | cons a l ih =>
    by_cases ha : q a = true
    · right
      refine ⟨[], a, l, rfl, ha, by simp, ?_⟩
      simp only [List.filter_cons, ha, if_true, List.length_cons] at h
      have hnil : l.filter q = [] := List.length_eq_zero.mp (by omega)
      intro y hy
      cases hq : q y with
      | false => rfl
      | true =>
        have : y ∈ l.filter q := List.mem_filter.mpr ⟨hy, hq⟩
        rw [hnil] at this
        cases this
    · simp only [List.filter_cons, ha, Bool.false_eq_true, if_false] at h
      have ha2 : q a = false := by simpa using ha
      rcases ih h with hall | ⟨front, x, back, hl, hx, hfront, hback⟩
      · left
        intro y hy
        rcases List.mem_cons.mp hy with rfl | hy
        · exact ha2
        · exact hall y hy
      · right
        refine ⟨a :: front, x, back, by rw [hl]; rfl, hx, ?_, hback⟩
        intro y hy
        rcases List.mem_cons.mp hy with rfl | hy
        · exact ha2
        · exact hfront y hy

theorem find_at_none_of_not_contains (s pat : Str) (h : contains_str s pat = false) :
    find_at pat s 0 = none := by
  unfold contains_str at h
  rw [str_find_zero] at h
  cases hf : find_at pat s 0 with
  | none => rfl
  | some k => rw [hf] at h; cases h

theorem not_mentions (arg argument : Str) (h : mentions arg argument = false) :
    find_at ('-' :: arg) argument 0 = none ∧ find_at ('/' :: arg) argument 0 = none := by
  unfold mentions at h
  simp only [Bool.or_eq_false_iff] at h
  exact ⟨find_at_none_of_not_contains _ _ h.1, find_at_none_of_not_contains _ _ h.2⟩

theorem mentions_nil (arg : Str) : mentions arg [] = false := by
  simp [mentions, contains_str, str_find, find_at]

theorem join_arguments_length_append (front back : List Str) :
    (join_arguments (front ++ back)).length
      = (join_arguments front).length + (join_arguments back).length := by
  rw [join_arguments_append, List.length_append]

theorem removed_flags_no_space : ∀ arg ∈ removed_flags, ' ' ∉ arg := by
  decide

/-! ## The extension check (C11, C12) -/

/-- C11: a notification passes the extension check of line 207 exactly when the
extension of its path is `.c` or `.cxx`; `foo.cpp` does not pass; and a
notification that does not pass leaves the ledger as it was and has no effect:
no compile is dispatched. -/
theorem extension_check (hash : Str → Nat) (fuel : Nat) (_source_file_map : source_file_map)
    (_object_files : List Str)
    (open_coff_file : Str → Option (List coff_section)) (link : Str → Bool)
    (last_modifications : ledger) (source_file : Str) (current_time : Nat)
    (compiler_output : List Str) :
    (accepted_extension source_file = true ↔
        path_extension source_file = ".c".toList ∨ path_extension source_file = ".cxx".toList) ∧
      accepted_extension "C:\\proj\\src\\foo.cpp".toList = false ∧
      (accepted_extension source_file = false →
        notification_filter last_modifications source_file current_time
            = (last_modifications, false) ∧
          handle_notification hash fuel _source_file_map _object_files open_coff_file link
            last_modifications source_file current_time compiler_output
              = (last_modifications, [], true)) := by
  refine ⟨?_, by decide, ?_⟩
  · unfold accepted_extension
    by_cases h1 : path_extension source_file = ".c".toList <;>
      by_cases h2 : path_extension source_file = ".cxx".toList <;> simp [h1, h2]
  · intro h
    have hfilter : notification_filter last_modifications source_file current_time
        = (last_modifications, false) := by
      simp [notification_filter, h]
    exact ⟨hfilter, by simp [handle_notification, hfilter]⟩

/-- A notification whose path has the extension `.cpp` is dropped by the
extension check. -/
theorem cpp_is_not_accepted (source_file : Str)
    (h : path_extension source_file = ".cpp".toList) : accepted_extension source_file = false := by
  unfold accepted_extension
  rw [h]
  decide

/-- C12, evaluated: the notification for `foo.cpp` in the watched directory
`C:\proj\src`, with an empty ledger, does not pass the extension check; the
ledger stays empty and there is no effect at all, so no compile command is
written to the compiler.  The same notification for `foo.c` does pass the check
and is dispatched: the ledger takes the tick and the modification is reported,
which is where `build_compile_command_line` is called. -/
theorem cpp_notification_is_dropped (hash : Str → Nat) (fuel : Nat)
    (_source_file_map : source_file_map) (_object_files : List Str)
    (open_coff_file : Str → Option (List coff_section)) (link : Str → Bool)
    (compiler_output : List Str) :
    path_extension "C:\\proj\\src\\foo.cpp".toList = ".cpp".toList ∧
      accepted_extension "C:\\proj\\src\\foo.cpp".toList = false ∧
      handle_notification hash fuel _source_file_map _object_files open_coff_file link []
        "C:\\proj\\src\\foo.cpp".toList 5000 compiler_output = ([], [], true) ∧
      notification_filter [] "C:\\proj\\src\\foo.c".toList 5000
        = ([("C:\\proj\\src\\foo.c".toList, 5000)], true) ∧
      (handle_notification hash fuel _source_file_map _object_files open_coff_file link []
        "C:\\proj\\src\\foo.c".toList 5000 compiler_output).2.1
        = [print_line "Detected  modification to: C:\\proj\\src\\foo.c".toList] := by
  have hcpp : notification_filter [] "C:\\proj\\src\\foo.cpp".toList 5000 = ([], false) := by
    decide
  have hc : notification_filter [] "C:\\proj\\src\\foo.c".toList 5000
      = ([("C:\\proj\\src\\foo.c".toList, 5000)], true) := by
    decide
  refine ⟨by decide, by decide, ?_, hc, ?_⟩
  · simp only [handle_notification, hcpp, Bool.false_eq_true, if_false]
  · have h := handle_notification_dispatched hash fuel _source_file_map _object_files
      open_coff_file link [] 'C' ":\\proj\\src\\foo.c".toList 5000 compiler_output
      (by rw [show 'C' :: ":\\proj\\src\\foo.c".toList = "C:\\proj\\src\\foo.c".toList from rfl,
        hc])
    rw [show "C:\\proj\\src\\foo.c".toList = 'C' :: ":\\proj\\src\\foo.c".toList from rfl, h]
    rfl

/-! ## The effects of a compile (C13) -/

theorem handle_compiler_message_of_completion (source_file object_file : Str)
    (link_result : Bool) (code : Nat) :
    ∃ prints : List Str,
      handle_compiler_message source_file object_file link_result
          (completion_message object_file code)
        = (prints.map Effect.print ++ [Effect.call_symbol_sync source_file,
            Effect.link object_file, Effect.call_symbol_release source_file link_result], true) := by
  have hfound : (str_find (completion_message object_file code) completion_sentinel 0).isSome
      = true := by
    have := find_at_append_isSome completion_sentinel
      (" Finished  compiling \"".toList ++ object_file ++ ['"'])
      (decimal code ++ ".\r\n".toList) 0
    simpa [str_find, completion_message, completion_sentinel] using this
  obtain ⟨offset, hoffset⟩ := Option.isSome_iff_exists.mp hfound
  refine ⟨print_pieces (completion_message object_file code)
    ((completion_message object_file code).length + 1) 0, ?_⟩
  simp only [handle_compiler_message, hoffset, parsed_exit_code_completion_message, if_true]

theorem compiler_output_loop_quiet (source_file object_file : Str) (link : Str → Bool)
    (earlier rest : List Str)
    (hquiet : ∀ message ∈ earlier, str_find message completion_sentinel 0 = none) :
    compiler_output_loop source_file object_file link (earlier ++ rest)
      = compiler_output_loop source_file object_file link earlier
        ++ compiler_output_loop source_file object_file link rest := by
  induction earlier with
  | nil => simp [compiler_output_loop]
  | cons message earlier ih =>
    have hrest := ih (fun m hm => hquiet m (List.mem_cons_of_mem _ hm))
    have hnone := hquiet message (List.mem_cons_self _ _)
    have hgo : (handle_compiler_message source_file object_file (link object_file) message).2
        = false := by
      simp [handle_compiler_message, hnone]
    by_cases hempty : message.isEmpty = true
    · simp only [List.cons_append, compiler_output_loop, hempty, if_true]
      exact hrest
    · simp only [List.cons_append, compiler_output_loop, hempty, hgo, Bool.false_eq_true,
        if_false, List.append_assoc]
      exact congrArg
        (fun t => (handle_compiler_message source_file object_file (link object_file) message).1
          ++ t) hrest

theorem compiler_output_loop_quiet_prints (source_file object_file : Str) (link : Str → Bool)
    (earlier : List Str)
    (hquiet : ∀ message ∈ earlier, str_find message completion_sentinel 0 = none) :
    ∃ prints : List Str,
      compiler_output_loop source_file object_file link earlier = prints.map Effect.print := by
  induction earlier with
  | nil => exact ⟨[], rfl⟩
  | cons message earlier ih =>
    obtain ⟨prints, hprints⟩ := ih (fun m hm => hquiet m (List.mem_cons_of_mem _ hm))
    have hnone := hquiet message (List.mem_cons_self _ _)
    by_cases hempty : message.isEmpty = true
    · exact ⟨prints, by simp only [compiler_output_loop, hempty, if_true, hprints]⟩
    · refine ⟨print_pieces message (message.length + 1) 0 ++ prints, ?_⟩
      simp [compiler_output_loop, hempty, handle_compiler_message, hnone, hprints]

/-- When the completion line arrives as a chunk of its own, after chunks without
the sentinel, the lines behind the call of `build_compile_command_line` have,
after the command written to the compiler and texts passed to `print`, the
pre-link callback with the source path, `link` with the temporary object file,
the post-link callback with the source path and the result of `link`, and last
the deletion of the temporary object file; this whatever exit code the
completion line carries. -/
theorem relink_order_of_completion_chunk (cmdline source_file : Str) (link : Str → Bool)
    (code : Nat) (earlier later : List Str)
    (hquiet : ∀ message ∈ earlier, str_find message completion_sentinel 0 = none) :
    ∃ prints : List Str,
      compile_and_relink cmdline (temp_object_file source_file) source_file link
          (earlier ++ completion_message (temp_object_file source_file) code :: later)
        = Effect.write_compiler (cmdline ++ completion_echo (temp_object_file source_file))
          :: prints.map Effect.print
          ++ [Effect.call_symbol_sync source_file, Effect.link (temp_object_file source_file),
            Effect.call_symbol_release source_file (link (temp_object_file source_file)),
            Effect.delete_file (temp_object_file source_file)] := by
  obtain ⟨prints1, hprints1⟩ := compiler_output_loop_quiet_prints source_file
    (temp_object_file source_file) link earlier hquiet
  obtain ⟨prints2, hprints2⟩ := handle_compiler_message_of_completion source_file
    (temp_object_file source_file) (link (temp_object_file source_file)) code
  have hne : (completion_message (temp_object_file source_file) code).isEmpty = false := by
    simp [completion_message]
  refine ⟨prints1 ++ prints2, ?_⟩
  simp only [compile_and_relink]
  rw [compiler_output_loop_quiet _ _ _ _ _ hquiet, hprints1]
  simp only [compiler_output_loop, hne, hprints2, Bool.false_eq_true, if_false, if_true]
  simp

set_option maxRecDepth 1000000 in
theorem handle_warning_then_completion (link_result : Bool) :
    handle_compiler_message "C:\\src\\a.c".toList "C:\\src\\a.temp.obj".toList link_result
        warning_then_completion
      = ([Effect.print
            "C:\\src\\a.c(37): warning C4101: 'x': unreferenced local variable\r\n".toList,
          Effect.print (completion_message "C:\\src\\a.temp.obj".toList 0),
          Effect.print []], true) := by
  cases link_result <;> decide

set_option maxRecDepth 1000000 in
/-- C13, evaluated on a compile of `C:\src\a.c` that ended with exit code 0 after a
warning: the compiler first delivers the file name, then one chunk with the
warning line and the completion line.  The text eleven characters into that
chunk is `37): warning ...`, so the exit code read is 37: whatever command line
was written, neither callback nor `link` is invoked, and after the texts passed
to `print` the only effect is the deletion of the temporary object file.  Nor
is anything relinked by the notification as a whole. -/
theorem successful_compile_with_warning_is_not_relinked (hash : Str → Nat) (fuel : Nat)
    (_source_file_map : source_file_map) (_object_files : List Str)
    (open_coff_file : Str → Option (List coff_section)) (link : Str → Bool) (cmdline : Str) :
    str_find warning_then_completion (completion_sentinel ++ decimal 0) 0 = some 105 ∧
      parsed_exit_code warning_then_completion = 37 ∧
      compile_and_relink cmdline "C:\\src\\a.temp.obj".toList "C:\\src\\a.c".toList link
          ["a.c\r\n".toList, warning_then_completion]
        = [Effect.write_compiler (cmdline ++ completion_echo "C:\\src\\a.temp.obj".toList),
          Effect.print "a.c\r\n".toList, Effect.print [],
          Effect.print
            "C:\\src\\a.c(37): warning C4101: 'x': unreferenced local variable\r\n".toList,
          Effect.print (completion_message "C:\\src\\a.temp.obj".toList 0),
          Effect.print [],
          Effect.delete_file "C:\\src\\a.temp.obj".toList] ∧
      relink_invoked
        (compile_and_relink cmdline "C:\\src\\a.temp.obj".toList "C:\\src\\a.c".toList link
          ["a.c\r\n".toList, warning_then_completion]) = false ∧
      relink_invoked
        (handle_notification hash fuel _source_file_map _object_files open_coff_file link []
          "C:\\src\\a.c".toList 5000 ["a.c\r\n".toList, warning_then_completion]).2.1 = false := by
  have hfilter : notification_filter [] "C:\\src\\a.c".toList 5000
      = ([("C:\\src\\a.c".toList, 5000)], true) := by
    decide
  have hname : ∀ b : Bool, handle_compiler_message "C:\\src\\a.c".toList
      "C:\\src\\a.temp.obj".toList b "a.c\r\n".toList
      = ([Effect.print "a.c\r\n".toList, Effect.print []], false) := by
    intro b; cases b <;> decide
  have hloop : compiler_output_loop "C:\\src\\a.c".toList "C:\\src\\a.temp.obj".toList link
      ["a.c\r\n".toList, warning_then_completion]
      = [Effect.print "a.c\r\n".toList, Effect.print [],
          Effect.print
            "C:\\src\\a.c(37): warning C4101: 'x': unreferenced local variable\r\n".toList,
          Effect.print (completion_message "C:\\src\\a.temp.obj".toList 0),
          Effect.print []] := by
    have h1 : ("a.c\r\n".toList).isEmpty = false := by decide
    have h2 : warning_then_completion.isEmpty = false := by decide
    simp only [compiler_output_loop, h1, h2, hname, handle_warning_then_completion,
      Bool.false_eq_true, if_false, if_true]
    rfl
  refine ⟨by decide, by decide, ?_, ?_, ?_⟩
  · simp only [compile_and_relink, hloop]
    rfl
  · simp only [compile_and_relink, hloop]
    rfl
  · have h := handle_notification_dispatched hash fuel _source_file_map _object_files
      open_coff_file link [] 'C' ":\\src\\a.c".toList 5000
      ["a.c\r\n".toList, warning_then_completion]
      (by rw [show 'C' :: ":\\src\\a.c".toList = "C:\\src\\a.c".toList from rfl, hfilter])
    rw [show "C:\\src\\a.c".toList = 'C' :: ":\\src\\a.c".toList from rfl, h]
    rfl

/-! ## The ledger (C14, C15) -/

/-- With no entry for the path in the ledger and a tick of 3000 or more (below
`2 ^ 32`), a notification with an accepted extension dispatches, and the ledger
afterwards holds the tick for the path. -/
theorem first_notification_dispatches (l : ledger) (source_file : Str) (current_time : Nat)
    (hext : accepted_extension source_file = true) (habsent : ledger_value l source_file = 0)
    (htick : 3000 ≤ current_time) :
    (notification_filter l source_file current_time).2 = true ∧
      ledger_value (notification_filter l source_file current_time).1 source_file
        = current_time := by
  have hdeb : debounced l source_file current_time = false := by
    unfold debounced
    rw [habsent]
    simp only [decide_eq_false_iff_not, gt_iff_lt, not_lt]
    omega
  simp [notification_filter, hext, hdeb, ledger_value_assign]

/-- C14, evaluated: `a.c` is notified at the tick 1000 while the ledger is empty.
The element `operator[]` creates for the path holds 0, and `0 + 3000 > 1000`:
the notification is rejected, nothing is dispatched, and the ledger afterwards
maps the path to 0, not to the tick. -/
theorem first_notification_is_debounced (hash : Str → Nat) (fuel : Nat)
    (_source_file_map : source_file_map) (_object_files : List Str)
    (open_coff_file : Str → Option (List coff_section)) (link : Str → Bool)
    (compiler_output : List Str) :
    accepted_extension "a.c".toList = true ∧
      ledger_value [] "a.c".toList = 0 ∧
      notification_filter [] "a.c".toList 1000 = ([("a.c".toList, 0)], false) ∧
      handle_notification hash fuel _source_file_map _object_files open_coff_file link []
        "a.c".toList 1000 compiler_output = ([("a.c".toList, 0)], [], true) := by
  have hfilter : notification_filter [] "a.c".toList 1000 = ([("a.c".toList, 0)], false) := by
    decide
  refine ⟨by decide, rfl, hfilter, ?_⟩
  simp only [handle_notification, hfilter, Bool.false_eq_true, if_false]

theorem ledger_value_assign_other (l : ledger) (key other : Str) (value : Nat)
    (h : key ≠ other) : ledger_value (ledger_assign l key value) other = ledger_value l other := by
  induction l with
  | nil => simp [ledger_assign, ledger_value, h]
  | cons entry rest ih =>
    obtain ⟨k, v⟩ := entry
    by_cases hk : k = key
    · subst hk
      simp [ledger_assign, ledger_value, h]
    · by_cases hko : k = other
      · subst hko
        simp [ledger_assign, ledger_value, hk]
      · simp [ledger_assign, ledger_value, hk, hko, ih]

theorem notification_filter_other (l : ledger) (source_file other : Str) (current_time : Nat)
    (h : source_file ≠ other) :
    ledger_value (notification_filter l source_file current_time).1 other
      = ledger_value l other := by
  unfold notification_filter
  split
  · rfl
  · split <;> exact ledger_value_assign_other _ _ _ _ h

theorem notification_filter_flag (l1 l2 : ledger) (source_file : Str) (current_time : Nat)
    (h : ledger_value l1 source_file = ledger_value l2 source_file) :
    (notification_filter l1 source_file current_time).2
      = (notification_filter l2 source_file current_time).2 := by
  unfold notification_filter debounced
  rw [h]
  split
  · rfl
  · split <;> rfl

/-- C15 as the code has it: the ledger is keyed by the text of the path as it
is.  A notification of one path leaves what the ledger holds for every other
path text untouched, so a later notification of a path that differs (be it in
letter case only) is debounced or dispatched exactly as if the first
notification had not happened. -/
theorem ledger_keys_are_exact (l : ledger) (first second : Str) (t1 t2 : Nat)
    (hdifferent : first ≠ second) :
    ledger_value (notification_filter l first t1).1 second = ledger_value l second ∧
      (notification_filter (notification_filter l first t1).1 second t2).2
        = (notification_filter l second t2).2 := by
  have hvalue := notification_filter_other l first second t1 hdifferent
  exact ⟨hvalue, notification_filter_flag _ _ second t2 hvalue⟩

/-- The keys `Foo.c` and `foo.c` are different keys of the ledger. -/
theorem ledger_keys_are_exact_witness :
    ledger_value (notification_filter [] "Foo.c".toList 5000).1 "foo.c".toList
        = ledger_value [] "foo.c".toList ∧
      (notification_filter (notification_filter [] "Foo.c".toList 5000).1 "foo.c".toList 5001).2
        = (notification_filter [] "foo.c".toList 5001).2 :=
  ledger_keys_are_exact [] "Foo.c".toList "foo.c".toList 5000 5001 (by decide)

/-- C15 fails as stated: `Foo.c` is notified at the tick 5000 and dispatches;
`foo.c` is notified one millisecond later and dispatches as well, since the
ledger holds nothing under that key. -/
theorem other_letter_case_is_not_debounced :
    (notification_filter [] "Foo.c".toList 5000).2 = true ∧
      notification_filter (notification_filter [] "Foo.c".toList 5000).1 "foo.c".toList 5001
        = ([("Foo.c".toList, 5000), ("foo.c".toList, 5001)], true) ∧
      (run_notifications [] [("Foo.c".toList, 5000), ("foo.c".toList, 5001)]).2
        = [("Foo.c".toList, 5000), ("foo.c".toList, 5001)] := by
  decide

/-! ## path_hash and path_comp (C16) -/

/-- C16, evaluated: `path_comp` reports `Foo.c` and `foo.c` equal, but `path_hash`
returns no hash value for either: its loop has not ended after any number of
iterations, whatever `std::hash` is. -/
theorem path_hash_returns_no_value (hash : Str → Nat) (fuel : Nat) :
    path_comp "Foo.c".toList "foo.c".toList = true ∧
      path_hash hash fuel "Foo.c".toList = none ∧
      path_hash hash fuel "foo.c".toList = none := by
  refine ⟨by decide, ?_, ?_⟩
  · unfold path_hash
    rw [path_hash_loop_never_ends fuel "Foo.c".toList 0 (by decide)]
    rfl
  · unfold path_hash
    rw [path_hash_loop_never_ends fuel "foo.c".toList 0 (by decide)]
    rfl

/-! ## read_debug_info (C17) -/

theorem find_debug_data_none (entries : List debug_directory_entry)
    (debug_data : Option (List Nat)) :
    find_debug_data entries debug_data = none ↔
      debug_data = none ∧ ∀ entry ∈ entries, entry.type ≠ IMAGE_DEBUG_TYPE_CODEVIEW := by
  induction entries generalizing debug_data with
  | nil => simp [find_debug_data]
  | cons entry rest ih =>
    by_cases htype : entry.type = IMAGE_DEBUG_TYPE_CODEVIEW
    · by_cases hsig : debug_signature entry.raw_data = 0x53445352
      · simp [find_debug_data, htype, hsig]
      · simp [find_debug_data, htype, hsig, ih]
    · simp [find_debug_data, htype, ih]

/-- What the code does: `read_debug_info` returns false in line 305 exactly when
the debug directory has no CodeView entry at all, whatever the signatures. -/
theorem read_debug_info_false_iff (entries : List debug_directory_entry) :
    read_debug_info_database entries = none ↔
      ∀ entry ∈ entries, entry.type ≠ IMAGE_DEBUG_TYPE_CODEVIEW := by
  simp [read_debug_info_database, find_debug_data_none]

set_option maxRecDepth 100000 in
/-- C17, evaluated: the debug directory holds one CodeView entry, whose payload
is an `NB10` record (signature 0x3031424E) naming `C:\proj\app.pdb`, and no entry
with the `RSDS` signature.  `debug_data` is set before the signature is looked
at, so `read_debug_info` does not return false: it goes on to open a debug
database under the text found 24 bytes into the record, `app.pdb`. -/
theorem codeview_entry_without_rsds_is_used :
    [({ type := IMAGE_DEBUG_TYPE_CODEVIEW,
        raw_data := nb10_payload 1700000000 1 "C:\\proj\\app.pdb".toList }
      : debug_directory_entry)].any is_rsds_entry = false ∧
      read_debug_info_database
        [{ type := IMAGE_DEBUG_TYPE_CODEVIEW,
           raw_data := nb10_payload 1700000000 1 "C:\\proj\\app.pdb".toList }]
        = some "app.pdb".toList ∧
      read_debug_info_database
        [{ type := IMAGE_DEBUG_TYPE_CODEVIEW,
           raw_data := rsds_payload [] 1 "C:\\proj\\app.pdb".toList }]
        = some "C:\\proj\\app.pdb".toList := by
  decide

/-! ## Imports by ordinal (C18) -/

theorem ordinal_thunk_is_ordinal (ordinal : Nat) (h : ordinal < 65536) :
    IMAGE_SNAP_BY_ORDINAL (ordinal_thunk ordinal) = true ∧
      IMAGE_ORDINAL (ordinal_thunk ordinal) = ordinal := by
  unfold IMAGE_SNAP_BY_ORDINAL IMAGE_ORDINAL ordinal_thunk
  constructor
  · simp only [beq_iff_eq]
    omega
  · omega

/-- On the table as the code reads it, with elements of four bytes: when the
ordinal is found at an index, the thunk inserts the name at that index with the
address of the import address table slot; when it is not found, the thunk
leaves the symbol table as it is. -/
theorem import_thunk_by_ordinal (image : List Nat) (target : target_module)
    (symbols : symbol_table) (ordinal address_entry : Nat) (h : ordinal < 65536) :
    import_thunk image target symbols (ordinal_thunk ordinal) address_entry =
      match find_ordinal target ordinal with
      | some index => symbols_insert symbols (export_name target index, address_entry)
      | none => symbols := by
  obtain ⟨hsnap, hordinal⟩ := ordinal_thunk_is_ordinal ordinal h
  simp only [import_thunk, hsnap, hordinal, if_true]

set_option maxRecDepth 100000 in
/-- C18, evaluated on export tables in the layout of the PE format, where the
export ordinal table has entries of 16 bits.  With the one export
`{ordinal = 5, name = "Foo"}` the table holds 5 at index 0 and the name at
index 0 is `Foo`, but the four bytes the code reads as element 0 are the entry
and the two bytes behind it, so 5 is not found and the thunk imported by
ordinal 5 adds no symbol.  With the two exports `Bar` (4) and `Foo` (5) the
element read is `4 + 65536 * 5`, and again no symbol is added. -/
theorem import_by_ordinal_is_not_resolved :
    pe_ordinal_entry (pe_export_tables [(5, "Foo".toList)]) 0 = 5 ∧
      export_name (pe_export_tables [(5, "Foo".toList)]) 0 = "Foo".toList ∧
      export_name_ordinal (pe_export_tables [(5, "Foo".toList)]) 0 = 5 + 65536 * 28486 ∧
      import_thunks [] (pe_export_tables [(5, "Foo".toList)]) []
        [(ordinal_thunk 5, 140737488355328)] = [] ∧
      pe_ordinal_entry (pe_export_tables [(4, "Bar".toList), (5, "Foo".toList)]) 1 = 5 ∧
      export_name (pe_export_tables [(4, "Bar".toList), (5, "Foo".toList)]) 1 = "Foo".toList ∧
      export_name_ordinal (pe_export_tables [(4, "Bar".toList), (5, "Foo".toList)]) 0
        = 4 + 65536 * 5 ∧
      import_thunks [] (pe_export_tables [(4, "Bar".toList), (5, "Foo".toList)]) []
        [(ordinal_thunk 5, 140737488355328)] = [] := by
  decide

/-! ## The start of Run with no source directory (C19) -/

/-- C19, evaluated: with an empty source directory set, and the pipes and the
compiler process created without failure, `Run` prints the diagnostic and goes
on: it starts the compiler process and reaches the watch loop. -/
theorem empty_source_directories_do_not_abort
    (open_directory create_event read_directory_changes : Str → Bool) (process_id : Nat) :
    Run_after_discovery
        { create_input_pipe := true, create_output_pipe := true,
          create_process := some process_id, open_directory := open_directory,
          create_event := create_event, read_directory_changes := read_directory_changes } []
      = ([Startup_Effect.print
            (" Error: Could not  determine  source  directories.  Check  your program ".toList
              ++ ['\n']),
          Startup_Effect.print ("Starting  compiler  process ...".toList ++ ['\n']),
          Startup_Effect.create_process "cmd.exe /q /d /k @echo off".toList,
          Startup_Effect.print
            (" Started  process with PID ".toList ++ decimal process_id ++ ['\n'])], true) := by
  simp [Run_after_discovery, no_source_directories_diagnostic, start_watchers, startup_print]

/-! ## The pieces passed to print (C20) -/

theorem split_after_newlines_plain (x current : Str) (hx : '\n' ∉ x) :
    split_after_newlines x current = [current.reverse ++ x] := by
  induction x generalizing current with
  | nil => simp [split_after_newlines]
  | cons c x ih =>
    have hc : c ≠ '\n' := fun h => hx (h ▸ List.mem_cons_self _ _)
    have hx2 : '\n' ∉ x := fun h => hx (List.mem_cons_of_mem _ h)
    simp [split_after_newlines, hc, ih _ hx2]

theorem split_after_newlines_line (x y current : Str) (hx : '\n' ∉ x) :
    split_after_newlines (x ++ '\n' :: y) current
      = (current.reverse ++ x ++ ['\n']) :: split_after_newlines y [] := by
  induction x generalizing current with
  | nil => simp [split_after_newlines]
  | cons c x ih =>
    have hc : c ≠ '\n' := fun h => hx (h ▸ List.mem_cons_self _ _)
    have hx2 : '\n' ∉ x := fun h => hx (List.mem_cons_of_mem _ h)
    simp [split_after_newlines, hc, ih _ hx2]

theorem first_newline (s : Str) :
    ∃ x : Str, '\n' ∉ x ∧ (s = x ∨ ∃ y : Str, s = x ++ '\n' :: y) := by
  induction s with
  | nil => exact ⟨[], by simp, Or.inl rfl⟩
  | cons c s ih =>
    by_cases hc : c = '\n'
    · exact ⟨[], by simp, Or.inr ⟨s, by simp [hc]⟩⟩
    · obtain ⟨x, hx, hs⟩ := ih
      refine ⟨c :: x, ?_, ?_⟩
      · intro h
        rcases List.mem_cons.mp h with h | h
        · exact hc h.symm
        · exact hx h
      · rcases hs with hs | ⟨y, hs⟩
        · exact Or.inl (by rw [hs])
        · exact Or.inr ⟨y, by rw [hs]; rfl⟩

theorem find_at_char_none (c : Char) (x : Str) (i : Nat) (hx : c ∉ x) :
    find_at [c] x i = none := by
  induction x generalizing i with
  | nil => rfl
  | cons d x ih =>
    have hd : d ≠ c := fun h => hx (h ▸ List.mem_cons_self _ _)
    have hx2 : c ∉ x := fun h => hx (List.mem_cons_of_mem _ h)
    have hfalse : starts_with (d :: x) [c] = false := by simp [starts_with, hd]
    rw [find_at_cons_of_not_starts_with [c] x d i hfalse]
    exact ih _ hx2

theorem str_find_from (message pat : Str) (offset : Nat) (h : offset ≤ message.length) :
    str_find message pat offset = find_at pat (message.drop offset) offset := by
  have : ¬ message.length < offset := by omega
  simp [str_find, this]

/-- With fuel beyond the number of characters left, the loop of lines 239-245
gives the pieces of the rest of the message cut after every newline. -/
theorem print_pieces_eq_split (message : Str) :
    ∀ (fuel offset : Nat), offset ≤ message.length → message.length - offset < fuel →
      print_pieces message fuel offset = split_after_newlines (message.drop offset) [] := by
  intro fuel
  induction fuel with
  | zero => intro offset _ h; omega
  | succ fuel ih =>
    intro offset hoffset hfuel
    have hlen : (message.drop offset).length = message.length - offset := List.length_drop _ _
    obtain ⟨x, hx, hrest | ⟨y, hrest⟩⟩ := first_newline (message.drop offset)
    · have hfind : str_find message ['\n'] offset = none := by
        rw [str_find_from message _ offset hoffset, hrest]
        exact find_at_char_none _ _ _ hx
      rw [print_pieces, hfind, ← hlen, List.take_length, hrest,
        split_after_newlines_plain x [] hx]
      rfl
    · have hfind : str_find message ['\n'] offset = some (offset + x.length) := by
        rw [str_find_from message _ offset hoffset, hrest]
        exact find_at_char _ _ _ _ hx
      have hlen2 : x.length + 1 + y.length = message.length - offset := by
        rw [← hlen, hrest]
        simp only [List.length_append, List.length_cons]
        omega
      have hnext : message.drop (offset + x.length + 1) = y := by
        have h1 : message.drop (offset + x.length + 1)
            = (message.drop offset).drop (x.length + 1) := by
          rw [List.drop_drop, Nat.add_assoc]
        rw [h1, hrest]
        have h2 : x ++ '\n' :: y = (x ++ ['\n']) ++ y := by simp
        rw [h2]
        have h3 : x.length + 1 = (x ++ ['\n']).length := by simp
        rw [h3, List.drop_left]
      have hpiece : (message.drop offset).take (offset + x.length - offset + 1) = x ++ ['\n'] := by
        rw [hrest]
        have h2 : x ++ '\n' :: y = (x ++ ['\n']) ++ y := by simp
        have h3 : offset + x.length - offset + 1 = (x ++ ['\n']).length := by simp
        rw [h2, h3, List.take_left]
      rw [print_pieces, hfind]
      simp only [hpiece]
      rw [ih (offset + x.length + 1) (by omega) (by omega), hnext, hrest,
        split_after_newlines_line x y [] hx]
      rfl

theorem split_after_newlines_flatten (s current : Str) :
    (split_after_newlines s current).flatten = current.reverse ++ s := by
  induction s generalizing current with
  | nil => simp [split_after_newlines]
  | cons c s ih =>
    by_cases hc : c = '\n'
    · simp [split_after_newlines, hc, ih]
    · simp [split_after_newlines, hc, ih]

theorem split_after_newlines_ne_nil (s current : Str) : split_after_newlines s current ≠ [] := by
  induction s generalizing current with
  | nil => simp [split_after_newlines]
  | cons c s ih =>
    by_cases hc : c = '\n'
    · simp [split_after_newlines, hc]
    · simp only [split_after_newlines, hc, if_false]
      exact ih _

theorem split_after_newlines_pieces (s current : Str) (hcurrent : '\n' ∉ current) :
    ∀ piece ∈ (split_after_newlines s current).dropLast,
      ∃ body : Str, piece = body ++ ['\n'] ∧ '\n' ∉ body := by
  induction s generalizing current with
  | nil => simp [split_after_newlines]
  | cons c s ih =>
    by_cases hc : c = '\n'
    · intro piece hpiece
      have hne : split_after_newlines s [] ≠ [] := split_after_newlines_ne_nil s []
      simp only [split_after_newlines, hc, if_true] at hpiece
      rw [List.dropLast_cons_of_ne_nil hne] at hpiece
      rcases List.mem_cons.mp hpiece with h | h
      · refine ⟨current.reverse, by rw [h]; simp, ?_⟩
        simpa using hcurrent
      · exact ih [] (by simp) piece h
    · intro piece hpiece
      simp only [split_after_newlines, hc, if_false] at hpiece
      refine ih (c :: current) ?_ piece hpiece
      intro h
      rcases List.mem_cons.mp h with h | h
      · exact hc h.symm
      · exact hcurrent h

/-- C20: the loop of lines 239-245 ends (fuel beyond one iteration per
character and one more changes nothing), the pieces it passes to `print` give
the chunk back when put together in order, and every piece but the last is a
text without newline followed by one newline. -/
theorem print_pieces_lines (message : Str) (extra : Nat) :
    print_pieces message (message.length + 1 + extra) 0
        = print_pieces message (message.length + 1) 0 ∧
      (print_pieces message (message.length + 1) 0).flatten = message ∧
      ∀ piece ∈ (print_pieces message (message.length + 1) 0).dropLast,
        ∃ body : Str, piece = body ++ ['\n'] ∧ '\n' ∉ body := by
  have h1 := print_pieces_eq_split message (message.length + 1 + extra) 0 (by omega) (by omega)
  have h2 := print_pieces_eq_split message (message.length + 1) 0 (by omega) (by omega)
  refine ⟨by rw [h1, h2], ?_, ?_⟩
  · rw [h2, split_after_newlines_flatten]
    simp
  · rw [h2]
    exact split_after_newlines_pieces _ [] (by simp)

/-! ## The alignment of the records (C21) -/

theorem align_one (stream : Stream_Reader) : stream.align 1 = stream := by
  simp [Stream_Reader.align, Nat.mod_one]

theorem align_multiple (stream : Stream_Reader) (alignment : Nat) (h : 1 ≤ alignment) :
    (stream.align alignment).tell % alignment = 0 ∧
      stream.tell ≤ (stream.align alignment).tell ∧
      (stream.align alignment).tell < stream.tell + alignment := by
  unfold Stream_Reader.align
  by_cases hmod : stream._stream_offset % alignment = 0
  · rw [if_neg (by simpa using hmod)]
    exact ⟨hmod, Nat.le_refl _, by simp only [Stream_Reader.tell]; omega⟩
  · simp only [hmod, ne_eq, not_false_eq_true, if_true, Stream_Reader.tell, Stream_Reader.skip]
    have hlt : stream._stream_offset % alignment < alignment := Nat.mod_lt _ (by omega)
    have hdecomp := Nat.div_add_mod stream._stream_offset alignment
    refine ⟨?_, by omega, by omega⟩
    have hsum : stream._stream_offset + (alignment - stream._stream_offset % alignment)
        = alignment * (stream._stream_offset / alignment + 1) := by
      rw [Nat.mul_add, Nat.mul_one]
      omega
    rw [hsum, Nat.mul_mod_right]

theorem align_stream (stream : Stream_Reader) (alignment : Nat) :
    (stream.align alignment)._stream = stream._stream := by
  unfold Stream_Reader.align
  split <;> rfl

theorem seek_eq (stream : Stream_Reader) (offset : Nat) :
    stream.seek offset = { _stream_offset := offset, _stream := stream._stream } := rfl

theorem stream_eta (stream : Stream_Reader) :
    stream = { _stream_offset := stream.tell, _stream := stream._stream } := by
  cases stream; rfl

/-- The reader an iteration of the loop with a noting handler hands to the next
iteration: same bytes, positioned at `next_record_position`, wherever the
handler left the reader. -/
theorem record_offsets_step {σ : Type} (callback : Nat → Stream_Reader → σ → Stream_Reader × σ)
    (hcallback : ∀ tag stream state, (callback tag stream state).1._stream = stream._stream)
    (stream_end alignment fuel : Nat) (stream : Stream_Reader) (state : σ)
    (offsets : List Nat) (hlt : stream.tell < stream_end) :
    (parse_records_loop (noting_record_offsets callback) stream_end alignment (fuel + 1) stream
        (state, offsets)).2.1.2
      = (parse_records_loop (noting_record_offsets callback) stream_end alignment fuel
          { _stream_offset := next_record_position stream._stream alignment stream.tell,
            _stream := stream._stream }
          ((callback stream.read_uint16.2.read_uint16.1 stream.read_uint16.2.read_uint16.2
            state).2, offsets ++ [stream.tell])).2.1.2 := by
  have hnext : ((noting_record_offsets callback stream.read_uint16.2.read_uint16.1
        stream.read_uint16.2.read_uint16.2 (state, offsets)).1.seek
        ((stream.read_uint16.2.read_uint16.2.tell - 2) + stream.read_uint16.1)).align alignment
      = { _stream_offset := next_record_position stream._stream alignment stream.tell,
          _stream := stream._stream } := by
    have hseek : (noting_record_offsets callback stream.read_uint16.2.read_uint16.1
        stream.read_uint16.2.read_uint16.2 (state, offsets)).1.seek
        ((stream.read_uint16.2.read_uint16.2.tell - 2) + stream.read_uint16.1)
        = { _stream_offset := stream.tell + 2 + length_field_at stream._stream stream.tell,
            _stream := stream._stream } := by
      rw [seek_eq]
      simp only [noting_record_offsets, hcallback]
      simp only [Stream_Reader.read_uint16, Stream_Reader.skip, Stream_Reader.tell,
        length_field_at, Stream_Reader.data]
      rfl
    rw [hseek, stream_eta (Stream_Reader.align _ alignment), align_stream]
    rfl
  have hstate : (noting_record_offsets callback stream.read_uint16.2.read_uint16.1
      stream.read_uint16.2.read_uint16.2 (state, offsets)).2
      = ((callback stream.read_uint16.2.read_uint16.1 stream.read_uint16.2.read_uint16.2
          state).2, offsets ++ [stream.tell]) := by
    simp [noting_record_offsets, Stream_Reader.read_uint16, Stream_Reader.skip,
      Stream_Reader.tell]
  rw [parse_records_loop]
  simp only [hlt, if_true]
  rw [hnext, hstate]

theorem record_offsets_accumulate {σ : Type}
    (callback : Nat → Stream_Reader → σ → Stream_Reader × σ)
    (hcallback : ∀ tag stream state, (callback tag stream state).1._stream = stream._stream)
    (stream_end alignment : Nat) :
    ∀ (fuel : Nat) (stream : Stream_Reader) (state : σ) (offsets : List Nat),
      (parse_records_loop (noting_record_offsets callback) stream_end alignment fuel stream
          (state, offsets)).2.1.2
        = offsets
          ++ (parse_records_loop (noting_record_offsets callback) stream_end alignment fuel stream
              (state, [])).2.1.2 := by
  intro fuel
  induction fuel with
  | zero => intro stream state offsets; simp [parse_records_loop]
  | succ fuel ih =>
    intro stream state offsets
    by_cases hlt : stream.tell < stream_end
    · rw [record_offsets_step callback hcallback _ _ _ _ _ _ hlt,
        record_offsets_step callback hcallback _ _ _ _ _ _ hlt, ih, ih _ _ ([] ++ [stream.tell])]
      simp
    · simp [parse_records_loop, hlt]

/-- The offsets noted by the loop: none when the position is at the end of the
region, otherwise the position and then the offsets noted from
`next_record_position` on. -/
theorem record_offsets_unfold {σ : Type}
    (callback : Nat → Stream_Reader → σ → Stream_Reader × σ)
    (hcallback : ∀ tag stream state, (callback tag stream state).1._stream = stream._stream)
    (stream_end alignment fuel : Nat) (stream : Stream_Reader) (state : σ) :
    (parse_records_loop (noting_record_offsets callback) stream_end alignment (fuel + 1) stream
        (state, [])).2.1.2
      = if stream.tell < stream_end then
          stream.tell ::
            (parse_records_loop (noting_record_offsets callback) stream_end alignment fuel
              { _stream_offset := next_record_position stream._stream alignment stream.tell,
                _stream := stream._stream }
              ((callback stream.read_uint16.2.read_uint16.1
                stream.read_uint16.2.read_uint16.2 state).2, [])).2.1.2
        else [] := by
  by_cases hlt : stream.tell < stream_end
  · rw [record_offsets_step callback hcallback _ _ _ _ _ _ hlt,
      record_offsets_accumulate callback hcallback]
    simp [hlt]
  · simp [parse_records_loop, hlt]

theorem record_offsets_head {σ : Type}
    (callback : Nat → Stream_Reader → σ → Stream_Reader × σ)
    (hcallback : ∀ tag stream state, (callback tag stream state).1._stream = stream._stream)
    (stream_end alignment : Nat) (fuel : Nat) (stream : Stream_Reader) (state : σ) :
    ∀ first ∈ (parse_records_loop (noting_record_offsets callback) stream_end alignment fuel
        stream (state, [])).2.1.2.head?, first = stream.tell := by
  cases fuel with
  | zero => simp [parse_records_loop]
  | succ fuel =>
    rw [record_offsets_unfold callback hcallback]
    by_cases hlt : stream.tell < stream_end <;> simp [hlt]

/-- Every record after the first is read at the position computed from the
record before it: its start, two bytes, its length field, aligned to the
alignment argument. -/
theorem record_offsets_chain {σ : Type}
    (callback : Nat → Stream_Reader → σ → Stream_Reader × σ)
    (hcallback : ∀ tag stream state, (callback tag stream state).1._stream = stream._stream)
    (stream_end alignment : Nat) :
    ∀ (fuel : Nat) (stream : Stream_Reader) (state : σ),
      List.Chain' (fun previous next =>
          next = next_record_position stream._stream alignment previous)
        (parse_records_loop (noting_record_offsets callback) stream_end alignment fuel stream
          (state, [])).2.1.2 := by
  intro fuel
  induction fuel with
  | zero => intro stream state; simp [parse_records_loop]
  | succ fuel ih =>
    intro stream state
    rw [record_offsets_unfold callback hcallback]
    by_cases hlt : stream.tell < stream_end
    · simp only [hlt, if_true]
      rw [List.chain'_cons']
      refine ⟨?_, ih _ _⟩
      intro next hnext
      exact record_offsets_head callback hcallback stream_end alignment fuel
        { _stream_offset := next_record_position stream._stream alignment stream.tell,
          _stream := stream._stream } _ next hnext
    · simp [hlt]

/-- The notes change nothing in the run: the reader, the state of the handler
and the tags are those of the run of the handler alone. -/
theorem noting_record_offsets_run {σ : Type}
    (callback : Nat → Stream_Reader → σ → Stream_Reader × σ) (stream_end alignment : Nat) :
    ∀ (fuel : Nat) (stream : Stream_Reader) (state : σ) (offsets : List Nat),
      (parse_records_loop (noting_record_offsets callback) stream_end alignment fuel stream
          (state, offsets)).1
        = (parse_records_loop callback stream_end alignment fuel stream state).1 ∧
      (parse_records_loop (noting_record_offsets callback) stream_end alignment fuel stream
          (state, offsets)).2.1.1
        = (parse_records_loop callback stream_end alignment fuel stream state).2.1 ∧
      (parse_records_loop (noting_record_offsets callback) stream_end alignment fuel stream
          (state, offsets)).2.2
        = (parse_records_loop callback stream_end alignment fuel stream state).2.2 := by
  intro fuel
  induction fuel with
  | zero => intro stream state offsets; simp [parse_records_loop]
  | succ fuel ih =>
    intro stream state offsets
    by_cases hlt : stream.tell < stream_end
    · simp only [parse_records_loop, hlt, if_true, noting_record_offsets]
      obtain ⟨h1, h2, h3⟩ := ih
        (((callback stream.read_uint16.2.read_uint16.1 stream.read_uint16.2.read_uint16.2
          state).1.seek ((stream.read_uint16.2.read_uint16.2.tell - 2)
            + stream.read_uint16.1)).align alignment)
        (callback stream.read_uint16.2.read_uint16.1 stream.read_uint16.2.read_uint16.2 state).2
        (offsets ++ [stream.read_uint16.2.read_uint16.2.tell - 4])
      exact ⟨h1, h2, by rw [h3]⟩
    · simp [parse_records_loop, hlt]

/-- One offset is noted for every record whose tag is passed to the handler. -/
theorem record_offsets_count {σ : Type}
    (callback : Nat → Stream_Reader → σ → Stream_Reader × σ) (stream_end alignment : Nat) :
    ∀ (fuel : Nat) (stream : Stream_Reader) (state : σ) (offsets : List Nat),
      (parse_records_loop (noting_record_offsets callback) stream_end alignment fuel stream
          (state, offsets)).2.1.2.length
        = offsets.length
          + (parse_records_loop (noting_record_offsets callback) stream_end alignment fuel stream
              (state, offsets)).2.2.length := by
  intro fuel
  induction fuel with
  | zero => intro stream state offsets; simp [parse_records_loop]
  | succ fuel ih =>
    intro stream state offsets
    by_cases hlt : stream.tell < stream_end
    · simp only [parse_records_loop, hlt, if_true, noting_record_offsets, List.length_cons]
      rw [ih]
      simp only [List.length_append, List.length_cons, List.length_nil]
      omega
    · simp [parse_records_loop, hlt]

theorem envblock_pairs_stream :
    ∀ (fuel : Nat) (stream : Stream_Reader) (cmdline : Str),
      (envblock_pairs fuel stream cmdline).1._stream = stream._stream := by
  intro fuel
  induction fuel with
  | zero => intro stream cmdline; rfl
  | succ fuel ih =>
    intro stream cmdline
    rw [envblock_pairs]
    split
    · rw [ih]
      rfl
    · rfl

theorem envblock_callback_stream (tag : Nat) (stream : Stream_Reader) (cmdline : Str) :
    (envblock_callback tag stream cmdline).1._stream = stream._stream := by
  unfold envblock_callback
  split
  · rfl
  · rw [envblock_pairs_stream]
    rfl

/-- C21 as the code has it: the cursor is aligned to the alignment argument, not
to 4.  For every handler that leaves the bytes of the stream as they are,
wherever it leaves the cursor: with the alignment 1, which is what a call
without alignment argument gets, every record after the first is read exactly
where the one before it ends, at its start plus two bytes plus its length
field; with an alignment `alignment + 1` it is read at the first multiple of
the alignment from there on.  The offsets are those noted beside the handler:
the first is the position the scan starts at, there is one for every tag
passed to the handler, and the run of the handler (its state and the tags) is
not changed by the notes. -/
theorem records_follow_alignment_argument {σ : Type}
    (callback : Nat → Stream_Reader → σ → Stream_Reader × σ)
    (hcallback : ∀ tag stream state, (callback tag stream state).1._stream = stream._stream)
    (stream : Stream_Reader) (length alignment : Nat) (state : σ) :
    List.Chain' (fun previous next =>
        next = previous + 2 + length_field_at stream._stream previous)
      (parse_code_view_records stream length (noting_record_offsets callback) 1
        (state, [])).2.1.2 ∧
    List.Chain' (fun previous next =>
        next % (alignment + 1) = 0 ∧
          previous + 2 + length_field_at stream._stream previous ≤ next ∧
          next < previous + 2 + length_field_at stream._stream previous + (alignment + 1))
      (parse_code_view_records stream length (noting_record_offsets callback) (alignment + 1)
        (state, [])).2.1.2 ∧
    (∀ first ∈ (parse_code_view_records stream length (noting_record_offsets callback)
        (alignment + 1) (state, [])).2.1.2.head?, first = stream.tell) ∧
    (parse_code_view_records stream length (noting_record_offsets callback) (alignment + 1)
        (state, [])).2.1.2.length
      = (parse_code_view_records stream length callback (alignment + 1) state).2.2.length ∧
    (parse_code_view_records stream length (noting_record_offsets callback) (alignment + 1)
        (state, [])).2.1.1
      = (parse_code_view_records stream length callback (alignment + 1) state).2.1 ∧
    (parse_code_view_records stream length (noting_record_offsets callback) (alignment + 1)
        (state, [])).2.2
      = (parse_code_view_records stream length callback (alignment + 1) state).2.2 := by
  refine ⟨?_, ?_, ?_, ?_, ?_, ?_⟩
  · refine List.Chain'.imp ?_ (record_offsets_chain callback hcallback _ 1 length stream state)
    intro previous next h
    rw [h, next_record_position, align_one]
    rfl
  · refine List.Chain'.imp ?_
      (record_offsets_chain callback hcallback _ (alignment + 1) length stream state)
    intro previous next h
    rw [h, next_record_position]
    exact align_multiple _ (alignment + 1) (by omega)
  · exact record_offsets_head callback hcallback _ _ length stream state
  · have hcount := record_offsets_count callback (stream.tell + length) (alignment + 1) length
      stream state []
    have hrun := (noting_record_offsets_run callback (stream.tell + length) (alignment + 1)
      length stream state []).2.2
    unfold parse_code_view_records
    rw [hcount, hrun]
    simp
  · exact (noting_record_offsets_run callback _ _ length stream state []).2.1
  · exact (noting_record_offsets_run callback _ _ length stream state []).2.2

/-- The handler of `build_compile_command_line`, which reads through the
environment block, on the debug section with a record of seven bytes, scanned
with the alignment 4. -/
theorem records_follow_alignment_argument_witness :
    List.Chain' (fun previous next =>
        next = previous + 2 + length_field_at unaligned_debug_section previous)
      (parse_code_view_records { _stream_offset := 12, _stream := unaligned_debug_section } 53
        (noting_record_offsets envblock_callback) 1 ([], [])).2.1.2 ∧
    List.Chain' (fun previous next =>
        next % (3 + 1) = 0 ∧
          previous + 2 + length_field_at unaligned_debug_section previous ≤ next ∧
          next < previous + 2 + length_field_at unaligned_debug_section previous + (3 + 1))
      (parse_code_view_records { _stream_offset := 12, _stream := unaligned_debug_section } 53
        (noting_record_offsets envblock_callback) (3 + 1) ([], [])).2.1.2 ∧
    (∀ first ∈ (parse_code_view_records
        { _stream_offset := 12, _stream := unaligned_debug_section } 53
        (noting_record_offsets envblock_callback) (3 + 1) ([], [])).2.1.2.head?, first = 12) ∧
    (parse_code_view_records { _stream_offset := 12, _stream := unaligned_debug_section } 53
        (noting_record_offsets envblock_callback) (3 + 1) ([], [])).2.1.2.length
      = (parse_code_view_records { _stream_offset := 12, _stream := unaligned_debug_section } 53
          envblock_callback (3 + 1) []).2.2.length ∧
    (parse_code_view_records { _stream_offset := 12, _stream := unaligned_debug_section } 53
        (noting_record_offsets envblock_callback) (3 + 1) ([], [])).2.1.1
      = (parse_code_view_records { _stream_offset := 12, _stream := unaligned_debug_section } 53
          envblock_callback (3 + 1) []).2.1 ∧
    (parse_code_view_records { _stream_offset := 12, _stream := unaligned_debug_section } 53
        (noting_record_offsets envblock_callback) (3 + 1) ([], [])).2.2
      = (parse_code_view_records { _stream_offset := 12, _stream := unaligned_debug_section } 53
          envblock_callback (3 + 1) []).2.2 :=
  records_follow_alignment_argument envblock_callback envblock_callback_stream
    { _stream_offset := 12, _stream := unaligned_debug_section } 53 3 []

set_option maxRecDepth 1000000 in
/-- C21 fails as stated: the symbols subsection of the debug section starts at
offset 12 and holds a record of seven bytes and then the environment block, 53
bytes in all.  Scanned with the handler of `build_compile_command_line` and
without alignment argument, as that function does it, the second record is
read at offset 19, which is no multiple of 4; it is there that the environment
block is found and the command line is read from it. -/
theorem second_record_is_read_unaligned :
    (encode_records [{ tag := 0x1101, payload := [0, 0, 0] }, example_envblock]).length = 53 ∧
      (parse_code_view_records { _stream_offset := 12, _stream := unaligned_debug_section } 53
        (noting_record_offsets envblock_callback) 1 ([], [])).2.1.2 = [12, 19] ∧
      19 % 4 ≠ 0 ∧
      (parse_code_view_records { _stream_offset := 12, _stream := unaligned_debug_section } 53
        envblock_callback 1 []).2.2 = [0x1101, 0x113d] ∧
      (parse_code_view_records { _stream_offset := 12, _stream := unaligned_debug_section } 53
        envblock_callback 1 []).2.1
        = ("cd /D \"/proj\"\nset PATH=%PATH%;/tools/cl\\..\\..\\x86;/tools/cl\\..\\..\\x64\n"
            ++ "\"/tools/cl\" /c /Od x.cpp").toList ∧
      command_line_of_sections
          [{ Name := ".debug&S".toList, raw_data := unaligned_debug_section }]
        = ("cd /D \"/proj\"\nset PATH=%PATH%;/tools/cl\\..\\..\\x86;/tools/cl\\..\\..\\x64\n"
            ++ "\"/tools/cl\" /c /Od x.cpp").toList := by
  decide

/-! ## Paths that do not exist (C22) -/

theorem examine_path_missing (file_exists : path → Bool) (source_dirs : List path) (p : path)
    (h : file_exists p = false) : examine_path file_exists source_dirs p = source_dirs := by
  simp [examine_path, h]

theorem foldl_examine_filter (file_exists : path → Bool) (paths : List path) :
    ∀ source_dirs : List path,
      paths.foldl (examine_path file_exists) source_dirs
        = (paths.filter file_exists).foldl (examine_path file_exists) source_dirs := by
  induction paths with
  | nil => intro source_dirs; rfl
  | cons p rest ih =>
    intro source_dirs
    by_cases hp : file_exists p = true
    · simp only [List.foldl_cons, List.filter_cons, hp, if_true]
      exact ih _
    · have hp2 : file_exists p = false := by simpa using hp
      simp only [List.foldl_cons, List.filter_cons, hp, if_false,
        examine_path_missing file_exists source_dirs p hp2]
      exact ih _

/-- Behind the first path the paths that do not exist contribute nothing: when
the first path of the list exists, the set is the one computed from the list
without the paths that do not exist. -/
theorem find_common_paths_skips_missing (file_exists : path → Bool) (first : path)
    (rest source_dirs : List path) (hfirst : file_exists first = true) :
    find_common_paths file_exists (first :: rest) source_dirs
      = find_common_paths file_exists ((first :: rest).filter file_exists) source_dirs := by
  simp only [List.filter_cons, hfirst, if_true, find_common_paths]
  exact foldl_examine_filter file_exists rest _

/-- C22, evaluated: `/ghost/x.cpp` does not exist and is the first path of the
list, before the existing `/proj/src/a/x.cpp`.  Its directory is added to the
empty set without a look at the file system and is then collapsed with the
directory of the second path to the root directory: the set ends as `/`,
`/proj/src/a`, while the list without the missing path gives `/proj/src/a`
alone. -/
theorem missing_first_path_is_considered :
    all_but_ghost ghost_x = false ∧ all_but_ghost proj_src_a_x = true ∧
      find_common_paths all_but_ghost [ghost_x, proj_src_a_x] []
        = [path_elements "/".toList, path_elements "/proj/src/a".toList] ∧
      find_common_paths all_but_ghost ([ghost_x, proj_src_a_x].filter all_but_ghost) []
        = [path_elements "/proj/src/a".toList] ∧
      find_common_paths all_but_ghost [ghost_x] [] = [path_elements "/ghost".toList] := by
  decide

/-! ## The loop of path_hash (C23) -/

/-- C23, evaluated: for a path that is not empty, `c :: rest`, the loop of
`path_hash` has not ended after any number of iterations, so no hash value is
returned; the condition of the loop assigns the size of the string to `index`
and is true whenever the size is not zero.  Only for the empty path is a value
returned. -/
theorem path_hash_does_not_terminate (hash : Str → Nat) (fuel : Nat) (c : Char) (rest : Str) :
    path_hash hash fuel (c :: rest) = none ∧
      path_hash hash fuel "C:\\proj\\src\\foo.c".toList = none ∧
      path_hash hash (fuel + 1) [] = some (hash []) := by
  refine ⟨?_, ?_, path_hash_empty hash fuel⟩
  · unfold path_hash
    rw [path_hash_loop_never_ends fuel (c :: rest) 0 (by simp)]
    rfl
  · unfold path_hash
    rw [path_hash_loop_never_ends fuel "C:\\proj\\src\\foo.c".toList 0 (by decide)]
    rfl

/-! ## The number of iterations of the record loop (C24) -/

theorem record_step_advances {σ : Type}
    (callback : Nat → Stream_Reader → σ → Stream_Reader × σ) (alignment : Nat)
    (stream : Stream_Reader) (state : σ) :
    stream.tell + 2 ≤
      (((callback stream.read_uint16.2.read_uint16.1 stream.read_uint16.2.read_uint16.2
        state).1.seek ((stream.read_uint16.2.read_uint16.2.tell - 2)
          + stream.read_uint16.1)).align alignment).tell := by
  refine Nat.le_trans ?_ (align_tell_ge _ alignment)
  simp only [Stream_Reader.seek, Stream_Reader.tell, Stream_Reader.read_uint16,
    Stream_Reader.skip]
  omega

theorem parse_records_loop_count {σ : Type}
    (callback : Nat → Stream_Reader → σ → Stream_Reader × σ) (stream_end alignment : Nat) :
    ∀ (fuel : Nat) (stream : Stream_Reader) (state : σ),
      (parse_records_loop callback stream_end alignment fuel stream state).2.2.length
        ≤ (stream_end - stream.tell + 1) / 2 := by
  intro fuel
  induction fuel with
  | zero => intro stream state; simp [parse_records_loop]
  | succ fuel ih =>
    intro stream state
    by_cases hlt : stream.tell < stream_end
    · have hnext := record_step_advances callback alignment stream state
      have hrest := ih
        (((callback stream.read_uint16.2.read_uint16.1 stream.read_uint16.2.read_uint16.2
          state).1.seek ((stream.read_uint16.2.read_uint16.2.tell - 2)
            + stream.read_uint16.1)).align alignment)
        (callback stream.read_uint16.2.read_uint16.1 stream.read_uint16.2.read_uint16.2 state).2
      rw [parse_records_loop]
      simp only [hlt, if_true, List.length_cons]
      omega
    · simp [parse_records_loop, hlt]

/-- C24: for every stream, start position, length, alignment and callback,
`parse_code_view_records` ends.  The position an iteration leaves the reader at
is at least 2 bytes beyond the start of the record it read, whatever length the
record declares (0 and 1 included) and wherever the callback stopped; the
callback is called at most `(length + 1) / 2` times, the upper half of the
length; and every fuel from `length` on gives the result of the fuel `length`
the function runs with, so the loop is never ended by its fuel. -/
theorem parse_code_view_records_terminates {σ : Type}
    (callback : Nat → Stream_Reader → σ → Stream_Reader × σ) (stream : Stream_Reader)
    (length alignment : Nat) (state : σ) (extra : Nat) :
    (∀ (record_start : Stream_Reader) (callback_state : σ),
        record_start.tell + 2 ≤
          (((callback record_start.read_uint16.2.read_uint16.1
              record_start.read_uint16.2.read_uint16.2 callback_state).1.seek
            ((record_start.read_uint16.2.read_uint16.2.tell - 2)
              + record_start.read_uint16.1)).align alignment).tell) ∧
      (parse_code_view_records stream length callback alignment state).2.2.length
        ≤ (length + 1) / 2 ∧
      parse_records_loop callback (stream.tell + length) alignment (length + extra) stream state
        = parse_code_view_records stream length callback alignment state := by
  refine ⟨fun record_start callback_state =>
    record_step_advances callback alignment record_start callback_state, ?_, ?_⟩
  · have h := parse_records_loop_count callback (stream.tell + length) alignment length
      stream state
    rw [Nat.add_sub_cancel_left] at h
    exact h
  · exact parse_records_loop_fuel callback (stream.tell + length) alignment (length + extra)
      length stream state (by omega) (by omega)

/-! ## Command lines as arguments separated by blanks -/

theorem command_line_text_cons (x : Str) (back : List Str) (h : back ≠ []) :
    command_line_text (x :: back) = x ++ ' ' :: command_line_text back := by
  cases back with
  | nil => exact absurd rfl h
  | cons y rest => rfl

theorem command_line_text_append (front rest : List Str) (h : rest ≠ []) :
    command_line_text (front ++ rest) = join_arguments front ++ command_line_text rest := by
  induction front with
  | nil => rfl
  | cons y front ih =>
    rw [List.cons_append, command_line_text_cons _ _ (by simp [h]), ih]
    simp [join_arguments]

theorem command_line_text_at (front : List Str) (x : Str) (back : List Str) :
    command_line_text (front ++ x :: back)
      = join_arguments front ++ (x ++ following_text back) := by
  rw [command_line_text_append _ _ (by simp)]
  cases back with
  | nil => simp [command_line_text, following_text]
  | cons y rest => simp [command_line_text, following_text]

theorem command_line_text_without (front back : List Str) (h : back ≠ []) :
    command_line_text (front ++ back)
      = join_arguments front ++ (following_text back).drop 1 := by
  rw [command_line_text_append _ _ h]
  cases back with
  | nil => exact absurd rfl h
  | cons y rest => simp [following_text]

theorem following_text_head (back : List Str) :
    following_text back = [] ∨ ∃ rest : Str, following_text back = ' ' :: rest := by
  cases back with
  | nil => left; rfl
  | cons y rest => right; exact ⟨_, rfl⟩

theorem find_at_text_none (pat : Str) (arguments : List Str) (i : Nat) (hpat : ' ' ∉ pat)
    (hne : pat ≠ []) (h : ∀ x ∈ arguments, find_at pat x 0 = none) :
    find_at pat (command_line_text arguments) i = none := by
  induction arguments generalizing i with
  | nil =>
    cases pat with
    | nil => exact absurd rfl hne
    | cons p pat => rfl
  | cons x rest ih =>
    cases rest with
    | nil =>
      exact find_at_none_shift pat x 0 i (h x (List.mem_cons_self _ _))
    | cons y rest =>
      rw [command_line_text_cons _ _ (by simp),
        find_at_skip_argument pat x _ i hpat hne (h x (List.mem_cons_self _ _))]
      exact ih _ (fun z hz => h z (List.mem_cons_of_mem _ hz))

theorem str_erase_length_le (s : Str) (index count : Nat) :
    (str_erase s index count).length ≤ s.length := by
  simp only [str_erase, List.length_append, List.length_take, List.length_drop]
  omega

theorem remove_arg_length_le (cmdline arg : Str) :
    (remove_arg cmdline arg).length ≤ cmdline.length := by
  unfold remove_arg
  split
  · unfold erase_arg
    split <;> exact str_erase_length_le _ _ _
  · split
    · unfold erase_arg
      split <;> exact str_erase_length_le _ _ _
    · exact Nat.le_refl _

/-- Erasing a flag whose value does not open with a quote and which no blank
follows: the line is erased from the flag to its end. -/
theorem erase_arg_plain_end (front arg value : Str) (c : Char)
    (hspace : ' ' ∉ c :: (arg ++ value)) (hvalue : value.head? ≠ some '"')
    (hsize : (front ++ (c :: (arg ++ value))).length < 2 ^ 64) :
    erase_arg (front ++ (c :: (arg ++ value))) arg front.length = front := by
  have hchar : (front ++ (c :: (arg ++ value))).getD
      (front.length + 1 + arg.length) (Char.ofNat 0) ≠ '"' := by
    have hsplit : front ++ (c :: (arg ++ value)) = (front ++ c :: arg) ++ value := by simp
    rw [hsplit, List.getD_append_right _ _ _ _ (by simp; omega)]
    have hidx : front.length + 1 + arg.length - (front ++ c :: arg).length = 0 := by
      simp; omega
    rw [hidx]
    cases value with
    | nil => simp
    | cons v value =>
      simp only [List.head?_cons, ne_eq, Option.some.injEq] at hvalue
      simpa using hvalue
  have hfind : str_find (front ++ (c :: (arg ++ value))) [' '] front.length = none := by
    rw [str_find_drop]
    exact find_at_char_none ' ' _ front.length hspace
  unfold erase_arg
  rw [if_pos (by simpa using hchar), hfind]
  simp only [to_size_t, npos, str_erase, List.length_append, List.length_cons] at hsize ⊢
  have hmin : min ((2 ^ 64 - 1 + 2 ^ 64 - front.length) % 2 ^ 64)
      (front.length + ((arg.length + value.length) + 1) - front.length)
      = (arg.length + value.length) + 1 := by
    omega
  rw [hmin]
  simp

/-- Erasing a flag whose value is quoted: the flag, its value and the character
after the closing quote, if there is one, are erased. -/
theorem erase_arg_quoted_general (front arg inner rest : Str) (c : Char) (hinner : '"' ∉ inner)
    (hsize : (front ++ (c :: (arg ++ '"' :: (inner ++ ['"']))) ++ rest).length + 1 < 2 ^ 64) :
    erase_arg (front ++ (c :: (arg ++ '"' :: (inner ++ ['"']))) ++ rest) arg front.length
      = front ++ rest.drop 1 := by
  have hchar : (front ++ (c :: (arg ++ '"' :: (inner ++ ['"']))) ++ rest).getD
      (front.length + 1 + arg.length) (Char.ofNat 0) = '"' := by
    have hsplit : front ++ (c :: (arg ++ '"' :: (inner ++ ['"']))) ++ rest
        = (front ++ c :: arg) ++ ('"' :: (inner ++ '"' :: rest)) := by simp
    rw [hsplit, List.getD_append_right _ _ _ _ (by simp; omega)]
    have hidx : front.length + 1 + arg.length - (front ++ c :: arg).length = 0 := by
      simp; omega
    rw [hidx]
    rfl
  have hfind : str_find (front ++ (c :: (arg ++ '"' :: (inner ++ ['"']))) ++ rest) ['"']
      (front.length + 2 + arg.length) = some (front.length + 2 + arg.length + inner.length) := by
    have hsplit : front ++ (c :: (arg ++ '"' :: (inner ++ ['"']))) ++ rest
        = (front ++ c :: (arg ++ ['"'])) ++ (inner ++ '"' :: rest) := by simp
    have hlen : front.length + 2 + arg.length = (front ++ c :: (arg ++ ['"'])).length := by
      simp; omega
    rw [hsplit, hlen, str_find_drop]
    exact find_at_char '"' inner _ _ hinner
  have hcount : (to_size_t (some (front.length + 2 + arg.length + inner.length)) + 2 + 2 ^ 64
      - front.length) % 2 ^ 64 = (c :: (arg ++ '"' :: (inner ++ ['"']))).length + 1 := by
    simp only [to_size_t]
    simp only [List.length_append, List.length_cons, List.length_nil] at hsize ⊢
    omega
  unfold erase_arg
  rw [if_neg (by rw [hchar]; simp), hfind, hcount]
  cases rest with
  | nil =>
    simp only [str_erase, List.append_nil, List.drop_nil]
    have hmin : min ((c :: (arg ++ '"' :: (inner ++ ['"']))).length + 1)
        ((front ++ (c :: (arg ++ '"' :: (inner ++ ['"'])))).length - front.length)
        = (c :: (arg ++ '"' :: (inner ++ ['"']))).length := by
      simp only [List.length_append, List.length_cons, List.length_nil]
      omega
    rw [hmin]
    simp
  | cons r rest =>
    have := str_erase_middle front (c :: (arg ++ '"' :: (inner ++ ['"'])) ++ [r]) rest
    simpa using this

/-- Erasing a flag that is followed by a quote when there is no other quote on
the rest of the line: the count `npos + 2 - offset` of `size_t` erases the
first character of the line when the flag starts it, nothing when the flag is
at the offset 1, and the line from the flag on otherwise. -/
theorem erase_arg_unclosed (front arg rest : Str) (c : Char) (hrest : '"' ∉ rest)
    (hsize : (front ++ c :: (arg ++ '"' :: rest)).length < 2 ^ 64) :
    erase_arg (front ++ c :: (arg ++ '"' :: rest)) arg front.length
      = if front.length = 0 then arg ++ '"' :: rest
        else if front.length = 1 then front ++ c :: (arg ++ '"' :: rest)
        else front := by
  have hchar : (front ++ c :: (arg ++ '"' :: rest)).getD
      (front.length + 1 + arg.length) (Char.ofNat 0) = '"' := by
    have hsplit : front ++ c :: (arg ++ '"' :: rest) = (front ++ c :: arg) ++ ('"' :: rest) := by
      simp
    rw [hsplit, List.getD_append_right _ _ _ _ (by simp; omega)]
    have hidx : front.length + 1 + arg.length - (front ++ c :: arg).length = 0 := by
      simp; omega
    rw [hidx]
    rfl
  have hfind : str_find (front ++ c :: (arg ++ '"' :: rest)) ['"']
      (front.length + 2 + arg.length) = none := by
    have hsplit : front ++ c :: (arg ++ '"' :: rest) = (front ++ c :: (arg ++ ['"'])) ++ rest := by
      simp
    have hlen : front.length + 2 + arg.length = (front ++ c :: (arg ++ ['"'])).length := by
      simp; omega
    rw [hsplit, hlen, str_find_drop]
    exact find_at_char_none '"' rest _ hrest
  unfold erase_arg
  rw [if_neg (by rw [hchar]; simp), hfind]
  simp only [to_size_t, npos, str_erase]
  simp only [List.length_append, List.length_cons] at hsize
  by_cases h0 : front.length = 0
  · have hfront : front = [] := List.length_eq_zero.mp h0
    subst hfront
    have hmin : min ((2 ^ 64 - 1 + 2 + 2 ^ 64 - ([] : Str).length) % 2 ^ 64)
        (([] ++ c :: (arg ++ '"' :: rest)).length - ([] : Str).length) = 1 := by
      simp only [List.length_nil, List.nil_append, List.length_cons]
      omega
    rw [hmin]
    simp
  · by_cases h1 : front.length = 1
    · have hmin : min ((2 ^ 64 - 1 + 2 + 2 ^ 64 - front.length) % 2 ^ 64)
          ((front ++ c :: (arg ++ '"' :: rest)).length - front.length) = 0 := by
        rw [h1]
        simp
      rw [hmin, if_neg h0, if_pos h1]
      simp
    · have hmin : min ((2 ^ 64 - 1 + 2 + 2 ^ 64 - front.length) % 2 ^ 64)
          ((front ++ c :: (arg ++ '"' :: rest)).length - front.length)
          = (c :: (arg ++ '"' :: rest)).length := by
        simp only [List.length_append, List.length_cons]
        omega
      rw [hmin, if_neg h0, if_neg h1]
      simp

theorem command_line_text_no_quote (arguments : List Str)
    (h : ∀ y ∈ arguments, '"' ∉ y) : '"' ∉ command_line_text arguments := by
  induction arguments with
  | nil => simp [command_line_text]
  | cons x rest ih =>
    cases rest with
    | nil => simpa [command_line_text] using h x (List.mem_cons_self _ _)
    | cons y rest =>
      rw [command_line_text_cons _ _ (by simp)]
      intro hmem
      rcases List.mem_append.mp hmem with hm | hm
      · exact h x (List.mem_cons_self _ _) hm
      · rcases List.mem_cons.mp hm with hm | hm
        · cases hm
        · exact ih (fun z hz => h z (List.mem_cons_of_mem _ hz)) hm

theorem blank_split (v : Str) :
    ∃ v1 v2 : Str, v = v1 ++ v2 ∧ ' ' ∉ v1 ∧ (v2 = [] ∨ ∃ rest : Str, v2 = ' ' :: rest) ∧
      v2 = v.dropWhile (fun ch => ch != ' ') ∧
      (v.head? ≠ some '"' → v1.head? ≠ some '"') := by
  induction v with
  | nil => exact ⟨[], [], rfl, by simp, Or.inl rfl, rfl, fun h => h⟩
  | cons h t ih =>
    by_cases hh : h = ' '
    · subst hh
      exact ⟨[], ' ' :: t, rfl, by simp, Or.inr ⟨t, rfl⟩, by simp [List.dropWhile], by simp⟩
    · obtain ⟨v1, v2, hv, hfree, hhead, hdrop, _⟩ := ih
      refine ⟨h :: v1, v2, by rw [hv]; rfl, ?_, hhead, ?_, ?_⟩
      · intro hmem
        rcases List.mem_cons.mp hmem with hm | hm
        · exact hh hm.symm
        · exact hfree hm
      · have hb : (h != ' ') = true := by simpa using hh
        rw [hdrop]
        simp [List.dropWhile, hb]
      · intro hq
        simpa using hq

theorem dropWhile_blank_free (w v : Str) (hw : ' ' ∉ w) :
    (w ++ v).dropWhile (fun ch => ch != ' ') = v.dropWhile (fun ch => ch != ' ') := by
  induction w with
  | nil => rfl
  | cons h t ih =>
    have hh : h ≠ ' ' := fun hh => hw (hh ▸ List.mem_cons_self _ _)
    have ht : ' ' ∉ t := fun hm => hw (List.mem_cons_of_mem _ hm)
    have hb : (h != ' ') = true := by simpa using hh
    simp [List.dropWhile, hb, ih ht]

/-- The erasure at a flag that starts an argument and is not followed by a
quote: the argument is erased up to its first blank, or as a whole when it
holds none; the arguments before and behind it stay. -/
theorem erase_plain_argument (arg : Str) (c : Char) (front : List Str) (x : Str)
    (back : List Str) (hflag : ' ' ∉ c :: arg) (hstart : starts_with x (c :: arg) = true)
    (hplain : (x.drop (1 + arg.length)).head? ≠ some '"')
    (hsize : (command_line_text (front ++ x :: back)).length + 1 < 2 ^ 64) :
    erase_arg (command_line_text (front ++ x :: back)) arg (join_arguments front).length
      = command_line_text (front ++ x.dropWhile (fun ch => ch != ' ') :: back) := by
  have hx : x = (c :: arg) ++ x.drop (c :: arg).length := starts_with_eq_append _ _ hstart
  have hdrop : x.drop (c :: arg).length = x.drop (1 + arg.length) := by
    congr 1; simp only [List.length_cons]; omega
  rw [hdrop] at hx
  generalize x.drop (1 + arg.length) = v at hx hplain
  subst hx
  obtain ⟨v1, v2, hv, hfree, hhead, hv2, hquote⟩ := blank_split v
  rw [dropWhile_blank_free _ _ hflag, ← hv2]
  rw [command_line_text_at, command_line_text_at] at *
  have hline : join_arguments front ++ ((c :: arg) ++ v ++ following_text back)
      = join_arguments front ++ (c :: (arg ++ v1)) ++ (v2 ++ following_text back) := by
    rw [hv]; simp
  have hspace : ' ' ∉ c :: (arg ++ v1) := by
    intro hmem
    rcases List.mem_cons.mp hmem with hm | hm
    · exact hflag (hm ▸ List.mem_cons_self _ _)
    · rcases List.mem_append.mp hm with hm | hm
      · exact hflag (List.mem_cons_of_mem _ hm)
      · exact hfree hm
  rw [hline] at hsize ⊢
  have hafter : v2 ++ following_text back = []
      ∨ ∃ rest : Str, v2 ++ following_text back = ' ' :: rest := by
    rcases hhead with h | ⟨rest, h⟩
    · rw [h]
      exact following_text_head back
    · right
      exact ⟨rest ++ following_text back, by rw [h]; rfl⟩
  rcases hafter with h | ⟨rest, h⟩
  · rw [h] at hsize ⊢
    simp only [List.append_nil] at hsize ⊢
    exact erase_arg_plain_end (join_arguments front) arg v1 c hspace (hquote hplain) (by omega)
  · rw [h] at hsize ⊢
    exact erase_arg_plain (join_arguments front) arg v1 rest c hspace (hquote hplain)
      (by omega)

/-- The erasure at a flag that starts an argument and is followed by a quoted
value: the flag, the value and the character after the closing quote are
erased, which is the blank behind the argument when the value ends it. -/
theorem erase_quoted_argument (arg : Str) (c : Char) (front : List Str) (inner tail : Str)
    (back : List Str) (hinner : '"' ∉ inner)
    (hsize : (command_line_text
      (front ++ (c :: (arg ++ '"' :: (inner ++ '"' :: tail))) :: back)).length + 1 < 2 ^ 64) :
    erase_arg
        (command_line_text (front ++ (c :: (arg ++ '"' :: (inner ++ '"' :: tail))) :: back))
        arg (join_arguments front).length
      = join_arguments front ++ (tail ++ following_text back).drop 1 := by
  rw [command_line_text_at] at *
  have hline : join_arguments front
        ++ ((c :: (arg ++ '"' :: (inner ++ '"' :: tail))) ++ following_text back)
      = join_arguments front ++ (c :: (arg ++ '"' :: (inner ++ ['"'])))
        ++ (tail ++ following_text back) := by
    simp
  rw [hline] at hsize ⊢
  exact erase_arg_quoted_general _ arg inner _ c hinner hsize

theorem kept_after_quote (front : List Str) (tail : Str) (back : List Str) :
    join_arguments front ++ (tail ++ following_text back).drop 1
      = command_line_text
          (if tail.isEmpty && !back.isEmpty then front ++ back
            else front ++ tail.drop 1 :: back) := by
  cases tail with
  | nil =>
    cases back with
    | nil =>
      simp only [List.isEmpty_nil, Bool.not_true, Bool.and_false, Bool.false_eq_true, if_false]
      rw [command_line_text_at]
      simp [following_text]
    | cons y rest =>
      simp only [List.isEmpty_nil, List.isEmpty_cons, Bool.not_false, Bool.and_true, if_true]
      rw [command_line_text_without _ _ (by simp)]
      rfl
  | cons t tail =>
    simp only [List.isEmpty_cons, Bool.false_and, Bool.false_eq_true, if_false]
    rw [command_line_text_at]
    rfl

theorem dropWhile_to_quote (inner tail : Str) (h : '"' ∉ inner) :
    (inner ++ '"' :: tail).dropWhile (fun ch => ch != '"') = '"' :: tail := by
  induction inner with
  | nil => simp [List.dropWhile]
  | cons c inner ih =>
    have hc : c ≠ '"' := fun hc => h (hc ▸ List.mem_cons_self _ _)
    have hi : '"' ∉ inner := fun hm => h (List.mem_cons_of_mem _ hm)
    have hb : (c != '"') = true := by simpa using hc
    simp [List.dropWhile, hb, ih hi]

theorem dropWhile_no_quote (rest : Str) (h : '"' ∉ rest) :
    rest.dropWhile (fun ch => ch != '"') = [] := by
  induction rest with
  | nil => rfl
  | cons c rest ih =>
    have hc : c ≠ '"' := fun hc => h (hc ▸ List.mem_cons_self _ _)
    have hi : '"' ∉ rest := fun hm => h (List.mem_cons_of_mem _ hm)
    have hb : (c != '"') = true := by simpa using hc
    simp [List.dropWhile, hb, ih hi]

theorem first_quote (rest : Str) (h : '"' ∈ rest) :
    ∃ inner tail : Str, rest = inner ++ '"' :: tail ∧ '"' ∉ inner := by
  induction rest with
  | nil => cases h
  | cons r rest ih =>
    by_cases hr : r = '"'
    · exact ⟨[], rest, by rw [hr]; rfl, by simp⟩
    · rcases List.mem_cons.mp h with hm | hm
      · exact absurd hm.symm hr
      · obtain ⟨inner, tail, hrest, hfree⟩ := ih hm
        refine ⟨r :: inner, tail, by rw [hrest]; rfl, ?_⟩
        intro hmem
        rcases List.mem_cons.mp hmem with hq | hq
        · exact hr hq.symm
        · exact hfree hq

theorem takeWhile_blank_free (w v : Str) (hw : ' ' ∉ w) :
    (w ++ v).takeWhile (fun ch => ch != ' ') = w ++ v.takeWhile (fun ch => ch != ' ') := by
  induction w with
  | nil => rfl
  | cons h t ih =>
    have hh : h ≠ ' ' := fun hh => hw (hh ▸ List.mem_cons_self _ _)
    have ht : ' ' ∉ t := fun hm => hw (List.mem_cons_of_mem _ hm)
    have hb : (h != ' ') = true := by simpa using hh
    simp [List.takeWhile, hb, ih ht]

theorem flag_no_blank (arg : Str) (c : Char) (harg : ' ' ∉ arg) (hc : c = '-' ∨ c = '/') :
    ' ' ∉ c :: arg := by
  intro h
  rcases List.mem_cons.mp h with h | h
  · rcases hc with rfl | rfl <;> cases h
  · exact harg h

/-- When the search of `remove_arg` stops at the start of the argument `x`, the
erasure is made at the offset of `x`. -/
theorem remove_arg_found (arg : Str) (front : List Str) (x : Str) (back : List Str)
    (harg : ' ' ∉ arg) (hfound : found_at_argument arg front x back = true) :
    ∃ c : Char, (c = '-' ∨ c = '/') ∧ starts_with x (c :: arg) = true ∧
      remove_arg (command_line_text (front ++ x :: back)) arg
        = erase_arg (command_line_text (front ++ x :: back)) arg
            (join_arguments front).length := by
  have hdash := flag_no_blank arg '-' harg (Or.inl rfl)
  have hslash := flag_no_blank arg '/' harg (Or.inr rfl)
  simp only [found_at_argument, Bool.or_eq_true, Bool.and_eq_true, List.all_eq_true,
    Bool.not_eq_true'] at hfound
  rcases hfound with ⟨hstart, hfront⟩ | ⟨⟨hstart, hall⟩, hfront⟩
  · refine ⟨'-', Or.inl rfl, hstart, ?_⟩
    have hfind : str_find (command_line_text (front ++ x :: back)) ('-' :: arg) 0
        = some (join_arguments front).length := by
      rw [str_find_zero, command_line_text_at,
        find_at_join_first _ front x _ 0 hdash (by simp)
          (fun y hy => find_at_none_of_not_contains _ _ (hfront y hy)) hstart]
      simp
    unfold remove_arg
    rw [hfind]
  · refine ⟨'/', Or.inr rfl, hstart, ?_⟩
    have hfind1 : str_find (command_line_text (front ++ x :: back)) ('-' :: arg) 0 = none := by
      rw [str_find_zero]
      exact find_at_text_none _ _ 0 hdash (by simp)
        (fun y hy => find_at_none_of_not_contains _ _ (hall y hy))
    have hfind2 : str_find (command_line_text (front ++ x :: back)) ('/' :: arg) 0
        = some (join_arguments front).length := by
      rw [str_find_zero, command_line_text_at,
        find_at_join_first _ front x _ 0 hslash (by simp)
          (fun y hy => find_at_none_of_not_contains _ _ (hfront y hy)) hstart]
      simp
    unfold remove_arg
    rw [hfind1, hfind2]

theorem remove_arg_not_mentioned (arg : Str) (harg : ' ' ∉ arg) (arguments : List Str)
    (hnone : ∀ y ∈ arguments, mentions arg y = false) :
    remove_arg (command_line_text arguments) arg = command_line_text arguments := by
  unfold remove_arg
  rw [str_find_zero, str_find_zero,
    find_at_text_none _ arguments 0 (flag_no_blank arg '-' harg (Or.inl rfl)) (by simp)
      (fun y hy => (not_mentions arg y (hnone y hy)).1),
    find_at_text_none _ arguments 0 (flag_no_blank arg '/' harg (Or.inr rfl)) (by simp)
      (fun y hy => (not_mentions arg y (hnone y hy)).2)]

/-! ## What remove_arg leaves alone (C25) -/

theorem find_at_some_split (pat : Str) :
    ∀ (s : Str) (i j : Nat), find_at pat s i = some j →
      ∃ before rest : Str, s = before ++ (pat ++ rest) ∧ i + before.length = j := by
  intro s
  induction s with
  | nil =>
    intro i j h
    cases pat with
    | nil =>
      simp only [find_at, List.isEmpty_nil, if_true, Option.some.injEq] at h
      exact ⟨[], [], rfl, by simpa using h⟩
    | cons p pat => simp [find_at] at h
  | cons c s ih =>
    intro i j h
    by_cases hs : starts_with (c :: s) pat = true
    · simp only [find_at, hs, if_true, Option.some.injEq] at h
      exact ⟨[], (c :: s).drop pat.length, by simpa using starts_with_eq_append pat (c :: s) hs,
        by simpa using h⟩
    · simp only [find_at, hs, Bool.false_eq_true, if_false] at h
      obtain ⟨before, rest, hsplit, hlen⟩ := ih (i + 1) j h
      refine ⟨c :: before, rest, by rw [hsplit]; rfl, ?_⟩
      simp only [List.length_cons]
      omega

/-- The erasure at an occurrence of the flag, told without `find` and `erase`. -/
theorem erase_arg_kept (arg before rest : Str) (c : Char) (hflag : ' ' ∉ c :: arg)
    (hsize : (before ++ (c :: arg) ++ rest).length + 1 < 2 ^ 64) :
    erase_arg (before ++ (c :: arg) ++ rest) arg before.length
      = before ++ kept_from_flag before.length arg ((c :: arg) ++ rest) := by
  have hdrop1 : ((c :: arg) ++ rest).drop (1 + arg.length) = rest := by
    have h : 1 + arg.length = (c :: arg).length := by simp only [List.length_cons]; omega
    rw [h, List.drop_left]
  have hdrop2 : ((c :: arg) ++ rest).drop (2 + arg.length) = rest.drop 1 := by
    have h : ((c :: arg) ++ rest).drop (2 + arg.length)
        = (((c :: arg) ++ rest).drop (1 + arg.length)).drop 1 := by
      rw [List.drop_drop]
      congr 1
      omega
    rw [h, hdrop1]
  unfold kept_from_flag
  rw [hdrop1, hdrop2]
  by_cases hq : rest.head? = some '"'
  · rw [if_pos hq]
    cases rest with
    | nil => cases hq
    | cons q r =>
      simp only [List.head?_cons, Option.some.injEq] at hq
      subst hq
      simp only [List.drop_succ_cons, List.drop_zero]
      by_cases hmem : '"' ∈ r
      · obtain ⟨inner, tail, hsplit, hinner⟩ := first_quote r hmem
        have hcontains : r.contains '"' = true := by simpa using hmem
        rw [if_pos hcontains, hsplit, dropWhile_to_quote inner tail hinner]
        have hline : before ++ (c :: arg) ++ '"' :: (inner ++ '"' :: tail)
            = before ++ (c :: (arg ++ '"' :: (inner ++ ['"']))) ++ tail := by simp
        rw [hsplit, hline] at hsize
        rw [hline, erase_arg_quoted_general before arg inner tail c hinner hsize]
        rfl
      · have hcontains : r.contains '"' = false := by simpa using hmem
        have hline : before ++ (c :: arg) ++ '"' :: r = before ++ c :: (arg ++ '"' :: r) := by
          simp
        rw [hline] at hsize ⊢
        rw [erase_arg_unclosed before arg r c hmem (by omega)]
        simp only [hcontains, Bool.false_eq_true, if_false]
        by_cases h0 : before.length = 0
        · rw [if_pos h0, if_pos h0, List.length_eq_zero.mp h0]
          rfl
        · rw [if_neg h0, if_neg h0]
          by_cases h1 : before.length = 1
          · rw [if_pos h1, if_pos h1]
            simp
          · rw [if_neg h1, if_neg h1]
            simp
  · rw [if_neg hq, dropWhile_blank_free _ _ hflag]
    obtain ⟨v1, v2, hv, hfree, hhead, hv2, hquote⟩ := blank_split rest
    rw [← hv2]
    have hspace : ' ' ∉ c :: (arg ++ v1) := by
      intro hmem
      rcases List.mem_cons.mp hmem with hm | hm
      · exact hflag (hm ▸ List.mem_cons_self _ _)
      · rcases List.mem_append.mp hm with hm | hm
        · exact hflag (List.mem_cons_of_mem _ hm)
        · exact hfree hm
    have hline : before ++ (c :: arg) ++ rest = before ++ (c :: (arg ++ v1)) ++ v2 := by
      rw [hv]; simp
    rw [hline] at hsize ⊢
    rcases hhead with h | ⟨r, h⟩
    · rw [h] at hsize ⊢
      simp only [List.append_nil] at hsize ⊢
      exact erase_arg_plain_end before arg v1 c hspace (hquote hq) (by omega)
    · rw [h] at hsize ⊢
      exact erase_arg_plain before arg v1 r c hspace (hquote hq) (by omega)

/-- The function `remove_arg` on any line: the line it leaves is
`line_after_removal`. -/
theorem remove_arg_line (cmdline arg : Str) (harg : ' ' ∉ arg)
    (hsize : cmdline.length + 1 < 2 ^ 64) :
    remove_arg cmdline arg = line_after_removal cmdline arg := by
  have hat : ∀ (c : Char) (offset : Nat), (c = '-' ∨ c = '/') →
      str_find cmdline (c :: arg) 0 = some offset →
      erase_arg cmdline arg offset
        = cmdline.take offset ++ kept_from_flag offset arg (cmdline.drop offset) := by
    intro c offset hc hfind
    rw [str_find_zero] at hfind
    obtain ⟨before, rest, hsplit, hlen⟩ := find_at_some_split (c :: arg) cmdline 0 offset hfind
    have hoff : offset = before.length := by omega
    have hline : cmdline = before ++ (c :: arg) ++ rest := by
      rw [hsplit]; simp
    rw [hoff]
    conv_lhs => rw [hline]
    have htake : cmdline.take before.length = before := by
      rw [hsplit, List.take_left]
    have hdropk : cmdline.drop before.length = (c :: arg) ++ rest := by
      rw [hsplit, List.drop_left]
    rw [htake, hdropk]
    exact erase_arg_kept arg before rest c (flag_no_blank arg c harg hc) (by rw [← hline]; exact hsize)
  unfold remove_arg line_after_removal
  cases h1 : str_find cmdline ('-' :: arg) 0 with
  | some offset => exact hat '-' offset (Or.inl rfl) h1
  | none =>
    cases h2 : str_find cmdline ('/' :: arg) 0 with
    | some offset => exact hat '/' offset (Or.inr rfl) h2
    | none => rfl

theorem following_text_no_quote (back : List Str)
    (h : ∀ y ∈ back, '"' ∉ y) : '"' ∉ following_text back := by
  cases back with
  | nil => simp [following_text]
  | cons y rest =>
    have := command_line_text_no_quote (y :: rest) h
    simp only [following_text, List.isEmpty_cons, Bool.false_eq_true, if_false]
    intro hmem
    rcases List.mem_cons.mp hmem with hm | hm
    · cases hm
    · exact this hm

/-- C25 as the code has it.  On every line `remove_arg` leaves
`line_after_removal`: the line is cut at the first occurrence of the `-`
spelling of the flag, or, when there is none, of the `/` spelling, wherever in
the line that occurrence is, and what is erased behind it is one stretch, to
the next blank or through the next quote but one.  For a command line of
arguments separated by blanks this gives C25 in these cases.  When no argument
contains the flag the line stays as it is.  When the arguments are `front`,
then `x`, then `back`, the search stops at the start of `x` (no argument before
it contains the spelling found, and none contains the `-` spelling when the `/`
spelling is found), and the erasure stays within `x` and the blank behind it
(as it does when no quote follows the flag and when the quote that follows it
is closed within `x`), then the line `remove_arg` leaves is the line of
`arguments_after_removal`: the arguments before and behind `x` as they are, in
their order, around what is kept of `x`; or, when the flag and its quoted value
are all of `x` and arguments follow, without `x` and the blank behind it.  What
is kept of `x` is a trailing part of `x`, and the part erased starts with the
flag, unless a quote behind the flag is left open. -/
theorem remove_arg_frame (arg : Str) (harg : ' ' ∉ arg) :
    (∀ cmdline : Str, cmdline.length + 1 < 2 ^ 64 →
        remove_arg cmdline arg = line_after_removal cmdline arg) ∧
      (∀ arguments : List Str, (∀ y ∈ arguments, mentions arg y = false) →
        remove_arg (command_line_text arguments) arg = command_line_text arguments) ∧
      ∀ (front : List Str) (x : Str) (back : List Str),
        found_at_argument arg front x back = true →
        erasure_within arg front x back = true →
        (command_line_text (front ++ x :: back)).length + 1 < 2 ^ 64 →
        remove_arg (command_line_text (front ++ x :: back)) arg
            = command_line_text (arguments_after_removal arg front x back) ∧
          (arguments_after_removal arg front x back
              = front ++ kept_of_argument arg front x :: back ∨
            (kept_of_argument arg front x = [] ∧ back ≠ [] ∧
              arguments_after_removal arg front x back = front ++ back)) ∧
          ∃ erased : Str, x = erased ++ kept_of_argument arg front x ∧
            (quote_closed_within arg x = true →
              starts_with erased ('-' :: arg) = true
                ∨ starts_with erased ('/' :: arg) = true) := by
  refine ⟨fun cmdline hsize => remove_arg_line cmdline arg harg hsize,
    fun arguments hnone => remove_arg_not_mentioned arg harg arguments hnone, ?_⟩
  intro front x back hfound hwithin hsize
  obtain ⟨c, hc, hstart, hremove⟩ := remove_arg_found arg front x back harg hfound
  have hflag := flag_no_blank arg c harg hc
  have hx : x = (c :: arg) ++ x.drop (c :: arg).length := starts_with_eq_append _ _ hstart
  have hdrop : x.drop (c :: arg).length = x.drop (1 + arg.length) := by
    congr 1; simp only [List.length_cons]; omega
  rw [hdrop] at hx
  have hspelling : ∀ erased : Str, starts_with erased (c :: arg) = true →
      starts_with erased ('-' :: arg) = true ∨ starts_with erased ('/' :: arg) = true := by
    intro erased h
    rcases hc with rfl | rfl
    · exact Or.inl h
    · exact Or.inr h
  rw [hremove]
  by_cases hq : (x.drop (1 + arg.length)).head? = some '"'
  · have hrest : x.drop (1 + arg.length) = '"' :: x.drop (2 + arg.length) := by
      have h2 : x.drop (2 + arg.length) = (x.drop (1 + arg.length)).drop 1 := by
        rw [List.drop_drop]; congr 1; omega
      rw [h2]
      cases hv : x.drop (1 + arg.length) with
      | nil => rw [hv] at hq; cases hq
      | cons h t =>
        rw [hv] at hq
        simp only [List.head?_cons, Option.some.injEq] at hq
        rw [hq]; rfl
    have hx3 : x = c :: (arg ++ '"' :: x.drop (2 + arg.length)) := by
      conv_lhs => rw [hx, hrest]
      rfl
    by_cases hmem : '"' ∈ x.drop (2 + arg.length)
    · obtain ⟨inner, tail, hsplit, hinner⟩ := first_quote _ hmem
      have hx2 : x = c :: (arg ++ '"' :: (inner ++ '"' :: tail)) := by
        rw [← hsplit]; exact hx3
      have hkept : kept_of_argument arg front x = tail.drop 1 := by
        have hcontains : (x.drop (2 + arg.length)).contains '"' = true := by simpa using hmem
        simp only [kept_of_argument, hq, if_true, hcontains]
        rw [hsplit, dropWhile_to_quote inner tail hinner]
        rfl
      have hends : ends_with_quoted_value arg x = tail.isEmpty := by
        unfold ends_with_quoted_value
        rw [decide_eq_true hq, Bool.true_and, hsplit, dropWhile_to_quote inner tail hinner]
        cases tail <;> rfl
      have hafter : arguments_after_removal arg front x back
          = if tail.isEmpty && !back.isEmpty then front ++ back
            else front ++ tail.drop 1 :: back := by
        simp only [arguments_after_removal, hends, hkept]
      refine ⟨?_, ?_, ?_⟩
      · rw [hafter, ← kept_after_quote front tail back]
        have hsize2 := hsize
        rw [hx2] at hsize2
        conv_lhs => rw [hx2]
        exact erase_quoted_argument arg c front inner tail back hinner hsize2
      · rw [hafter, hkept]
        by_cases hcond : (tail.isEmpty && !back.isEmpty) = true
        · right
          simp only [Bool.and_eq_true, Bool.not_eq_true', List.isEmpty_iff] at hcond
          refine ⟨by rw [hcond.1]; rfl, ?_, by simp [hcond.1, hcond.2]⟩
          intro hb
          rw [hb] at hcond
          simp at hcond
        · left
          rw [if_neg hcond]
      · refine ⟨c :: (arg ++ '"' :: (inner ++ '"' :: tail.take 1)), ?_, ?_⟩
        · rw [hkept]
          have ht : tail = tail.take 1 ++ tail.drop 1 := (List.take_append_drop 1 tail).symm
          conv_lhs => rw [hx2, ht]
          simp
        · exact fun _ => hspelling _ (starts_with_append (c :: arg) _)
    · have hopen : quote_closed_within arg x = false := by
        simp [quote_closed_within, hq, hmem]
      simp only [erasure_within, hopen, Bool.false_or, Bool.and_eq_true, List.all_eq_true,
        Bool.or_eq_true, Bool.not_eq_true', decide_eq_true_eq] at hwithin
      obtain ⟨hback, hplace⟩ := hwithin
      have hquotes : '"' ∉ x.drop (2 + arg.length) ++ following_text back := by
        intro hm
        rcases List.mem_append.mp hm with hm | hm
        · exact hmem hm
        · exact following_text_no_quote back
            (fun y hy => by simpa using hback y hy) hm
      have hline : command_line_text (front ++ x :: back)
          = join_arguments front
            ++ c :: (arg ++ '"' :: (x.drop (2 + arg.length) ++ following_text back)) := by
        rw [command_line_text_at]
        conv_lhs => rw [hx3]
        simp
      rw [hline] at hsize
      have herase := erase_arg_unclosed (join_arguments front) arg
        (x.drop (2 + arg.length) ++ following_text back) c hquotes (by omega)
      rw [← hline] at herase
      have hdrop1 : x.drop 1 = arg ++ '"' :: x.drop (2 + arg.length) := by
        conv_lhs => rw [hx3]
        rfl
      have hcontains : (x.drop (2 + arg.length)).contains '"' = false := by simpa using hmem
      have hends : ends_with_quoted_value arg x = false := by
        unfold ends_with_quoted_value
        rw [decide_eq_true hq, Bool.true_and, dropWhile_no_quote _ hmem]
        rfl
      have hafter : arguments_after_removal arg front x back
          = front ++ kept_of_argument arg front x :: back := by
        simp [arguments_after_removal, hends]
      rw [herase, hafter]
      by_cases h0 : (join_arguments front).length = 0
      · have hkept : kept_of_argument arg front x = x.drop 1 := by
          simp only [kept_of_argument, hq, if_true, hcontains, Bool.false_eq_true, if_false, h0]
        rw [if_pos h0, hkept]
        refine ⟨?_, Or.inl rfl, [c], ?_, ?_⟩
        · rw [command_line_text_at, List.length_eq_zero.mp h0, hdrop1]
          simp
        · rw [hdrop1]
          exact hx3
        · intro h; rw [hopen] at h; cases h
      · by_cases h1 : (join_arguments front).length = 1
        · have hkept : kept_of_argument arg front x = x := by
            simp only [kept_of_argument, hq, if_true, hcontains, Bool.false_eq_true, if_false,
              h1]
            rfl
          rw [if_neg h0, if_pos h1, hkept]
          refine ⟨rfl, Or.inl rfl, [], rfl, ?_⟩
          intro h; rw [hopen] at h; cases h
        · have hkept : kept_of_argument arg front x = [] := by
            simp only [kept_of_argument, hq, if_true, hcontains, Bool.false_eq_true, if_false,
              h0, h1]
          have hlast : back = [] := by
            rcases hplace with h | h
            · exact List.isEmpty_iff.mp h
            · omega
          subst hlast
          rw [if_neg h0, if_neg h1, hkept]
          refine ⟨?_, Or.inl rfl, x, by simp, ?_⟩
          · rw [command_line_text_at]
            simp [following_text]
          · intro h; rw [hopen] at h; cases h
  · have hkept : kept_of_argument arg front x = x.dropWhile (fun ch => ch != ' ') := by
      simp only [kept_of_argument, hq, if_false]
    have hends : ends_with_quoted_value arg x = false := by
      unfold ends_with_quoted_value
      rw [decide_eq_false hq, Bool.false_and]
    have hafter : arguments_after_removal arg front x back
        = front ++ x.dropWhile (fun ch => ch != ' ') :: back := by
      simp [arguments_after_removal, hends, hkept]
    rw [hafter, hkept]
    refine ⟨erase_plain_argument arg c front x back hflag hstart hq hsize, Or.inl rfl,
      x.takeWhile (fun ch => ch != ' '), (List.takeWhile_append_dropWhile _ _).symm, ?_⟩
    intro _
    apply hspelling
    rw [hx, takeWhile_blank_free _ _ hflag]
    exact starts_with_append (c :: arg) _

set_option maxRecDepth 1000000 in
/-- The output path flag of `quoted_arguments`, whose quoted value holds a
blank, on a line that ends without a blank: it is found at the start of its
argument, and that argument goes with the blank behind it.  The line with the
include path before the flag is described by `line_after_removal` as every
line is. -/
theorem remove_arg_frame_witness :
    ' ' ∉ "Fo".toList ∧
    (found_at_argument "Fo".toList quoted_front "/Fo\"out dir/x.obj\"".toList quoted_back = true ∧
      erasure_within "Fo".toList quoted_front "/Fo\"out dir/x.obj\"".toList quoted_back = true ∧
      arguments_after_removal "Fo".toList quoted_front "/Fo\"out dir/x.obj\"".toList quoted_back
        = quoted_front ++ quoted_back ∧
      kept_of_argument "Fo".toList quoted_front "/Fo\"out dir/x.obj\"".toList = [] ∧
      line_after_removal include_path_command_line "Fo".toList
        = "cl.exe /I\"C: /c /Fo\"out.obj\" ".toList) ∧
    remove_arg include_path_command_line "Fo".toList
      = line_after_removal include_path_command_line "Fo".toList ∧
    (remove_arg
          (command_line_text (quoted_front ++ "/Fo\"out dir/x.obj\"".toList :: quoted_back))
          "Fo".toList
        = command_line_text
            (arguments_after_removal "Fo".toList quoted_front "/Fo\"out dir/x.obj\"".toList
              quoted_back) ∧
      (arguments_after_removal "Fo".toList quoted_front "/Fo\"out dir/x.obj\"".toList quoted_back
          = quoted_front
            ++ kept_of_argument "Fo".toList quoted_front "/Fo\"out dir/x.obj\"".toList
              :: quoted_back ∨
        (kept_of_argument "Fo".toList quoted_front "/Fo\"out dir/x.obj\"".toList = [] ∧
          quoted_back ≠ [] ∧
          arguments_after_removal "Fo".toList quoted_front "/Fo\"out dir/x.obj\"".toList
            quoted_back = quoted_front ++ quoted_back)) ∧
      ∃ erased : Str,
        "/Fo\"out dir/x.obj\"".toList
          = erased ++ kept_of_argument "Fo".toList quoted_front "/Fo\"out dir/x.obj\"".toList ∧
        (quote_closed_within "Fo".toList "/Fo\"out dir/x.obj\"".toList = true →
          starts_with erased ('-' :: "Fo".toList) = true
            ∨ starts_with erased ('/' :: "Fo".toList) = true)) :=
  ⟨by decide, by decide,
    (remove_arg_frame "Fo".toList (by decide)).1 include_path_command_line (by decide),
    (remove_arg_frame "Fo".toList (by decide)).2.2 quoted_front "/Fo\"out dir/x.obj\"".toList
      quoted_back (by decide) (by decide) (by decide)⟩

set_option maxRecDepth 1000000 in
/-- C25 fails as stated.  In `cl.exe /I"C:/Foo/inc" /c /Fo"out.obj" ` the first
`/Fo` is inside the quoted include path: `remove_arg("Fo")` erases from there
to the next blank, which cuts the include argument down to `/I"C:`, and stops;
the output flag `/Fo"out.obj"` is still on the line.  In
`cl.exe /Fo"out.obj" /I"C:/a-Fo/inc" /c` the `-` spelling, which is searched
first, is found inside the include path behind the flag, and again the include
argument is cut and the flag stays.  In `cl.exe /Fo"out /I"inc" /c` the quote
behind the flag is closed only in the next argument, and the erasure runs
into that argument; in `cl.exe /Fo"out /c` it is not closed at all, and the
erasure takes the rest of the line. -/
theorem include_path_is_cut :
    remove_arg include_path_command_line "Fo".toList
        = "cl.exe /I\"C: /c /Fo\"out.obj\" ".toList ∧
      contains_str (remove_arg include_path_command_line "Fo".toList)
        "/I\"C:/Foo/inc\"".toList = false ∧
      contains_str (remove_arg include_path_command_line "Fo".toList)
        "/Fo\"out.obj\"".toList = true ∧
      remove_arg "cl.exe /Fo\"out.obj\" /I\"C:/a-Fo/inc\" /c".toList "Fo".toList
        = "cl.exe /Fo\"out.obj\" /I\"C:/a /c".toList ∧
      remove_arg "cl.exe /Fo\"out /I\"inc\" /c".toList "Fo".toList
        = "cl.exe nc\" /c".toList ∧
      remove_arg "cl.exe /Fo\"out /c".toList "Fo".toList = "cl.exe ".toList := by
  decide

/-! ## Removing the flags (C6) -/

theorem not_mentions_contains (arg argument : Str) (h : mentions arg argument = false) :
    contains_str argument ('-' :: arg) = false ∧ contains_str argument ('/' :: arg) = false := by
  unfold mentions at h
  simpa only [Bool.or_eq_false_iff] using h

/-- One call of `remove_arg` on a line that carries the flag in at most one
argument, which is the flag itself: the result is the line of the arguments
with that argument taken out or emptied, and no argument carries the flag. -/
theorem remove_arg_carried_once (arg : Str) (harg : ' ' ∉ arg) (arguments : List Str)
    (hok : carried_once arg arguments = true)
    (hsize : (command_line_text arguments).length + 1 < 2 ^ 64) :
    ∃ remaining : List Str,
      remove_arg (command_line_text arguments) arg = command_line_text remaining ∧
      (remaining = arguments ∨ ∃ front x back, arguments = front ++ x :: back ∧
        mentions arg x = true ∧ (remaining = front ++ back ∨ remaining = front ++ [] :: back)) ∧
      ∀ x ∈ remaining, mentions arg x = false := by
  unfold carried_once at hok
  simp only [Bool.and_eq_true, List.all_eq_true, Bool.or_eq_true, Bool.not_eq_true',
    decide_eq_true_eq] at hok
  obtain ⟨hflag, hcount⟩ := hok
  rcases filter_at_most_one (mentions arg) arguments hcount with hnone |
    ⟨front, x, back, hsplit, hx, hfront, hback⟩
  · exact ⟨arguments, remove_arg_not_mentioned arg harg arguments hnone, Or.inl rfl, hnone⟩
  · subst hsplit
    have hxmem : x ∈ front ++ x :: back := by simp
    have hxflag : flag_argument arg x = true := by
      rcases hflag x hxmem with h | h
      · rw [hx] at h; cases h
      · exact h
    unfold flag_argument at hxflag
    simp only [Bool.and_eq_true, Bool.or_eq_true, Bool.not_eq_true'] at hxflag
    obtain ⟨hstart, hclosed⟩ := hxflag
    have hfound : found_at_argument arg front x back = true := by
      simp only [found_at_argument, Bool.or_eq_true, Bool.and_eq_true, List.all_eq_true,
        Bool.not_eq_true']
      rcases hstart with hstart | ⟨hstart, hnodash⟩
      · exact Or.inl ⟨hstart, fun y hy => (not_mentions_contains arg y (hfront y hy)).1⟩
      · refine Or.inr ⟨⟨hstart, ?_⟩, fun y hy => (not_mentions_contains arg y (hfront y hy)).2⟩
        intro y hy
        rcases List.mem_append.mp hy with hy | hy
        · exact (not_mentions_contains arg y (hfront y hy)).1
        · rcases List.mem_cons.mp hy with rfl | hy
          · exact hnodash
          · exact (not_mentions_contains arg y (hback y hy)).1
    obtain ⟨c, hc, hstart2, hremove⟩ := remove_arg_found arg front x back harg hfound
    have hcflag := flag_no_blank arg c harg hc
    have hfree_back : ∀ y ∈ front ++ back, mentions arg y = false := by
      intro y hy
      rcases List.mem_append.mp hy with hy | hy
      · exact hfront y hy
      · exact hback y hy
    have hfree_empty : ∀ y ∈ front ++ [] :: back, mentions arg y = false := by
      intro y hy
      rcases List.mem_append.mp hy with hy | hy
      · exact hfront y hy
      · rcases List.mem_cons.mp hy with rfl | hy
        · exact mentions_nil arg
        · exact hback y hy
    have hxeq : x = (c :: arg) ++ x.drop (c :: arg).length := starts_with_eq_append _ _ hstart2
    have hdrop : x.drop (c :: arg).length = x.drop (1 + arg.length) := by
      congr 1; simp only [List.length_cons]; omega
    rw [hdrop] at hxeq
    rw [hremove]
    unfold closed_value at hclosed
    by_cases hq : (x.drop (1 + arg.length)).head? = some '"'
    · rw [if_pos hq] at hclosed
      obtain ⟨inner, hinner, hfree⟩ := closes_quote_spec _ hclosed
      have hrest : x.drop (1 + arg.length) = '"' :: (x.drop (1 + arg.length)).drop 1 := by
        cases hv : x.drop (1 + arg.length) with
        | nil => rw [hv] at hq; cases hq
        | cons h t =>
          rw [hv] at hq
          simp only [List.head?_cons, Option.some.injEq] at hq
          rw [hq]; rfl
      have hx2 : x = c :: (arg ++ '"' :: (inner ++ '"' :: [])) := by
        rw [hxeq, hrest, hinner]; simp
      rw [hx2] at hsize ⊢
      rw [erase_quoted_argument arg c front inner [] back hfree hsize,
        kept_after_quote front [] back]
      by_cases hcond : (([] : Str).isEmpty && !back.isEmpty) = true
      · rw [if_pos hcond]
        exact ⟨front ++ back, rfl,
          Or.inr ⟨front, _, back, rfl, by rw [← hx2]; exact hx, Or.inl rfl⟩, hfree_back⟩
      · rw [if_neg hcond]
        exact ⟨front ++ [] :: back, rfl,
          Or.inr ⟨front, _, back, rfl, by rw [← hx2]; exact hx, Or.inr rfl⟩, hfree_empty⟩
    · rw [if_neg hq] at hclosed
      have hvalue : ' ' ∉ x.drop (1 + arg.length) := by
        simpa using hclosed
      have hxblank : ' ' ∉ x := by
        rw [hxeq]
        intro hmem
        rcases List.mem_append.mp hmem with hm | hm
        · exact hcflag hm
        · exact hvalue hm
      have hkept : x.dropWhile (fun ch => ch != ' ') = [] := by
        have := dropWhile_blank_free x [] hxblank
        simpa using this
      rw [erase_plain_argument arg c front x back hcflag hstart2 hq hsize, hkept]
      exact ⟨front ++ [] :: back, rfl, Or.inr ⟨front, x, back, rfl, hx, Or.inr rfl⟩,
        hfree_empty⟩

/-- What one removal keeps of the hypotheses on the line, and of the arguments
that do not carry the flag. -/
theorem remove_arg_carried_once_keeps (arg : Str) (harg : ' ' ∉ arg) (arguments : List Str)
    (hok : carried_once arg arguments = true)
    (hsize : (command_line_text arguments).length + 1 < 2 ^ 64) :
    ∃ remaining : List Str,
      remove_arg (command_line_text arguments) arg = command_line_text remaining ∧
      (∀ x ∈ remaining, x ∈ arguments ∨ x = []) ∧
      (∀ x ∈ remaining, mentions arg x = false) ∧
      (∀ other : Str, carried_once other arguments = true → carried_once other remaining = true) ∧
      (command_line_text remaining).length + 1 < 2 ^ 64 ∧
      (∀ kept : List Str, (∀ y ∈ kept, mentions arg y = false) → kept.Sublist arguments →
        kept.Sublist remaining) := by
  obtain ⟨remaining, hremove, hshape, hfree⟩ :=
    remove_arg_carried_once arg harg arguments hok hsize
  have hlen : (command_line_text remaining).length + 1 < 2 ^ 64 := by
    have := remove_arg_length_le (command_line_text arguments) arg
    rw [hremove] at this
    omega
  have hsub : ∀ (front back : List Str) (x : Str) (kept : List Str),
      mentions arg x = true → (∀ y ∈ kept, mentions arg y = false) →
      kept.Sublist (front ++ x :: back) → kept.Sublist (front ++ back) := by
    intro front back x kept hx hkept hsublist
    have h1 : kept.filter (fun y => !mentions arg y) = kept :=
      List.filter_eq_self.mpr (fun y hy => by simp [hkept y hy])
    have h2 := hsublist.filter (fun y => !mentions arg y)
    rw [h1] at h2
    have h3 : (front ++ x :: back).filter (fun y => !mentions arg y)
        = front.filter (fun y => !mentions arg y) ++ back.filter (fun y => !mentions arg y) := by
      simp [List.filter_append, List.filter_cons, hx]
    rw [h3] at h2
    exact h2.trans (List.Sublist.append (List.filter_sublist _) (List.filter_sublist _))
  refine ⟨remaining, hremove, ?_, hfree, ?_, hlen, ?_⟩
  · rcases hshape with rfl | ⟨front, x, back, rfl, _, rfl | rfl⟩
    · exact fun y hy => Or.inl hy
    · intro y hy
      left
      rcases List.mem_append.mp hy with h | h
      · exact List.mem_append_left _ h
      · exact List.mem_append_right _ (List.mem_cons_of_mem _ h)
    · intro y hy
      rcases List.mem_append.mp hy with h | h
      · exact Or.inl (List.mem_append_left _ h)
      · rcases List.mem_cons.mp h with h | h
        · exact Or.inr h
        · exact Or.inl (List.mem_append_right _ (List.mem_cons_of_mem _ h))
  · intro other hother
    rcases hshape with rfl | ⟨front, x, back, rfl, _, rfl | rfl⟩
    · exact hother
    · unfold carried_once at hother ⊢
      simp only [Bool.and_eq_true, List.all_eq_true, decide_eq_true_eq, List.filter_append,
        List.length_append, List.mem_append, List.mem_cons, List.filter_cons] at hother ⊢
      obtain ⟨hall, hcount⟩ := hother
      refine ⟨fun y hy => hall y (hy.elim Or.inl (fun h => Or.inr (Or.inr h))), ?_⟩
      split at hcount <;> (try simp only [List.length_cons] at hcount) <;> omega
    · unfold carried_once at hother ⊢
      simp only [Bool.and_eq_true, List.all_eq_true, decide_eq_true_eq, List.filter_append,
        List.length_append, List.mem_append, List.mem_cons, List.filter_cons,
        mentions_nil, Bool.false_eq_true, if_false] at hother ⊢
      obtain ⟨hall, hcount⟩ := hother
      refine ⟨?_, ?_⟩
      · intro y hy
        rcases hy with h | h | h
        · exact hall y (Or.inl h)
        · subst h; simp [mentions_nil]
        · exact hall y (Or.inr (Or.inr h))
      · split at hcount <;> (try simp only [List.length_cons] at hcount) <;> omega
  · intro kept hkept hsublist
    rcases hshape with rfl | ⟨front, x, back, rfl, hx, rfl | rfl⟩
    · exact hsublist
    · exact hsub front back x kept hx hkept hsublist
    · exact (hsub front back x kept hx hkept hsublist).trans
        (List.Sublist.append (List.Sublist.refl front) (List.sublist_cons_self [] back))

/-- The removals of a list of flags, one after the other, on a line that
carries each of them at most once, as an argument of its own: the result is a
line of arguments none of which carries any of the flags, and the arguments
that carried none of them are all kept, in their order. -/
theorem remove_flags_carried_once (flags : List Str) (hflags : ∀ arg ∈ flags, ' ' ∉ arg) :
    ∀ arguments : List Str,
      (∀ arg ∈ flags, carried_once arg arguments = true) →
      (command_line_text arguments).length + 1 < 2 ^ 64 →
      ∃ remaining : List Str,
        flags.foldl remove_arg (command_line_text arguments) = command_line_text remaining ∧
        (∀ x ∈ remaining, x ∈ arguments ∨ x = []) ∧
        (∀ arg ∈ flags, ∀ x ∈ remaining, mentions arg x = false) ∧
        (∀ kept : List Str, (∀ arg ∈ flags, ∀ y ∈ kept, mentions arg y = false) →
          kept.Sublist arguments → kept.Sublist remaining) := by
  induction flags with
  | nil =>
    intro arguments _ _
    exact ⟨arguments, rfl, fun x hx => Or.inl hx, by simp, fun _ _ h => h⟩
  | cons arg rest ih =>
    intro arguments hok hsize
    obtain ⟨first, hremove, hmem, hfree, hkeeps, hsize2, hsub⟩ :=
      remove_arg_carried_once_keeps arg (hflags arg (List.mem_cons_self _ _)) arguments
        (hok arg (List.mem_cons_self _ _)) hsize
    obtain ⟨remaining, hfold, hmem2, hfree2, hsub2⟩ :=
      ih (fun a ha => hflags a (List.mem_cons_of_mem _ ha)) first
        (fun a ha => hkeeps a (hok a (List.mem_cons_of_mem _ ha))) hsize2
    refine ⟨remaining, ?_, ?_, ?_, ?_⟩
    · rw [List.foldl_cons, hremove, hfold]
    · intro x hx
      rcases hmem2 x hx with h | h
      · exact hmem x h
      · exact Or.inr h
    · intro a ha x hx
      rcases List.mem_cons.mp ha with rfl | ha
      · rcases hmem2 x hx with h | h
        · exact hfree x h
        · rw [h]; exact mentions_nil _
      · exact hfree2 a ha x hx
    · intro kept hkept hsublist
      exact hsub2 kept (fun a ha => hkept a (List.mem_cons_of_mem _ ha))
        (hsub kept (hkept arg (List.mem_cons_self _ _)) hsublist)

/-- C6 as the code has it, for lines 488-518, which every call that gets behind
the lookup of line 404 runs on the command line it has arrived at.  When that
line is made of arguments separated by blanks, and each removed flag is carried
by at most one argument, which starts with the flag and has a closed value (a
quoted value may hold blanks, and the line need not end in a blank), the
command returned is the line of the remaining arguments, followed by the
quoted source path and the `/Fo` of the temporary object file.  The remaining
arguments are arguments of the line or empty, those that carried no flag are
all among them in their order, and their line is free of `-Fo`, `/Fo`, `-Fd`,
`/Fd`, `-ZI`, `/ZI`, `-Yu`, `/Yu`, `-Yc`, `/Yc`, `-JMC` and `/JMC`. -/
theorem remove_args_strips (arguments : List Str) (source_file : Str)
    (hcarried : flags_carried_once arguments = true)
    (hsize : (command_line_text arguments).length + 1 < 2 ^ 64) :
    ∃ remaining : List Str,
      (finish_command_line (command_line_text arguments) source_file).1
        = command_line_text remaining ++ ("\"".toList ++ source_file ++ "\"".toList
            ++ " /Fo\"".toList ++ temp_object_file source_file ++ "\"".toList) ∧
      (∀ y ∈ remaining, y ∈ arguments ∨ y = []) ∧
      (arguments.filter carries_no_flag).Sublist remaining ∧
      ∀ arg ∈ removed_flags, ∀ c : Char, c = '-' ∨ c = '/' →
        ¬ ∃ before after : Str, command_line_text remaining = before ++ (c :: arg) ++ after := by
  unfold flags_carried_once at hcarried
  simp only [List.all_eq_true] at hcarried
  obtain ⟨remaining, hfold, hmem, hfree, hsub⟩ :=
    remove_flags_carried_once removed_flags removed_flags_no_space arguments hcarried hsize
  have hremove : remove_args (command_line_text arguments) = command_line_text remaining :=
    hfold
  refine ⟨remaining, ?_, hmem, ?_, ?_⟩
  · simp [finish_command_line, hremove]
  · apply hsub _ _ (List.filter_sublist _)
    intro arg harg y hy
    have hy2 := (List.mem_filter.mp hy).2
    unfold carries_no_flag at hy2
    simp only [List.all_eq_true, Bool.not_eq_true'] at hy2
    exact hy2 arg harg
  · intro arg harg c hc ⟨before, after, hsplit⟩
    have hnospace : ' ' ∉ c :: arg :=
      flag_no_blank arg c (removed_flags_no_space arg harg) hc
    have hnone : find_at (c :: arg) (command_line_text remaining) 0 = none := by
      apply find_at_text_none _ _ 0 hnospace (by simp)
      intro x hx
      rcases hc with rfl | rfl
      · exact (not_mentions arg x (hfree arg harg x hx)).1
      · exact (not_mentions arg x (hfree arg harg x hx)).2
    have hsome := find_at_append_isSome (c :: arg) before after 0
    rw [hsplit, List.append_assoc] at hnone
    rw [hnone] at hsome
    cases hsome

set_option maxRecDepth 1000000 in
/-- The flags are stripped from the line of `quoted_arguments`, which ends
without a blank and carries quoted values with blanks; the arguments left are
those that carried no flag, around the blank that stays behind `/Yustdafx.h`.
The default line and the line read from the environment block of the example
are lines of the kind the theorem is about, too. -/
theorem remove_args_strips_witness :
    (flags_carried_once quoted_arguments = true ∧
      remove_args (command_line_text quoted_arguments)
        = "\"/tools/cl\" /c /I\"C:/Program Files/inc\"  /Od x.cpp".toList ∧
      command_line_text (default_arguments ++ [[]]) = default_command_line ∧
      flags_carried_once (default_arguments ++ [[]]) = true ∧
      command_line_text example_arguments
        = command_line_of_sections
            [{ Name := ".debug&S".toList, raw_data := debug_section_data [example_envblock] }] ∧
      flags_carried_once example_arguments = true) ∧
    ∃ remaining : List Str,
      (finish_command_line (command_line_text quoted_arguments) "x.cpp".toList).1
        = command_line_text remaining ++ ("\"".toList ++ "x.cpp".toList ++ "\"".toList
            ++ " /Fo\"".toList ++ temp_object_file "x.cpp".toList ++ "\"".toList) ∧
      (∀ y ∈ remaining, y ∈ quoted_arguments ∨ y = []) ∧
      (quoted_arguments.filter carries_no_flag).Sublist remaining ∧
      ∀ arg ∈ removed_flags, ∀ c : Char, c = '-' ∨ c = '/' →
        ¬ ∃ before after : Str, command_line_text remaining = before ++ (c :: arg) ++ after :=
  ⟨by decide, remove_args_strips quoted_arguments "x.cpp".toList (by decide) (by decide)⟩

set_option maxRecDepth 1000000 in
/-- C6 fails as stated.  The environment block read from an object file gives
the original arguments `/c -Fo"a.obj" /Fo"b.obj" /Od `: `remove_arg` erases the
`-Fo` argument and stops, and the command lines 488-518 make of the line still
carries `/Fo"b.obj"` before the appended `/Fo"x.temp.obj"`.  The same holds for
a line that carries `/Fo` twice in the same spelling.  In
`cl.exe /I"C:/Foo/inc" /c /Fo"out.obj" ` the one argument that is the flag
comes behind an include path that contains its text: the include path is cut
and the flag stays.  In `cl.exe /Fo"a.obj"x/Fo"b.obj" /c ` one argument alone
contains the flag, but more follows the closing quote of its value, and what
follows stays, less one character.  The function as a whole
returns for the empty source path only, the lookup of line 404 not returning
for any other; with an entry of the index for that path and the same object
file the command it returns carries `/Fo"b.obj"` as well. -/
theorem second_output_flag_survives :
    command_line_of_sections
        [{ Name := ".debug&S".toList, raw_data := debug_section_data [two_outputs_envblock] }]
      = ("cd /D \"/proj\"\nset PATH=%PATH%;/tools/cl\\..\\..\\x86;/tools/cl\\..\\..\\x64\n"
          ++ "\"/tools/cl\" /c -Fo\"a.obj\" /Fo\"b.obj\" /Od ").toList ∧
    (finish_command_line
        (command_line_of_sections
          [{ Name := ".debug&S".toList, raw_data := debug_section_data [two_outputs_envblock] }])
        "x.cpp".toList).1
      = ("cd /D \"/proj\"\nset PATH=%PATH%;/tools/cl\\..\\..\\x86;/tools/cl\\..\\..\\x64\n"
          ++ "\"/tools/cl\" /c /Fo\"b.obj\" /Od \"x.cpp\" /Fo\"x.temp.obj\"").toList ∧
    contains_str
      (finish_command_line
        (command_line_of_sections
          [{ Name := ".debug&S".toList, raw_data := debug_section_data [two_outputs_envblock] }])
        "x.cpp".toList).1 "/Fo\"b.obj\"".toList = true ∧
    (finish_command_line "cl.exe /Fo\"a.obj\" /c /Fo\"b.obj\"".toList "x.cpp".toList).1
      = "cl.exe /c /Fo\"b.obj\"\"x.cpp\" /Fo\"x.temp.obj\"".toList ∧
    (finish_command_line include_path_command_line "x.cpp".toList).1
      = "cl.exe /I\"C: /c /Fo\"out.obj\" \"x.cpp\" /Fo\"x.temp.obj\"".toList ∧
    (finish_command_line "cl.exe /Fo\"a.obj\"x/Fo\"b.obj\" /c ".toList "x.cpp".toList).1
      = "cl.exe /Fo\"b.obj\" /c \"x.cpp\" /Fo\"x.temp.obj\"".toList ∧
    build_compile_command_line (fun _ => 0) 1 [([], 0)] ["x.obj".toList]
        (fun _ => some
          [{ Name := ".debug&S".toList, raw_data := debug_section_data [two_outputs_envblock] }])
        []
      = some
        (("cd /D \"/proj\"\nset PATH=%PATH%;/tools/cl\\..\\..\\x86;/tools/cl\\..\\..\\x64\n"
          ++ "\"/tools/cl\" /c /Fo\"b.obj\" /Od \"\" /Fo\".temp.obj\"").toList,
          ".temp.obj".toList) := by
  decide

end BlinkParser
